import Mathlib

/-!
# kpsm2sk: layered signal-propagation network

Shallow embedding of `include/kpsm2sk.hpp` and of the two methods of `source/main.cpp`
that build the demo network.

* Scalars (`float` in the source) are rationals. The definitions named after the source
  functions take every arithmetic operation as exact; the definitions with the suffix
  `32` (section "Single-precision arithmetic") are the same functions with the result of
  every operation rounded to binary32. Statements that hold only when nothing rounds
  say so. NaN and the infinities are not represented, except in `Scalar.normalize`,
  which embeds the comparisons of `normalize` on a `float` that may be an infinity or a
  NaN; statements about a value obtained by a division assume a non-zero divisor.
* An `Integer` (`int`) index or size is a `Nat`; where the source adds two of them the
  sum is compared with `intMax`.
* A `std::vector` is a `List`; an index of type `Integer` that is stored in the
  network is a `Nat` (a negative index is never in range).
* Every access outside the bounds of a vector is undefined behaviour in the
  source; the operation that performs it returns `none` here.
* Methods that mutate `*this` take the network and return the new one.
-/

namespace kpsm2sk

/-! ## Data model -/

/-- Source `struct NodeAddr`: layer index and node index within the layer. -/
structure NodeAddr where
  layer : Nat
  node : Nat
deriving DecidableEq

/-- Source `struct LinkAddr`. -/
structure LinkAddr where
  layer : Nat
  node : Nat
  link : Nat
deriving DecidableEq

/-- Source `struct Connection`: the three tunable parameters and the target. -/
structure Connection where
  k : ℚ
  w : ℚ
  c : ℚ
  addr : NodeAddr
deriving DecidableEq

/-- Source `struct Node`: signal `s`, conductivity `c`, outgoing connections. -/
structure Node where
  s : ℚ
  c : ℚ
  links : List Connection
deriving DecidableEq

/-- Source `struct tuneResult`. -/
structure tuneResult where
  fails : Int
  total : Int
deriving DecidableEq

/-- Source `struct tuneSet`: one sample (input vector, expected output vector). -/
structure tuneSet where
  input : List ℚ
  output : List ℚ
deriving DecidableEq

/-- Source `class Network`: the only data member is `mat`. -/
structure Network where
  mat : List (List Node)
deriving DecidableEq

/-- Source `enum class ConProperty`. -/
inductive ConProperty where
  | K
  | W
  | C
deriving DecidableEq

/-! ## Node access -/

/-- Source `operator [](NodeAddr)` used as a read: `mat[i.layer][i.node]`. -/
def Network.getNode (net : Network) (a : NodeAddr) : Option Node :=
  match net.mat[a.layer]? with
  | none => none
  | some layer => layer[a.node]?

/-- Source `operator [](NodeAddr)` used as a read-modify-write of one node. -/
def Network.modNode (net : Network) (a : NodeAddr) (f : Node → Node) : Option Network :=
  match net.mat[a.layer]? with
  | none => none
  | some layer =>
    match layer[a.node]? with
    | none => none
    | some nd => some ⟨net.mat.set a.layer (layer.set a.node (f nd))⟩

/-! ## Topology builder -/

/-- Value-initialised node, as `resize` and `std::vector<Node>(n)` create it. -/
def Node.blank : Node := ⟨0, 0, []⟩

/-- Connections pushed by the innermost loop of `buildByConfig(config, k, w, c)`: one
to every node `i < count` of layer `target`, in increasing order of `i`. -/
def uniformLinks (k w c : ℚ) (target count : Nat) : List Connection :=
  (List.range count).map (fun i => ⟨k, w, c, ⟨target, i⟩⟩)

/-- Loop of `buildByConfig(config, k, w, c)` from layer `nLayer` on. -/
def buildLayers (k w c : ℚ) : Nat → List Nat → List (List Node)
  | _, [] => []
  | _, [n] => [List.replicate n Node.blank]
  | nLayer, n :: m :: rest =>
    List.replicate n ⟨0, 0, uniformLinks k w c (nLayer + 1) m⟩ ::
      buildLayers k w c (nLayer + 1) (m :: rest)

/-- Source `buildByConfig(config, k, w, c)`; a layer size is a `Nat`. -/
def buildByConfig (config : List Nat) (k w c : ℚ) : Network :=
  ⟨buildLayers k w c 0 config⟩

/-- Step `++lnk.addr.layer` of `insertLayer` on every connection of a node. -/
def shiftLinks (nd : Node) : Node :=
  { nd with links := nd.links.map (fun lnk =>
      { lnk with addr := ⟨lnk.addr.layer + 1, lnk.addr.node⟩ }) }

/-- Node `n` of the layer created by `insertLayer`: one connection to every node `i` of
the following layer, the one with `i == n` being `(1, 1, 0)`. -/
def insertedNode (layer following : Nat) (k w c : ℚ) (n : Nat) : Node :=
  ⟨0, 0, (List.range following).map (fun i =>
    ⟨if i = n then 1 else k, if i = n then 1 else w, if i = n then 0 else c,
      ⟨layer + 1, i⟩⟩)⟩

/-- Connections appended to a node of the previous layer by `insertLayer` and
`expandLayer`: one to every new node `i` with `prevNodes ≤ i < numNodes`. -/
def extraLinks (layer prevNodes numNodes : Nat) (k w c : ℚ) : List Connection :=
  (List.range' prevNodes (numNodes - prevNodes)).map (fun i => ⟨k, w, c, ⟨layer, i⟩⟩)

/-- Source `insertLayer`. The `assert(numNodes >= prevNodes)` fails to `none`. -/
def Network.insertLayer (net : Network) (layer numNodes : Nat) (k w c : ℚ) :
    Option Network :=
  match net.mat[layer]? with
  | none => none
  | some old =>
    if numNodes < old.length then none
    else
      let before := (net.mat.take layer).mapIdx (fun i l =>
        if i + 1 = layer then
          l.map (fun nd =>
            { nd with links := nd.links ++ extraLinks layer old.length numNodes k w c })
        else l)
      let inserted := (List.range numNodes).map (insertedNode layer old.length k w c)
      let after := (net.mat.drop layer).map (fun l => l.map shiftLinks)
      some ⟨before ++ inserted :: after⟩

/-- Network that `insertLayer` builds at position `p` when the new layer has the size
of the layer `old` found there: the layers before `p`, the new layer, and the layers
from `p` on with every target layer index incremented. -/
def insertSame (net : Network) (p : Nat) (old : List Node) (k w c : ℚ) : Network :=
  ⟨net.mat.take p ++ (List.range old.length).map (insertedNode p old.length k w c) ::
    (net.mat.drop p).map (fun l => l.map shiftLinks)⟩

/-! ## Forward propagator -/

/-- Body of the inner loop of `flow(Integer)` for the connection `lnk` of the node
at `src`. The node is a reference in the source, so its signal and conductivity
are read from the current state. Exact arithmetic; `Network.flowLink32` rounds every
operation. -/
def Network.flowLink (net : Network) (src : NodeAddr) (lnk : Connection) : Option Network :=
  match net.getNode src with
  | none => none
  | some node =>
    let tmp := (lnk.k + node.s - 2 * node.s * lnk.k) * node.c
    net.modNode lnk.addr
      (fun t => { t with s := t.s * (1 - lnk.w * tmp), c := t.c * (1 - lnk.c * tmp) })

/-- Inner loop of `flow(Integer)`: all connections of node `i` of layer `nLayer`, in
order. `flow` never writes a connection, so the list read at loop entry is the
list the range-for walks. -/
def Network.flowNode (net : Network) (nLayer i : Nat) : Option Network :=
  match net.getNode ⟨nLayer, i⟩ with
  | none => none
  | some node => node.links.foldlM (fun cur lnk => cur.flowLink ⟨nLayer, i⟩ lnk) net

/-- Source `flow(Integer nLayer)`. -/
def Network.flow (net : Network) (nLayer : Nat) : Option Network :=
  match net.mat[nLayer]? with
  | none => none
  | some layer => (List.range layer.length).foldlM (fun cur i => cur.flowNode nLayer i) net

/-- First `n` iterations of the loop of `flow()`: `flow(0)`, ..., `flow(n - 1)`. -/
def Network.flowUpTo (net : Network) (n : Nat) : Option Network :=
  (List.range n).foldlM (fun cur i => cur.flow i) net

/-- Source `flow()`: `flow(i)` for every `i` with `i + 1 < mat.size()`. -/
def Network.flowAll (net : Network) : Option Network :=
  net.flowUpTo (net.mat.length - 1)

/-- Source `reset(Integer nLayer)` on the layer itself. -/
def resetNodes (layer : List Node) : List Node :=
  layer.map (fun nd => { nd with s := 1, c := 1 })

/-- Source `reset(Integer nLayer)`. -/
def Network.resetLayer (net : Network) (nLayer : Nat) : Option Network :=
  match net.mat[nLayer]? with
  | none => none
  | some layer => some ⟨net.mat.set nLayer (resetNodes layer)⟩

/-- Source `reset()`: conductivity of layer 0 becomes 1 (its signal is kept), every
later layer is reset. `mat[0]` is read even when there is no layer. -/
def Network.reset (net : Network) : Option Network :=
  match net.mat with
  | [] => none
  | l0 :: rest => some ⟨l0.map (fun nd => { nd with c := 1 }) :: rest.map resetNodes⟩

/-- Source `run()`. -/
def Network.run (net : Network) : Option Network :=
  match net.reset with
  | none => none
  | some r => r.flowAll

/-- Loop of `loadInput` on layer 0: `mat[0][i].s = input[i]`. -/
def setSignals : List Node → List ℚ → List Node
  | nd :: nds, x :: xs => { nd with s := x } :: setSignals nds xs
  | nds, _ => nds

/-- Source `loadInput`. An empty input touches nothing; otherwise layer 0 must
exist and hold at least `input.size()` nodes. -/
def Network.loadInput (net : Network) (input : List ℚ) : Option Network :=
  match input, net.mat with
  | [], _ => some net
  | _ :: _, [] => none
  | x :: xs, l0 :: rest =>
    if (x :: xs).length ≤ l0.length then some ⟨setSignals l0 (x :: xs) :: rest⟩ else none

/-- Signals of the output layer, `mat.back()[n].s` for every `n`. -/
def Network.output (net : Network) : Option (List ℚ) :=
  net.mat.getLast?.map (fun layer => layer.map (fun nd => nd.s))

/-- Call sequence `loadInput(input); run();` of the source. -/
def Network.loadRun (net : Network) (input : List ℚ) : Option Network :=
  match net.loadInput input with
  | none => none
  | some loaded => loaded.run

/-! ## Error evaluator -/

/-- Accumulation loop shared by `calculateError` and `recalculateError`:
`err += diff * diff` with `diff = mat.back()[n].s - expOutput[n]` for every node `n` of
the last layer. Exact arithmetic; `sqErrAcc32` rounds every operation. -/
def sqErrAcc : ℚ → List Node → List ℚ → Option ℚ
  | err, [], _ => some err
  | _, _ :: _, [] => none
  | err, nd :: nds, e :: es => sqErrAcc (err + (nd.s - e) * (nd.s - e)) nds es

/-- Body of the sample loop of `calculateError`. -/
def Network.errorStep (acc : ℚ × Network) (smp : tuneSet) : Option (ℚ × Network) :=
  match acc.2.loadRun smp.input with
  | none => none
  | some r =>
    match r.mat.getLast? with
    | none => none
    | some last =>
      match sqErrAcc acc.1 last smp.output with
      | none => none
      | some err => some (err, r)

/-- Source `calculateError`: the error and the network as the runs leave it. -/
def Network.calculateError (net : Network) (tuneData : List tuneSet) : Option (ℚ × Network) :=
  tuneData.foldlM Network.errorStep (0, net)

/-- First loop of `recalculateError`: `reset(n + 1); flow(n);` for `n` from `flowBeg`
while `n + 1 < mat.size()`. -/
def Network.reflow (net : Network) (flowBeg : Nat) : Option Network :=
  (List.range' flowBeg (net.mat.length - 1 - flowBeg)).foldlM
    (fun cur n =>
      match cur.resetLayer (n + 1) with
      | none => none
      | some r => r.flow n) net

/-- Source `recalculateError`. -/
def Network.recalculateError (net : Network) (flowBeg : Nat) (expOutput : List ℚ) :
    Option (ℚ × Network) :=
  match net.reflow flowBeg with
  | none => none
  | some r =>
    match r.mat.getLast? with
    | none => none
    | some last =>
      match sqErrAcc 0 last expOutput with
      | none => none
      | some err => some (err, r)

/-! ## Analytic inverter

Division is the total division of `ℚ` (`x / 0 = 0`); the source produces a non-finite
float at a zero divisor, so statements about values obtained by a division carry the
hypothesis that the divisor is not zero. -/

/-- Source `normalize`. -/
def normalize (value : ℚ) : ℚ :=
  if 0 ≤ value ∧ value ≤ 1 then value
  else if 1 < value then 1
  else 0

/-- Read of `mat[addr.layer][addr.node].links[addr.link]`. -/
def Network.getLink (net : Network) (a : LinkAddr) : Option Connection :=
  match net.getNode ⟨a.layer, a.node⟩ with
  | none => none
  | some node => node.links[a.link]?

/-- Read-modify-write of `mat[addr.layer][addr.node].links[addr.link]`. -/
def Network.modLink (net : Network) (a : LinkAddr) (f : Connection → Connection) :
    Option Network :=
  match net.getNode ⟨a.layer, a.node⟩ with
  | none => none
  | some node =>
    match node.links[a.link]? with
    | none => none
    | some lnk =>
      net.modNode ⟨a.layer, a.node⟩ (fun nd => { nd with links := nd.links.set a.link (f lnk) })

/-- The property selected by `prop == K ? lnk.k : prop == W ? lnk.w : lnk.c`, read. -/
def Connection.getProp (lnk : Connection) (prop : ConProperty) : ℚ :=
  match prop with
  | .K => lnk.k
  | .W => lnk.w
  | .C => lnk.c

/-- The property selected by `prop == K ? lnk.k : prop == W ? lnk.w : lnk.c`, written. -/
def Connection.setProp (lnk : Connection) (prop : ConProperty) (v : ℚ) : Connection :=
  match prop with
  | .K => { lnk with k := v }
  | .W => { lnk with w := v }
  | .C => { lnk with c := v }

/-- Source `solveDelta`: every property other than `K` takes the `W` branch. Exact
arithmetic, and the value at a zero divisor (`Network.solveDivisors`) is not the source's;
`Network.solveDelta32` rounds every operation and has no value at a zero divisor. -/
def Network.solveDelta (net : Network) (addr : NodeAddr) (numLink : Nat) (expSignal : ℚ)
    (prop : ConProperty) : Option ℚ :=
  match net.getNode addr with
  | none => none
  | some node =>
    match node.links[numLink]? with
    | none => none
    | some lnk =>
      match prop with
      | .K =>
        let compExp := (1 - expSignal) / (lnk.w * node.c)
        let expK := (compExp - node.s) / (1 - 2 * node.s)
        some (normalize expK)
      | _ =>
        some (normalize
          ((1 - expSignal) / (node.c * (lnk.k + node.s - 2 * node.s * lnk.k))))

/-- Source `predictSignal`. The `assert` on the size of `expOutput` fails to `none`.
Exact arithmetic, and the value at a zero divisor (`Network.predictDivisors`) is not the
source's; `Network.predictSignal32` rounds every operation and has no value at a zero
divisor. -/
def Network.predictSignal (net : Network) (addr : NodeAddr) (expOutput : List ℚ) :
    Option ℚ :=
  match net.mat.getLast? with
  | none => none
  | some last =>
    if expOutput.length ≠ last.length then none
    else if addr.layer + 1 = net.mat.length then expOutput[addr.node]?
    else if expOutput.length ≠ 1 ∨ addr.layer + 2 ≠ net.mat.length then
      (net.getNode addr).map (fun nd => nd.s)
    else
      match net.getNode addr with
      | none => none
      | some node =>
        match node.links[0]?, last[0]?, expOutput[0]? with
        | some lnk, some out, some e =>
          let curSignal := 1 - lnk.w * node.c * (lnk.k + node.s - 2 * node.s * lnk.k)
          let clearOutput := out.s / curSignal
          let expSignal := e / clearOutput
          let compExp := (1 - expSignal) / (lnk.w * node.c)
          let expS := (compExp - lnk.k) / (1 - 2 * lnk.k)
          some expS
        | _, _, _ => none

/-! ## Tuning strategies -/

/-- Body of the sample loop of `collectTuningSummary(LinkAddr, ...)`; `target` is
`lnk.addr` of the connection at `addr`. -/
def Network.summaryStep (addr : LinkAddr) (target : NodeAddr) (prop : ConProperty)
    (acc : List ℚ × Network) (set : tuneSet) : Option (List ℚ × Network) :=
  match acc.2.loadRun set.input with
  | none => none
  | some r =>
    match r.predictSignal target set.output with
    | none => none
    | some sig =>
      match r.solveDelta ⟨addr.layer, addr.node⟩ addr.link sig prop with
      | none => none
      | some p => some (acc.1 ++ [p], r)

/-- Source `collectTuningSummary(LinkAddr, ...)`. -/
def Network.collectTuningSummary (net : Network) (addr : LinkAddr) (prop : ConProperty)
    (tuneData : List tuneSet) : Option (List ℚ × Network) :=
  match net.getLink addr with
  | none => none
  | some lnk => tuneData.foldlM (Network.summaryStep addr lnk.addr prop) ([], net)

/-- Aggregation loop of `tuneDeep`: running `(avg, min, max)` from `(0, 1, 0)`. -/
def summarize (tuneSmr : List ℚ) : ℚ × ℚ × ℚ :=
  tuneSmr.foldl
    (fun (a : ℚ × ℚ × ℚ) f =>
      (a.1 + f, (if f < a.2.1 then f else a.2.1), (if f > a.2.2 then f else a.2.2)))
    (0, 1, 0)

/-- Source `tuneDeep(NodeAddr, Integer, ...)`: the returned magnitude and the network.
Exact arithmetic, and the mean of an empty batch (`0 / 0`) is not the source's;
`Network.tuneDeep32` rounds every operation and has no value for an empty batch. -/
def Network.tuneDeep (net : Network) (addr : NodeAddr) (numLink : Nat) (prop : ConProperty)
    (tuneData : List tuneSet) (learnMul : ℚ) : Option (ℚ × Network) :=
  match net.collectTuningSummary ⟨addr.layer, addr.node, numLink⟩ prop tuneData with
  | none => none
  | some (tuneSmr, net1) =>
    match net1.getLink ⟨addr.layer, addr.node, numLink⟩ with
    | none => none
    | some lnk =>
      let avg := (summarize tuneSmr).1 / tuneSmr.length
      let min := (summarize tuneSmr).2.1
      let max := (summarize tuneSmr).2.2
      let p := lnk.getProp prop
      let diff := (1 + min - max) * (avg - p) * learnMul
      match net1.modLink ⟨addr.layer, addr.node, numLink⟩
          (fun l => l.setProp prop (normalize (p + diff))) with
      | none => none
      | some net2 => some (|diff|, net2)

/-- Store `v` in the selected property of the connection at `la`, then `calculateError`. -/
def Network.probe (net : Network) (la : LinkAddr) (prop : ConProperty) (v : ℚ)
    (tuneData : List tuneSet) : Option (ℚ × Network) :=
  match net.modLink la (fun l => l.setProp prop v) with
  | none => none
  | some n1 => n1.calculateError tuneData

/-- Tail of the loop body of `tuneShallow`: `++fails; value = prevValue;`. -/
def Network.revert (net : Network) (la : LinkAddr) (prop : ConProperty) (prevValue : ℚ) :
    Option (Int × Network) :=
  match net.modLink la (fun l => l.setProp prop prevValue) with
  | none => none
  | some n => some (1, n)

/-- Second half of the loop body of `tuneShallow`, entered with the current `value`:
the trial of `prevValue - learnMul`. The result is the increment of `fails`. -/
def Network.tuneDown (net : Network) (la : LinkAddr) (prop : ConProperty)
    (tuneData : List tuneSet) (learnMul currentErr prevValue value : ℚ) :
    Option (Int × Network) :=
  if value > 0 then
    let v := if prevValue - learnMul < 0 then 0 else prevValue - learnMul
    match net.probe la prop v tuneData with
    | none => none
    | some (err, n2) =>
      if err < currentErr then some (0, n2)
      else if err = currentErr then some (1, n2)
      else n2.revert la prop prevValue
  else net.revert la prop prevValue

/-- Loop body of `tuneShallow` for the connection `j` of the node. The result is the
increment of `fails`. -/
def Network.tuneLink (net : Network) (addr : NodeAddr) (j : Nat) (prop : ConProperty)
    (tuneData : List tuneSet) (learnMul currentErr : ℚ) : Option (Int × Network) :=
  match net.getLink ⟨addr.layer, addr.node, j⟩ with
  | none => none
  | some lnk =>
    let prevValue := lnk.getProp prop
    if prevValue < 1 then
      let v := if prevValue + learnMul > 1 then 1 else prevValue + learnMul
      match net.probe ⟨addr.layer, addr.node, j⟩ prop v tuneData with
      | none => none
      | some (err, n1) =>
        if err < currentErr then some (0, n1)
        else if err = currentErr then some (1, n1)
        else n1.tuneDown ⟨addr.layer, addr.node, j⟩ prop tuneData learnMul currentErr prevValue v
    else
      net.tuneDown ⟨addr.layer, addr.node, j⟩ prop tuneData learnMul currentErr prevValue
        prevValue

/-- Loop of `tuneShallow` over the connections of the node: `++total` and the body. -/
def Network.tuneStep (addr : NodeAddr) (prop : ConProperty) (tuneData : List tuneSet)
    (learnMul currentErr : ℚ) (acc : tuneResult × Network) (j : Nat) :
    Option (tuneResult × Network) :=
  match acc.2.tuneLink addr j prop tuneData learnMul currentErr with
  | none => none
  | some (f, n) => some (⟨acc.1.fails + f, acc.1.total + 1⟩, n)

/-- Source `tuneShallow`. -/
def Network.tuneShallow (net : Network) (addr : NodeAddr) (prop : ConProperty)
    (tuneData : List tuneSet) (learnMul : ℚ) : Option (tuneResult × Network) :=
  match net.calculateError tuneData with
  | none => none
  | some (currentErr, n0) =>
    match n0.getNode addr with
    | none => none
    | some node =>
      (List.range node.links.length).foldlM
        (Network.tuneStep addr prop tuneData learnMul currentErr) (⟨0, 0⟩, n0)

/-! ## Specification-level quantities -/

/-- Attenuation of a connection, as a function of the state of its source node. -/
def attenuation (n : Node) (lnk : Connection) : ℚ :=
  n.c * (lnk.k + n.s - 2 * n.s * lnk.k)

/-- Product of the signal factors of all connections of `layer` that target `t`. -/
def signalFactor (layer : List Node) (t : NodeAddr) : ℚ :=
  (layer.map (fun n =>
    ((n.links.filter (fun lnk => decide (lnk.addr = t))).map
      (fun lnk => 1 - lnk.w * attenuation n lnk)).prod)).prod

/-- Product of the conductivity factors of all connections of `layer` that target `t`. -/
def condFactor (layer : List Node) (t : NodeAddr) : ℚ :=
  (layer.map (fun n =>
    ((n.links.filter (fun lnk => decide (lnk.addr = t))).map
      (fun lnk => 1 - lnk.c * attenuation n lnk)).prod)).prod

/-- Product of the factors `g lnk` over the connections of `links` that target `t`. -/
def linkProd (g : Connection → ℚ) (links : List Connection) (t : NodeAddr) : ℚ :=
  ((links.filter (fun lnk => decide (lnk.addr = t))).map g).prod

/-- Every connection of layer `L` targets an existing node of a strictly later layer. -/
def Network.ForwardAt (net : Network) (L : Nat) : Prop :=
  ∀ n ∈ net.mat.getD L [], ∀ lnk ∈ n.links,
    L < lnk.addr.layer ∧ (net.getNode lnk.addr).isSome = true

instance (net : Network) (L : Nat) : Decidable (net.ForwardAt L) := by
  unfold Network.ForwardAt; infer_instance

/-- Every connection of the network targets an existing node of a strictly later layer
(the invariant of the data model). -/
def Network.Forward (net : Network) : Prop :=
  ∀ L, L < net.mat.length → net.ForwardAt L

instance (net : Network) : Decidable net.Forward := by
  unfold Network.Forward; infer_instance

/-- Every connection of the network targets an existing node. -/
def Network.Linked (net : Network) : Prop :=
  ∀ a n, net.getNode a = some n → ∀ lnk ∈ n.links, (net.getNode lnk.addr).isSome = true

/-- Static part of a network: layers, nodes and their connections with parameters,
without the transient signal and conductivity. -/
def Network.topology (net : Network) : List (List (List Connection)) :=
  net.mat.map (fun layer => layer.map (fun nd => nd.links))

/-- Addresses only: for every node the targets of its connections, in order. -/
def Network.skeleton (net : Network) : List (List (List NodeAddr)) :=
  net.mat.map (fun layer => layer.map (fun nd => nd.links.map (fun lnk => lnk.addr)))

/-- The vector lengths of the sample match the network: the input has the size of
layer 0 and the expected output the size of the last layer. -/
def Network.Fits (net : Network) (smp : tuneSet) : Prop :=
  net.mat.head?.map List.length = some smp.input.length ∧
    net.mat.getLast?.map List.length = some smp.output.length

instance (net : Network) (smp : tuneSet) : Decidable (net.Fits smp) := by
  unfold Network.Fits; infer_instance

/-- The three parameters of the connection lie in `[0,1]`. -/
def Connection.In01 (lnk : Connection) : Prop :=
  (0 ≤ lnk.k ∧ lnk.k ≤ 1) ∧ (0 ≤ lnk.w ∧ lnk.w ≤ 1) ∧ (0 ≤ lnk.c ∧ lnk.c ≤ 1)

instance (lnk : Connection) : Decidable lnk.In01 := by
  unfold Connection.In01; infer_instance

/-- Every connection parameter of the network lies in `[0,1]`. -/
def Network.ParamsIn01 (net : Network) : Prop :=
  ∀ layer ∈ net.mat, ∀ n ∈ layer, ∀ lnk ∈ n.links, lnk.In01

instance (net : Network) : Decidable net.ParamsIn01 := by
  unfold Network.ParamsIn01; infer_instance

/-- Two sources with weights `1/5` and `1/2` feeding one output, used as a concrete
input. -/
def twoSourceNet : Network :=
  ⟨[[⟨0, 0, [⟨0, 1/5, 0, ⟨1, 0⟩⟩]⟩, ⟨0, 0, [⟨0, 1/2, 0, ⟨1, 0⟩⟩]⟩], [⟨0, 0, []⟩]]⟩

/-- Unclamped value that `solveDelta` passes to `normalize`, from the state `nd` of the
source node, the connection and the desired signal `d`. -/
def unclamped (nd : Node) (lnk : Connection) (d : ℚ) : ConProperty → ℚ
  | .K => ((1 - d) / (lnk.w * nd.c) - nd.s) / (1 - 2 * nd.s)
  | _ => (1 - d) / (nd.c * (lnk.k + nd.s - 2 * nd.s * lnk.k))

/-- The divisors used by `solveDelta` for the property are not zero. -/
def DivisorsNonzero (nd : Node) (lnk : Connection) : ConProperty → Prop
  | .K => lnk.w * nd.c ≠ 0 ∧ 1 - 2 * nd.s ≠ 0
  | _ => nd.c * (lnk.k + nd.s - 2 * nd.s * lnk.k) ≠ 0

/-- One source with signal `1/4` feeding one output through a single connection, used
as a concrete input. -/
def singleLinkNet : Network :=
  ⟨[[⟨1/4, 1, [⟨1/4, 1/2, 0, ⟨1, 0⟩⟩]⟩], [⟨7/8, 1, []⟩]]⟩

/-- Proposal of one sample for the connection at `la` with target `target`:
`solveDelta(node, link, predictSignal(target, sample.output), prop)` computed right
after `loadInput(sample.input); run()`. -/
def Network.proposal (net : Network) (la : LinkAddr) (target : NodeAddr)
    (prop : ConProperty) (smp : tuneSet) : Option ℚ :=
  match net.loadRun smp.input with
  | none => none
  | some r =>
    match r.predictSignal target smp.output with
    | none => none
    | some sig => r.solveDelta ⟨la.layer, la.node⟩ la.link sig prop

/-- Divisors that `solveDelta(addr, numLink, _, prop)` evaluates, in order. -/
def Network.solveDivisors (net : Network) (addr : NodeAddr) (numLink : Nat)
    (prop : ConProperty) : List ℚ :=
  match net.getNode addr with
  | none => []
  | some node =>
    match node.links[numLink]? with
    | none => []
    | some lnk =>
      match prop with
      | .K => [lnk.w * node.c, 1 - 2 * node.s]
      | _ => [node.c * (lnk.k + node.s - 2 * node.s * lnk.k)]

/-- Divisors that `predictSignal(addr, expOutput)` evaluates, in order: none outside its
closed-form branch. -/
def Network.predictDivisors (net : Network) (addr : NodeAddr) (expOutput : List ℚ) :
    List ℚ :=
  match net.mat.getLast? with
  | none => []
  | some last =>
    if expOutput.length ≠ last.length then []
    else if addr.layer + 1 = net.mat.length then []
    else if expOutput.length ≠ 1 ∨ addr.layer + 2 ≠ net.mat.length then []
    else
      match net.getNode addr with
      | none => []
      | some node =>
        match node.links[0]?, last[0]? with
        | some lnk, some out =>
          let curSignal := 1 - lnk.w * node.c * (lnk.k + node.s - 2 * node.s * lnk.k)
          let clearOutput := out.s / curSignal
          [curSignal, clearOutput, lnk.w * node.c, 1 - 2 * lnk.k]
        | _, _ => []

/-- The read of `links[0]` in the closed-form branch of `predictSignal` is in range: a
node `t` of the second-to-last layer of a single-output network has a connection. -/
def Network.Predictable (net : Network) (t : NodeAddr) : Prop :=
  t.layer + 2 = net.mat.length → net.mat.getLast?.map List.length = some 1 →
    ∀ nd, net.getNode t = some nd → nd.links ≠ []

/-- Every connection targets an existing node of the next layer, as in every network
the topology builder produces. -/
def Network.Layered (net : Network) : Prop :=
  ∀ a n, net.getNode a = some n → ∀ lnk ∈ n.links,
    lnk.addr.layer = a.layer + 1 ∧ (net.getNode lnk.addr).isSome = true

/-- Nodes of layer `l` after `loadInput(input); run()` on a layered network: layer 0
holds the input with conductivity 1, node `t` of layer `l + 1` holds the products of the
factors of the connections of layer `l` that target it. -/
def layerVal (net : Network) (input : List ℚ) : Nat → List Node
  | 0 => List.zipWith (fun x nd => (⟨x, 1, nd.links⟩ : Node)) input (net.mat.getD 0 [])
  | l + 1 =>
    (net.mat.getD (l + 1) []).mapIdx (fun t nd =>
      (⟨signalFactor (layerVal net input l) ⟨l + 1, t⟩,
        condFactor (layerVal net input l) ⟨l + 1, t⟩, nd.links⟩ : Node))

/-- State of the run in which the layers up to `j` hold their final values and the
later layers their reset values. -/
def stateUpTo (net : Network) (input : List ℚ) (j : Nat) : Network :=
  ⟨net.mat.mapIdx (fun l layer => if l ≤ j then layerVal net input l else resetNodes layer)⟩

/-- No connection of the network acts on conductivity: every parameter `c` is `0`. -/
def Network.NoCond (net : Network) : Prop :=
  ∀ layer ∈ net.mat, ∀ n ∈ layer, ∀ lnk ∈ n.links, lnk.c = 0

/-- State that `loadInput(input); reset();` leaves: it depends on the topology and the
input only. -/
def initState (top : List (List (List Connection))) (input : List ℚ) : Network :=
  match top with
  | [] => ⟨[]⟩
  | l0 :: rest =>
    ⟨List.zipWith (fun x lk => (⟨x, 1, lk⟩ : Node)) input l0 ::
      rest.map (fun layer => layer.map (fun lk => (⟨1, 1, lk⟩ : Node)))⟩

/-- A two-layer network with two sources feeding one target, used as a concrete input. -/
def fanInNet : Network :=
  ⟨[[⟨1, 1, [⟨0, 1/2, 0, ⟨1, 0⟩⟩]⟩, ⟨1/2, 1, [⟨1/4, 1, 1/2, ⟨1, 0⟩⟩]⟩], [⟨1, 1, []⟩]]⟩

/-- Relation "`cur` is `net` with the signal of every node `t` multiplied by `F t` and
its conductivity by `G t`"; layers, sizes and connections are those of `net`. -/
def Scaled (net cur : Network) (F G : NodeAddr → ℚ) : Prop :=
  cur.mat.map List.length = net.mat.map List.length ∧
  ∀ t nd, net.getNode t = some nd →
    cur.getNode t = some { nd with s := nd.s * F t, c := nd.c * G t }

/-! ## Topology builder: branching fan-out, layer expansion, sequences of edits -/

/-- Largest value of the source type `Integer` (a 32-bit `int`). -/
def intMax : Nat := 2147483647

/-- Connections pushed for node `n` by the innermost loop of
`buildByConfig(config, branching, k, w, c)`: `i` starts at `n - b` (raised to `0`) and
runs while `i < end`, where `end` is `n + b` lowered to the size of the next layer.
The node index `n`, the radius `b` and the size are values of `Integer`, so each is at
most `intMax`; the sum `n + b` is an `int` sum, and when it exceeds `intMax` it wraps
to `n + b - 2^32 < 0`, so that `end` is negative and the loop body never runs. -/
def branchLinks (k w c : ℚ) (target n b size : Nat) : List Connection :=
  if n + b ≤ intMax then
    (List.range' (n - b) (min (n + b) size - (n - b))).map (fun i => ⟨k, w, c, ⟨target, i⟩⟩)
  else []

/-- Nodes of the non-last layer `nLayer` of size `n` built by
`buildByConfig(config, branching, k, w, c)`; `m` is the size of the next layer.
`branching[nLayer]` is read for every node, so it must exist unless the layer is empty. -/
def branchLayer (k w c : ℚ) (branching : List Nat) (nLayer n m : Nat) : Option (List Node) :=
  if n = 0 then some []
  else
    match branching[nLayer]? with
    | none => none
    | some b =>
      some ((List.range n).map (fun i => (⟨0, 0, branchLinks k w c (nLayer + 1) i b m⟩ : Node)))

/-- Loop of `buildByConfig(config, branching, k, w, c)` from layer `nLayer` on. -/
def buildBranchLayers (k w c : ℚ) (branching : List Nat) :
    Nat → List Nat → Option (List (List Node))
  | _, [] => some []
  | _, [n] => some [List.replicate n Node.blank]
  | nLayer, n :: m :: rest =>
    match branchLayer k w c branching nLayer n m,
      buildBranchLayers k w c branching (nLayer + 1) (m :: rest) with
    | some layer, some tail => some (layer :: tail)
    | _, _ => none

/-- Source `buildByConfig(config, branching, k, w, c)`; sizes and radii are `Nat`, each
at most `intMax` in the source. -/
def buildByConfigBranching (config branching : List Nat) (k w c : ℚ) : Option Network :=
  (buildBranchLayers k w c branching 0 config).map Network.mk

/-- Source `expandLayer`. The `assert(numNodes > prevNodes)` fails to `none`. -/
def Network.expandLayer (net : Network) (layer numNodes : Nat) (k w c : ℚ) :
    Option Network :=
  match net.mat[layer]? with
  | none => none
  | some old =>
    if numNodes = old.length then some net
    else if numNodes < old.length then none
    else
      let outbound := uniformLinks k w c (layer + 1) (net.mat.getD (layer + 1) []).length
      let grown := old ++ List.replicate (numNodes - old.length) (⟨0, 0, outbound⟩ : Node)
      some ⟨(net.mat.set layer grown).mapIdx (fun i l =>
        if i + 1 = layer then
          l.map (fun nd =>
            { nd with links := nd.links ++ extraLinks layer old.length numNodes k w c })
        else l)⟩

/-- One call of a topology-editing operation, with its arguments. -/
inductive Edit where
  | expand (layer numNodes : Nat) (k w c : ℚ)
  | insert (layer numNodes : Nat) (k w c : ℚ)
deriving DecidableEq

/-- The call named by the edit, made on the network. -/
def Network.applyEdit (net : Network) : Edit → Option Network
  | .expand layer numNodes k w c => net.expandLayer layer numNodes k w c
  | .insert layer numNodes k w c => net.insertLayer layer numNodes k w c

/-- A finite sequence of `expandLayer` and `insertLayer` calls, in order. -/
def Network.applyEdits (net : Network) (edits : List Edit) : Option Network :=
  edits.foldlM Network.applyEdit net

/-- The arguments of the call are valid on the network: the layer index is in range and
the new size is not smaller than the size of the layer at that index. -/
def Edit.Valid (net : Network) : Edit → Prop
  | .expand layer numNodes _ _ _ => ∃ old, net.mat[layer]? = some old ∧ old.length ≤ numNodes
  | .insert layer numNodes _ _ _ => ∃ old, net.mat[layer]? = some old ∧ old.length ≤ numNodes

/-- A network with a connection that skips a layer (from layer 0 to layer 2), used as a
concrete input. -/
def skipNet : Network :=
  ⟨[[⟨0, 0, [⟨1/4, 1/2, 0, ⟨2, 0⟩⟩]⟩], [⟨0, 0, [⟨1/4, 1/2, 0, ⟨2, 0⟩⟩]⟩], [⟨0, 0, []⟩]]⟩

/-- State of the uniform network with sizes `[2, 2, 1]` and `(k, w, c) = (1/4, 1/2, 0)`
after `loadInput([1, 1/2]); run()`, used as a concrete input. -/
def ranNet : Network :=
  ⟨[[⟨1, 1, [⟨1/4, 1/2, 0, ⟨1, 0⟩⟩, ⟨1/4, 1/2, 0, ⟨1, 1⟩⟩]⟩,
      ⟨1/2, 1, [⟨1/4, 1/2, 0, ⟨1, 0⟩⟩, ⟨1/4, 1/2, 0, ⟨1, 1⟩⟩]⟩],
    [⟨15/32, 1, [⟨1/4, 1/2, 0, ⟨2, 0⟩⟩]⟩, ⟨15/32, 1, [⟨1/4, 1/2, 0, ⟨2, 0⟩⟩]⟩],
    [⟨9409/16384, 1, []⟩]]⟩

/-- The state `ranNet` with the parameters of the two connections that start in layer 1
changed, used as a concrete input. -/
def retunedNet : Network :=
  ⟨[[⟨1, 1, [⟨1/4, 1/2, 0, ⟨1, 0⟩⟩, ⟨1/4, 1/2, 0, ⟨1, 1⟩⟩]⟩,
      ⟨1/2, 1, [⟨1/4, 1/2, 0, ⟨1, 0⟩⟩, ⟨1/4, 1/2, 0, ⟨1, 1⟩⟩]⟩],
    [⟨15/32, 1, [⟨1/2, 1, 0, ⟨2, 0⟩⟩]⟩, ⟨15/32, 1, [⟨0, 1/3, 0, ⟨2, 0⟩⟩]⟩],
    [⟨9409/16384, 1, []⟩]]⟩

/-! ## Values of `float` outside the rationals

The comparisons that `normalize` makes are the only operations of the source whose
result on an infinity or a NaN is used to choose a branch. -/

/-- Value of a `float`: a finite value (exact here), an infinity or a NaN. -/
inductive Scalar where
  | finite (q : ℚ)
  | posInf
  | negInf
  | nan
deriving DecidableEq

/-- Comparison `a <= b` of two `float`s: false as soon as one of them is a NaN. -/
def Scalar.le : Scalar → Scalar → Bool
  | .nan, _ => false
  | _, .nan => false
  | .negInf, _ => true
  | _, .posInf => true
  | .finite a, .finite b => decide (a ≤ b)
  | _, _ => false

/-- Comparison `a < b` of two `float`s: false as soon as one of them is a NaN. -/
def Scalar.lt : Scalar → Scalar → Bool
  | .nan, _ => false
  | _, .nan => false
  | .posInf, _ => false
  | _, .negInf => false
  | .negInf, _ => true
  | _, .posInf => true
  | .finite a, .finite b => decide (a < b)

/-- Source `normalize` on a `float` that may be an infinity or a NaN:
`value >= 0.f && value <= 1.f`, then `value > 1.f`. -/
def Scalar.normalize (value : Scalar) : Scalar :=
  if Scalar.le (.finite 0) value && Scalar.le value (.finite 1) then value
  else if Scalar.lt (.finite 1) value then .finite 1
  else .finite 0

/-! ## The demo network (`source/main.cpp`)

`SpoofGPT` derives from `Network`; the two methods below build and extend its `mat`. The
text file only fixes the vocabulary size, which is a parameter here. -/

/-- Source `SpoofGPT::buildByText` once the text is loaded: `netWordSize` is
`pTxt.voc.size() + 1` and `inputWords` is the global `g_inputWords`. The configuration
`{netWordSize * inputWords, 0, 0, netWordSize}` is built with `(0, 1, 0)`, then layer 2
is resized to `netWordSize` nodes and node `i` gets one connection `(0, 1, 0)` to `{3, i}`. -/
def buildByText (inputWords netWordSize : Nat) : Network :=
  ⟨(buildByConfig [netWordSize * inputWords, 0, 0, netWordSize] 0 1 0).mat.set 2
    ((List.range netWordSize).map (fun i => (⟨0, 0, [⟨0, 1, 0, ⟨3, i⟩⟩]⟩ : Node)))⟩

/-- Source `SpoofGPT::addLogicPattern`: a node with the single connection `(0, 1, 0)` to
`{2, outputNode}` is pushed onto layer 1, then every `mat[0][i]` with `i` in `inputNodes`
gets a connection `(1, 1, 0)` to that node, `{1, mat[1].size() - 1}`. -/
def Network.addLogicPattern (net : Network) (inputNodes : List Nat) (outputNode : Nat) :
    Option Network :=
  match net.mat[1]? with
  | none => none
  | some l1 =>
    inputNodes.foldlM
      (fun cur i => cur.modNode ⟨0, i⟩
        (fun nd => { nd with links := nd.links ++ [⟨1, 1, 0, ⟨1, l1.length⟩⟩] }))
      (⟨net.mat.set 1 (l1 ++ [⟨0, 0, [⟨0, 1, 0, ⟨2, outputNode⟩⟩]⟩])⟩ : Network)

/-- A sequence of `addLogicPattern(inputNodes, outputNode)` calls, in order. -/
def Network.addLogicPatterns (net : Network) (patterns : List (List Nat × Nat)) :
    Option Network :=
  patterns.foldlM (fun cur p => cur.addLogicPattern p.1 p.2) net

/-- Product of the signals of the input nodes of a pattern (its AND part). -/
def andValue (input : List ℚ) (inputNodes : List Nat) : ℚ :=
  (inputNodes.map (fun i => input.getD i 0)).prod

/-- The value `1 - ∏ (1 - AND)` over the patterns whose output node is `o` (the OR of
their AND parts). -/
def orValue (input : List ℚ) (patterns : List (List Nat × Nat)) (o : Nat) : ℚ :=
  1 - ((patterns.filter (fun p => decide (p.2 = o))).map
    (fun p => 1 - andValue input p.1)).prod

/-- The arguments of the `addLogicPattern` calls are in range for the network built by
`buildByText`: every input node is a node of layer 0, every output node a node of
layer 2. -/
def ValidPatterns (inputWords netWordSize : Nat) (patterns : List (List Nat × Nat)) : Prop :=
  ∀ p ∈ patterns, (∀ i ∈ p.1, i < netWordSize * inputWords) ∧ p.2 < netWordSize

instance (inputWords netWordSize : Nat) (patterns : List (List Nat × Nat)) :
    Decidable (ValidPatterns inputWords netWordSize patterns) := by
  unfold ValidPatterns; infer_instance

/-- Connections of node `i` of layer 0 after the calls: for the `a`-th pattern, one
connection `(1, 1, 0)` to `{1, a}` for every occurrence of `i` among its input nodes. -/
def patternLinks (patterns : List (List Nat × Nat)) (i : Nat) : List Connection :=
  (patterns.mapIdx (fun a p =>
    (p.1.filter (fun j => decide (j = i))).map
      (fun _ => (⟨1, 1, 0, ⟨1, a⟩⟩ : Connection)))).flatten

/-- Closed form of the network that `buildByText` followed by the calls produces. -/
def patternNet (inputWords netWordSize : Nat) (patterns : List (List Nat × Nat)) : Network :=
  ⟨[(List.range (netWordSize * inputWords)).map
      (fun i => (⟨0, 0, patternLinks patterns i⟩ : Node)),
    patterns.map (fun p => (⟨0, 0, [⟨0, 1, 0, ⟨2, p.2⟩⟩]⟩ : Node)),
    (List.range netWordSize).map (fun i => (⟨0, 0, [⟨0, 1, 0, ⟨3, i⟩⟩]⟩ : Node)),
    List.replicate netWordSize Node.blank]⟩

/-! ## Unit interval -/

/-- The signal and the conductivity of every node lie in `[0,1]`. -/
def Network.Unit01 (net : Network) : Prop :=
  ∀ layer ∈ net.mat, ∀ n ∈ layer, (0 ≤ n.s ∧ n.s ≤ 1) ∧ (0 ≤ n.c ∧ n.c ≤ 1)

instance (net : Network) : Decidable net.Unit01 := by
  unfold Network.Unit01; infer_instance

/-! ## Single-precision arithmetic

The definitions above take every `float` operation as exact. The definitions of this
section are the same source functions with the result of every arithmetic operation
rounded to the nearest binary32 value (ties to even, subnormal range included), in the
order in which the source evaluates the operations. Each operation is rounded on its
own: no fused multiply-add and no wider intermediate format. Infinities, NaN and the
sign of zero are not represented: a division by zero is `none`, and a result of
magnitude `2 ^ 128` or more does not occur in the evaluations made with these
definitions. In these evaluations every value stored in a network or passed as an
argument is a binary32 value, that is, a fixed point of `round32`. -/

/-- The power `2 ^ e` for an integer exponent. -/
def pow2 (e : Int) : ℚ :=
  if 0 ≤ e then ((2 ^ e.toNat : Nat) : ℚ) else 1 / ((2 ^ (-e).toNat : Nat) : ℚ)

/-- Number of halvings that bring `n` below `2`, at most `fuel` of them: the position of
the leading bit of `n` when `fuel ≥ n`. -/
def log2Fuel : Nat → Nat → Nat
  | 0, _ => 0
  | fuel + 1, n => if n < 2 then 0 else log2Fuel fuel (n / 2) + 1

/-- Binary exponent of a positive rational `a`: the `e` with `2 ^ e ≤ a < 2 ^ (e + 1)`. -/
def ilog2 (a : ℚ) : Int :=
  let e0 : Int := (log2Fuel a.num.natAbs a.num.natAbs : Int) - (log2Fuel a.den a.den : Int)
  if a < pow2 e0 then e0 - 1 else e0

/-- Nearest integer to `m`; when `m` lies halfway between two integers, the even one. -/
def roundEven (m : ℚ) : Int :=
  let f := Rat.floor m
  let r := m - f
  if r < 1/2 then f else if 1/2 < r then f + 1 else if f % 2 = 0 then f else f + 1

/-- Rounding of an exact result to binary32, to nearest with ties to even. With `e` the
binary exponent of `|x|`, not below the smallest normal exponent `-126`, the binary32
values around `x` are the integer multiples of `2 ^ (e - 23)`; `|x|` is rounded to the
nearest such multiple, and on a tie to the one with an even multiplier. -/
def round32 (x : ℚ) : ℚ :=
  if x = 0 then 0
  else
    let a := if x < 0 then -x else x
    let q := pow2 (max (ilog2 a) (-126) - 23)
    (if x < 0 then -1 else 1) * roundEven (a / q) * q

/-- The `float` sum `a + b`. -/
def fadd (a b : ℚ) : ℚ := round32 (a + b)

/-- The `float` difference `a - b`. -/
def fsub (a b : ℚ) : ℚ := round32 (a - b)

/-- The `float` product `a * b`. -/
def fmul (a b : ℚ) : ℚ := round32 (a * b)

/-- The `float` quotient `a / b`; at a zero divisor the source obtains an infinity or a
NaN, which is not represented: `none`. -/
def fdiv (a b : ℚ) : Option ℚ := if b = 0 then none else some (round32 (a / b))

/-- Body of the inner loop of `flow(Integer)` in single precision:
`tmp = lnk.k + node.s - 2.f * node.s * lnk.k; tmp *= node.c;`, then
`s *= 1.f - lnk.w * tmp; c *= 1.f - lnk.c * tmp;` on the target. -/
def Network.flowLink32 (net : Network) (src : NodeAddr) (lnk : Connection) :
    Option Network :=
  match net.getNode src with
  | none => none
  | some node =>
    let tmp := fmul (fsub (fadd lnk.k node.s) (fmul (fmul 2 node.s) lnk.k)) node.c
    net.modNode lnk.addr
      (fun t => { t with s := fmul t.s (fsub 1 (fmul lnk.w tmp)),
                         c := fmul t.c (fsub 1 (fmul lnk.c tmp)) })

/-- Inner loop of `flow(Integer)` in single precision. -/
def Network.flowNode32 (net : Network) (nLayer i : Nat) : Option Network :=
  match net.getNode ⟨nLayer, i⟩ with
  | none => none
  | some node => node.links.foldlM (fun cur lnk => cur.flowLink32 ⟨nLayer, i⟩ lnk) net

/-- Source `flow(Integer nLayer)` in single precision. -/
def Network.flow32 (net : Network) (nLayer : Nat) : Option Network :=
  match net.mat[nLayer]? with
  | none => none
  | some layer => (List.range layer.length).foldlM (fun cur i => cur.flowNode32 nLayer i) net

/-- Source `flow()` in single precision. -/
def Network.flowAll32 (net : Network) : Option Network :=
  (List.range (net.mat.length - 1)).foldlM (fun cur i => cur.flow32 i) net

/-- Source `run()` in single precision. -/
def Network.run32 (net : Network) : Option Network :=
  match net.reset with
  | none => none
  | some r => r.flowAll32

/-- Call sequence `loadInput(input); run();` in single precision. -/
def Network.loadRun32 (net : Network) (input : List ℚ) : Option Network :=
  match net.loadInput input with
  | none => none
  | some loaded => loaded.run32

/-- Accumulation loop of `calculateError` in single precision:
`diff = mat.back()[n].s - expOutput[n]; err += diff * diff;`. -/
def sqErrAcc32 : ℚ → List Node → List ℚ → Option ℚ
  | err, [], _ => some err
  | _, _ :: _, [] => none
  | err, nd :: nds, e :: es =>
    sqErrAcc32 (fadd err (fmul (fsub nd.s e) (fsub nd.s e))) nds es

/-- Body of the sample loop of `calculateError` in single precision. -/
def Network.errorStep32 (acc : ℚ × Network) (smp : tuneSet) : Option (ℚ × Network) :=
  match acc.2.loadRun32 smp.input with
  | none => none
  | some r =>
    match r.mat.getLast? with
    | none => none
    | some last =>
      match sqErrAcc32 acc.1 last smp.output with
      | none => none
      | some err => some (err, r)

/-- Source `calculateError` in single precision. -/
def Network.calculateError32 (net : Network) (tuneData : List tuneSet) :
    Option (ℚ × Network) :=
  tuneData.foldlM Network.errorStep32 (0, net)

/-- First loop of `recalculateError` in single precision: `reset(n + 1); flow(n);` for
`n` from `flowBeg` while `n + 1 < mat.size()`. -/
def Network.reflow32 (net : Network) (flowBeg : Nat) : Option Network :=
  (List.range' flowBeg (net.mat.length - 1 - flowBeg)).foldlM
    (fun cur n =>
      match cur.resetLayer (n + 1) with
      | none => none
      | some r => r.flow32 n) net

/-- Source `solveDelta` in single precision. Branch `K`:
`compExp = (1.f - expSignal) / (lnk.w * node.c)`, then
`(compExp - node.s) / (1.f - 2.f * node.s)`; otherwise
`(1.f - expSignal) / (node.c * (lnk.k + node.s - 2.f * node.s * lnk.k))`. -/
def Network.solveDelta32 (net : Network) (addr : NodeAddr) (numLink : Nat) (expSignal : ℚ)
    (prop : ConProperty) : Option ℚ :=
  match net.getNode addr with
  | none => none
  | some node =>
    match node.links[numLink]? with
    | none => none
    | some lnk =>
      match prop with
      | .K =>
        match fdiv (fsub 1 expSignal) (fmul lnk.w node.c) with
        | none => none
        | some compExp =>
          match fdiv (fsub compExp node.s) (fsub 1 (fmul 2 node.s)) with
          | none => none
          | some expK => some (normalize expK)
      | _ =>
        match fdiv (fsub 1 expSignal)
            (fmul node.c (fsub (fadd lnk.k node.s) (fmul (fmul 2 node.s) lnk.k))) with
        | none => none
        | some p => some (normalize p)

/-- Source `predictSignal` in single precision. In the closed-form branch:
`curSignal = 1.f - lnk.w * node.c * (lnk.k + node.s - 2.f * node.s * lnk.k)`,
`clearOutput = mat.back()[0].s / curSignal`, `expSignal = expOutput[0] / clearOutput`,
`compExp = (1.f - expSignal) / (lnk.w * node.c)` and the result
`(compExp - lnk.k) / (1.f - 2.f * lnk.k)`. -/
def Network.predictSignal32 (net : Network) (addr : NodeAddr) (expOutput : List ℚ) :
    Option ℚ :=
  match net.mat.getLast? with
  | none => none
  | some last =>
    if expOutput.length ≠ last.length then none
    else if addr.layer + 1 = net.mat.length then expOutput[addr.node]?
    else if expOutput.length ≠ 1 ∨ addr.layer + 2 ≠ net.mat.length then
      (net.getNode addr).map (fun nd => nd.s)
    else
      match net.getNode addr with
      | none => none
      | some node =>
        match node.links[0]?, last[0]?, expOutput[0]? with
        | some lnk, some out, some e =>
          let curSignal := fsub 1 (fmul (fmul lnk.w node.c)
            (fsub (fadd lnk.k node.s) (fmul (fmul 2 node.s) lnk.k)))
          match fdiv out.s curSignal with
          | none => none
          | some clearOutput =>
            match fdiv e clearOutput with
            | none => none
            | some expSignal =>
              match fdiv (fsub 1 expSignal) (fmul lnk.w node.c) with
              | none => none
              | some compExp => fdiv (fsub compExp lnk.k) (fsub 1 (fmul 2 lnk.k))
        | _, _, _ => none

/-- Body of the sample loop of `collectTuningSummary(LinkAddr, ...)` in single
precision. -/
def Network.summaryStep32 (addr : LinkAddr) (target : NodeAddr) (prop : ConProperty)
    (acc : List ℚ × Network) (set : tuneSet) : Option (List ℚ × Network) :=
  match acc.2.loadRun32 set.input with
  | none => none
  | some r =>
    match r.predictSignal32 target set.output with
    | none => none
    | some sig =>
      match r.solveDelta32 ⟨addr.layer, addr.node⟩ addr.link sig prop with
      | none => none
      | some p => some (acc.1 ++ [p], r)

/-- Source `collectTuningSummary(LinkAddr, ...)` in single precision. -/
def Network.collectTuningSummary32 (net : Network) (addr : LinkAddr) (prop : ConProperty)
    (tuneData : List tuneSet) : Option (List ℚ × Network) :=
  match net.getLink addr with
  | none => none
  | some lnk => tuneData.foldlM (Network.summaryStep32 addr lnk.addr prop) ([], net)

/-- Aggregation loop of `tuneDeep` in single precision: `avg += f` is the only
arithmetic operation of the loop. -/
def summarize32 (tuneSmr : List ℚ) : ℚ × ℚ × ℚ :=
  tuneSmr.foldl
    (fun (a : ℚ × ℚ × ℚ) f =>
      (fadd a.1 f, (if f < a.2.1 then f else a.2.1), (if f > a.2.2 then f else a.2.2)))
    (0, 1, 0)

/-- Source `tuneDeep(NodeAddr, Integer, ...)` in single precision:
`avg /= tuneSmr.size()` converts the size to `float`, then
`diff = (1.f + min - max) * (avg - p) * learnMul; p = normalize(p + diff);`. -/
def Network.tuneDeep32 (net : Network) (addr : NodeAddr) (numLink : Nat)
    (prop : ConProperty) (tuneData : List tuneSet) (learnMul : ℚ) : Option (ℚ × Network) :=
  match net.collectTuningSummary32 ⟨addr.layer, addr.node, numLink⟩ prop tuneData with
  | none => none
  | some (tuneSmr, net1) =>
    match net1.getLink ⟨addr.layer, addr.node, numLink⟩ with
    | none => none
    | some lnk =>
      match fdiv (summarize32 tuneSmr).1 (round32 tuneSmr.length) with
      | none => none
      | some avg =>
        let min := (summarize32 tuneSmr).2.1
        let max := (summarize32 tuneSmr).2.2
        let p := lnk.getProp prop
        let diff := fmul (fmul (fsub (fadd 1 min) max) (fsub avg p)) learnMul
        match net1.modLink ⟨addr.layer, addr.node, numLink⟩
            (fun l => l.setProp prop (normalize (fadd p diff))) with
        | none => none
        | some net2 => some (|diff|, net2)

/-- The network after `n` successive calls of `tuneDeep` on the same connection with the
same batch, in single precision. -/
def Network.tuneDeepTimes32 (net : Network) (addr : NodeAddr) (numLink : Nat)
    (prop : ConProperty) (tuneData : List tuneSet) (learnMul : ℚ) : Nat → Option Network
  | 0 => some net
  | n + 1 =>
    match net.tuneDeepTimes32 addr numLink prop tuneData learnMul n with
    | none => none
    | some cur => (cur.tuneDeep32 addr numLink prop tuneData learnMul).map (fun res => res.2)

/-- Two sources with weights `0.2f` and `0.5f` feeding one output, used as a concrete
input: `twoSourceNet` with its weights as binary32 values. -/
def twoSourceNet32 : Network :=
  ⟨[[⟨0, 0, [⟨0, 13421773/67108864, 0, ⟨1, 0⟩⟩]⟩, ⟨0, 0, [⟨0, 1/2, 0, ⟨1, 0⟩⟩]⟩],
    [⟨0, 0, []⟩]]⟩

/-! ## Loops as invariants -/

theorem foldlM_range_inv {σ : Type} (f : σ → Nat → Option σ) (I : Nat → σ → Prop) (n : Nat)
    (s0 : σ) (h0 : I 0 s0)
    (hstep : ∀ k s, k < n → I k s → ∃ s', f s k = some s' ∧ I (k + 1) s') :
    ∃ s', (List.range n).foldlM f s0 = some s' ∧ I n s' := by
  induction n with
  | zero => exact ⟨s0, by simp, h0⟩
  | succ m ih =>
    obtain ⟨s1, h1, hI1⟩ := ih (fun k s hk hI => hstep k s (Nat.lt_succ_of_lt hk) hI)
    obtain ⟨s2, h2, hI2⟩ := hstep m s1 (Nat.lt_succ_self m) hI1
    refine ⟨s2, ?_, hI2⟩
    rw [List.range_succ, List.foldlM_append, h1]
    simp [h2]

theorem foldlM_list_inv {σ α : Type} (f : σ → α → Option σ) (I : List α → σ → Prop)
    (xs : List α) (s0 : σ) (h0 : I [] s0)
    (hstep : ∀ pre x suf s, xs = pre ++ x :: suf → I pre s →
      ∃ s', f s x = some s' ∧ I (pre ++ [x]) s') :
    ∃ s', xs.foldlM f s0 = some s' ∧ I xs s' := by
  suffices H : ∀ (suf pre : List α) (s : σ), xs = pre ++ suf → I pre s →
      ∃ s', suf.foldlM f s = some s' ∧ I xs s' from H xs [] s0 rfl h0
  intro suf
  induction suf with
  | nil =>
    intro pre s hxs hI
    refine ⟨s, by simp, ?_⟩
    simpa [hxs] using hI
  | cons x suf ih =>
    intro pre s hxs hI
    obtain ⟨s1, h1, hI1⟩ := hstep pre x suf s hxs hI
    obtain ⟨s2, h2, hI2⟩ := ih (pre ++ [x]) s1 (by simp [hxs]) hI1
    exact ⟨s2, by simp [List.foldlM, h1, h2], hI2⟩


/-! ## Node access lemmas -/

theorem modNode_of_getNode {net : Network} {a : NodeAddr} {nd : Node} (f : Node → Node)
    (h : net.getNode a = some nd) :
    ∃ net', net.modNode a f = some net' ∧
      net'.mat.map List.length = net.mat.map List.length ∧
      net'.getNode a = some (f nd) ∧
      ∀ b, b ≠ a → net'.getNode b = net.getNode b := by
  unfold Network.getNode at h
  cases hl : net.mat[a.layer]? with
  | none => simp [hl] at h
  | some layer =>
    simp only [hl] at h
    have hlt : a.layer < net.mat.length := by
      by_contra hc
      rw [List.getElem?_eq_none (by omega)] at hl
      cases hl
    have hnt : a.node < layer.length := by
      by_contra hc
      rw [List.getElem?_eq_none (by omega)] at h
      cases h
    refine ⟨⟨net.mat.set a.layer (layer.set a.node (f nd))⟩, ?_, ?_, ?_, ?_⟩
    · simp [Network.modNode, hl, h]
    · apply List.ext_getElem?
      intro i
      simp only [List.getElem?_map, List.getElem?_set]
      by_cases hi : a.layer = i
      · subst hi
        simp [hlt, hl]
      · simp [hi]
    · simp [Network.getNode, List.getElem?_set, hlt, hnt]
    · intro b hb
      simp only [Network.getNode, List.getElem?_set]
      by_cases hi : a.layer = b.layer
      · simp only [hi, if_true]
        rw [hi] at hlt hl
        simp only [hlt, if_true, hl]
        have hn : a.node ≠ b.node := by
          intro hn
          apply hb
          cases a; cases b; simp_all
        simp [List.getElem?_set, hn]
      · simp [hi]

theorem Scaled.refl (net : Network) : Scaled net net (fun _ => 1) (fun _ => 1) := by
  refine ⟨rfl, ?_⟩
  intro t nd h
  simp [h]

theorem Scaled.congr {net cur : Network} {F G F' G' : NodeAddr → ℚ} (h : Scaled net cur F G)
    (hF : ∀ t, F t = F' t) (hG : ∀ t, G t = G' t) : Scaled net cur F' G' := by
  have e1 : F = F' := funext hF
  have e2 : G = G' := funext hG
  subst e1 e2
  exact h

theorem Scaled.getNode_isSome {net cur : Network} {F G : NodeAddr → ℚ} (h : Scaled net cur F G)
    {t : NodeAddr} (ht : (net.getNode t).isSome = true) : (cur.getNode t).isSome = true := by
  obtain ⟨nd, hnd⟩ := Option.isSome_iff_exists.mp ht
  rw [h.2 t nd hnd]
  rfl

theorem Scaled.step {net cur : Network} {F G : NodeAddr → ℚ} (h : Scaled net cur F G)
    {a : NodeAddr} (ha : (net.getNode a).isSome = true) (fs fc : ℚ) :
    ∃ cur', cur.modNode a (fun t => { t with s := t.s * fs, c := t.c * fc }) = some cur' ∧
      Scaled net cur' (fun t => F t * (if t = a then fs else 1))
        (fun t => G t * (if t = a then fc else 1)) := by
  obtain ⟨nd, hnd⟩ := Option.isSome_iff_exists.mp ha
  obtain ⟨cur', hmod, hlen, hat, hoth⟩ :=
    modNode_of_getNode (fun t => { t with s := t.s * fs, c := t.c * fc }) (h.2 a nd hnd)
  refine ⟨cur', hmod, hlen.trans h.1, ?_⟩
  intro t nt hnt
  by_cases hta : t = a
  · subst hta
    rw [hat]
    rw [hnd] at hnt
    cases hnt
    simp [mul_assoc]
  · rw [hoth t hta, h.2 t nt hnt]
    simp [hta]

/-! ## Closed form of one propagation step -/

theorem linkProd_nil (g : Connection → ℚ) (t : NodeAddr) : linkProd g [] t = 1 := by
  simp [linkProd]

theorem linkProd_snoc (g : Connection → ℚ) (pre : List Connection) (x : Connection)
    (t : NodeAddr) :
    linkProd g (pre ++ [x]) t = linkProd g pre t * (if t = x.addr then g x else 1) := by
  unfold linkProd
  by_cases h : x.addr = t
  · subst h
    simp [List.filter_append]
  · have h' : ¬ t = x.addr := fun e => h e.symm
    simp [List.filter_append, h, h']

theorem linkProd_eq_one (g : Connection → ℚ) (links : List Connection) (t : NodeAddr)
    (h : ∀ lnk ∈ links, lnk.addr ≠ t) : linkProd g links t = 1 := by
  unfold linkProd
  have : links.filter (fun lnk => decide (lnk.addr = t)) = [] := by
    rw [List.filter_eq_nil_iff]
    intro lnk hl
    simpa using h lnk hl
  simp [this]

theorem signalFactor_eq (layer : List Node) (t : NodeAddr) :
    signalFactor layer t =
      (layer.map (fun n => linkProd (fun lnk => 1 - lnk.w * attenuation n lnk) n.links t)).prod :=
  rfl

theorem condFactor_eq (layer : List Node) (t : NodeAddr) :
    condFactor layer t =
      (layer.map (fun n => linkProd (fun lnk => 1 - lnk.c * attenuation n lnk) n.links t)).prod :=
  rfl

theorem flowLink_scaled {net cur : Network} {F G : NodeAddr → ℚ} (h : Scaled net cur F G)
    {src : NodeAddr} {n : Node} (hsrc : net.getNode src = some n)
    (hF : F src = 1) (hG : G src = 1) (lnk : Connection)
    (ht : (net.getNode lnk.addr).isSome = true) :
    ∃ cur', cur.flowLink src lnk = some cur' ∧
      Scaled net cur'
        (fun t => F t * (if t = lnk.addr then 1 - lnk.w * attenuation n lnk else 1))
        (fun t => G t * (if t = lnk.addr then 1 - lnk.c * attenuation n lnk else 1)) := by
  have hcur : cur.getNode src = some n := by
    rw [h.2 src n hsrc, hF, hG]
    simp
  obtain ⟨cur', hmod, hsc⟩ :=
    h.step ht (1 - lnk.w * attenuation n lnk) (1 - lnk.c * attenuation n lnk)
  refine ⟨cur', ?_, hsc⟩
  simp only [Network.flowLink, hcur]
  rw [← hmod]
  simp only [attenuation, mul_comm n.c]

theorem flowNode_scaled {net cur : Network} {F G : NodeAddr → ℚ} (h : Scaled net cur F G)
    {L i : Nat} {n : Node} (hsrc : net.getNode ⟨L, i⟩ = some n)
    (hF : ∀ t, t.layer ≤ L → F t = 1) (hG : ∀ t, t.layer ≤ L → G t = 1)
    (hfw : ∀ lnk ∈ n.links, L < lnk.addr.layer ∧ (net.getNode lnk.addr).isSome = true) :
    ∃ cur', cur.flowNode L i = some cur' ∧
      Scaled net cur'
        (fun t => F t * linkProd (fun lnk => 1 - lnk.w * attenuation n lnk) n.links t)
        (fun t => G t * linkProd (fun lnk => 1 - lnk.c * attenuation n lnk) n.links t) := by
  have hcur : cur.getNode ⟨L, i⟩ = some n := by
    rw [h.2 _ n hsrc, hF ⟨L, i⟩ (le_refl L), hG ⟨L, i⟩ (le_refl L)]
    simp
  simp only [Network.flowNode, hcur]
  apply foldlM_list_inv (fun c lnk => c.flowLink ⟨L, i⟩ lnk)
    (fun pre c => Scaled net c
      (fun t => F t * linkProd (fun lnk => 1 - lnk.w * attenuation n lnk) pre t)
      (fun t => G t * linkProd (fun lnk => 1 - lnk.c * attenuation n lnk) pre t))
  · exact h.congr (fun t => by simp [linkProd_nil]) (fun t => by simp [linkProd_nil])
  · intro pre x suf c hxs hI
    have hpre : ∀ lnk ∈ pre, lnk.addr ≠ (⟨L, i⟩ : NodeAddr) := by
      intro lnk hl e
      have := (hfw lnk (by simp [hxs, hl])).1
      rw [e] at this
      simp at this
    have hx := hfw x (by simp [hxs])
    obtain ⟨c', hc', hsc⟩ := flowLink_scaled hI hsrc
      (by simp [hF ⟨L, i⟩ (le_refl L), linkProd_eq_one _ _ _ hpre])
      (by simp [hG ⟨L, i⟩ (le_refl L), linkProd_eq_one _ _ _ hpre]) x hx.2
    exact ⟨c', hc', hsc.congr (fun t => by simp [linkProd_snoc, mul_assoc])
      (fun t => by simp [linkProd_snoc, mul_assoc])⟩

theorem prod_map_eq_one {α : Type} (l : List α) (g : α → ℚ) (h : ∀ x ∈ l, g x = 1) :
    (l.map g).prod = 1 := by
  induction l with
  | nil => simp
  | cons x xs ih =>
    simp only [List.map_cons, List.prod_cons]
    rw [h x (by simp), ih (fun y hy => h y (by simp [hy]))]
    simp

theorem signalFactor_eq_one (layer : List Node) (t : NodeAddr)
    (h : ∀ n ∈ layer, ∀ lnk ∈ n.links, lnk.addr ≠ t) : signalFactor layer t = 1 := by
  rw [signalFactor_eq]
  exact prod_map_eq_one _ _ (fun n hn => linkProd_eq_one _ _ _ (h n hn))

theorem condFactor_eq_one (layer : List Node) (t : NodeAddr)
    (h : ∀ n ∈ layer, ∀ lnk ∈ n.links, lnk.addr ≠ t) : condFactor layer t = 1 := by
  rw [condFactor_eq]
  exact prod_map_eq_one _ _ (fun n hn => linkProd_eq_one _ _ _ (h n hn))

theorem getNode_of_layer {net : Network} {L : Nat} {layer : List Node}
    (hL : net.mat[L]? = some layer) (i : Nat) : net.getNode ⟨L, i⟩ = layer[i]? := by
  simp [Network.getNode, hL]

theorem flow_scaled {net : Network} {L : Nat} {layer : List Node}
    (hL : net.mat[L]? = some layer) (hfw : net.ForwardAt L) :
    ∃ net', net.flow L = some net' ∧
      Scaled net net' (signalFactor layer) (condFactor layer) := by
  have hfw' : ∀ n ∈ layer, ∀ lnk ∈ n.links,
      L < lnk.addr.layer ∧ (net.getNode lnk.addr).isSome = true := by
    have := hfw
    unfold Network.ForwardAt at this
    simpa [List.getD, hL] using this
  have hne : ∀ (k : Nat) (t : NodeAddr), t.layer ≤ L →
      ∀ n ∈ layer.take k, ∀ lnk ∈ n.links, lnk.addr ≠ t := by
    intro k t ht n hn lnk hl e
    have := (hfw' n (List.mem_of_mem_take hn) lnk hl).1
    rw [e] at this
    omega
  simp only [Network.flow, hL]
  have key := foldlM_range_inv (fun c i => c.flowNode L i)
    (fun k c => Scaled net c (signalFactor (layer.take k)) (condFactor (layer.take k)))
    layer.length net
    ((Scaled.refl net).congr (fun t => by simp [signalFactor]) (fun t => by simp [condFactor]))
    (by
      intro k c hk hI
      have hsrc : net.getNode ⟨L, k⟩ = some (layer.get ⟨k, hk⟩) := by
        rw [getNode_of_layer hL]
        exact List.getElem?_eq_getElem hk
      obtain ⟨c', hc', hsc⟩ := flowNode_scaled hI hsrc
        (fun t ht => signalFactor_eq_one _ _ (hne k t ht))
        (fun t ht => condFactor_eq_one _ _ (hne k t ht))
        (hfw' _ (List.get_mem layer k hk))
      refine ⟨c', hc', hsc.congr ?_ ?_⟩
      · intro t
        rw [signalFactor_eq, signalFactor_eq, List.take_succ, List.getElem?_eq_getElem hk]
        simp only [Option.toList, List.map_append, List.prod_append, List.map_cons,
          List.map_nil, List.prod_singleton]
        rfl
      · intro t
        rw [condFactor_eq, condFactor_eq, List.take_succ, List.getElem?_eq_getElem hk]
        simp only [Option.toList, List.map_append, List.prod_append, List.map_cons,
          List.map_nil, List.prod_singleton]
        rfl)
  simpa using key

theorem flow_spec {net : Network} {L : Nat} {layer : List Node}
    (hL : net.mat[L]? = some layer) (hfw : net.ForwardAt L) :
    ∃ net', net.flow L = some net' ∧
      net'.mat.map List.length = net.mat.map List.length ∧
      (∀ t nd, net.getNode t = some nd →
        net'.getNode t =
          some { nd with s := nd.s * signalFactor layer t, c := nd.c * condFactor layer t }) ∧
      (∀ t nd, net.getNode t = some nd → (∀ n ∈ layer, ∀ lnk ∈ n.links, lnk.addr ≠ t) →
        net'.getNode t = some nd) ∧
      (∀ t nd, net.getNode t = some nd → t.layer ≤ L → net'.getNode t = some nd) := by
  obtain ⟨net', hflow, hlen, hpt⟩ := flow_scaled hL hfw
  have hun : ∀ t nd, net.getNode t = some nd →
      (∀ n ∈ layer, ∀ lnk ∈ n.links, lnk.addr ≠ t) → net'.getNode t = some nd := by
    intro t nd hnd hno
    rw [hpt t nd hnd, signalFactor_eq_one _ _ hno, condFactor_eq_one _ _ hno]
    simp
  refine ⟨net', hflow, hlen, hpt, hun, ?_⟩
  intro t nd hnd ht
  apply hun t nd hnd
  intro n hn lnk hl e
  have h1 : n ∈ net.mat.getD L [] := by simpa [List.getD, hL] using hn
  have := (hfw n h1 lnk hl).1
  rw [e] at this
  omega

theorem getNode_map_links (net : Network) (a : NodeAddr) :
    (net.getNode a).map (fun nd => nd.links) =
      (net.topology[a.layer]?).bind (fun layer => layer[a.node]?) := by
  unfold Network.getNode Network.topology
  cases h : net.mat[a.layer]? with
  | none => simp [h]
  | some layer => simp [h]

theorem topology_ext {net1 net2 : Network}
    (hlen : net1.mat.map List.length = net2.mat.map List.length)
    (hnd : ∀ a, (net1.getNode a).map (fun nd => nd.links) =
      (net2.getNode a).map (fun nd => nd.links)) :
    net1.topology = net2.topology := by
  unfold Network.topology
  apply List.ext_getElem?
  intro i
  have hi := congrArg (fun l => l[i]?) hlen
  simp only [List.getElem?_map] at hi ⊢
  cases h1 : net1.mat[i]? with
  | none =>
    cases h2 : net2.mat[i]? with
    | none => rfl
    | some l2 => simp [h1, h2] at hi
  | some l1 =>
    cases h2 : net2.mat[i]? with
    | none => simp [h1, h2] at hi
    | some l2 =>
      simp only [Option.map_some', Option.some.injEq]
      apply List.ext_getElem?
      intro j
      have := hnd ⟨i, j⟩
      simpa [Network.getNode, h1, h2] using this

theorem Scaled.topology {net cur : Network} {F G : NodeAddr → ℚ} (h : Scaled net cur F G) :
    cur.topology = net.topology := by
  have hsome : ∀ a, (cur.getNode a).isSome = (net.getNode a).isSome := by
    intro a
    have hl := congrArg (fun l => l[a.layer]?) h.1
    simp only [List.getElem?_map] at hl
    unfold Network.getNode
    cases h1 : cur.mat[a.layer]? with
    | none =>
      cases h2 : net.mat[a.layer]? with
      | none => rfl
      | some l2 => simp [h1, h2] at hl
    | some l1 =>
      cases h2 : net.mat[a.layer]? with
      | none => simp [h1, h2] at hl
      | some l2 =>
        have hl' : l1.length = l2.length := by simpa [h1, h2] using hl
        by_cases hn : a.node < l1.length
        · simp [List.getElem?_eq_getElem hn, List.getElem?_eq_getElem (hl' ▸ hn)]
        · have e1 : l1[a.node]? = none := List.getElem?_eq_none (by omega)
          have e2 : l2[a.node]? = none := List.getElem?_eq_none (by omega)
          simp [e1, e2]
  apply topology_ext h.1
  intro a
  cases hn : net.getNode a with
  | none =>
    have := hsome a
    rw [hn] at this
    cases hc : cur.getNode a with
    | none => rfl
    | some x => simp [hc] at this
  | some nd => simp [h.2 a nd hn]

theorem topology_getNode {net1 net2 : Network} (h : net1.topology = net2.topology)
    {a : NodeAddr} {n2 : Node} (h2 : net2.getNode a = some n2) :
    ∃ n1, net1.getNode a = some n1 ∧ n1.links = n2.links := by
  have e := getNode_map_links net1 a
  rw [h, ← getNode_map_links net2 a, h2] at e
  cases h1 : net1.getNode a with
  | none => simp [h1] at e
  | some n1 => exact ⟨n1, rfl, by simpa [h1] using e⟩

theorem topology_length {net1 net2 : Network} (h : net1.topology = net2.topology) :
    net1.mat.map List.length = net2.mat.map List.length := by
  have := congrArg (fun t => t.map List.length) h
  simpa [Network.topology, List.map_map, Function.comp_def] using this

theorem topology_isSome {net1 net2 : Network} (h : net1.topology = net2.topology)
    {a : NodeAddr} (h2 : (net2.getNode a).isSome = true) : (net1.getNode a).isSome = true := by
  obtain ⟨n2, hn2⟩ := Option.isSome_iff_exists.mp h2
  obtain ⟨n1, hn1, _⟩ := topology_getNode h hn2
  simp [hn1]

theorem linked_of_topology {net1 net2 : Network} (h : net1.topology = net2.topology)
    (hl : net2.Linked) : net1.Linked := by
  intro a n1 hn1 lnk hlnk
  obtain ⟨n2, hn2, hlinks⟩ := topology_getNode h.symm hn1
  exact topology_isSome h (hl a n2 hn2 lnk (hlinks ▸ hlnk))

theorem modNode_topology {net : Network} {a : NodeAddr} (f : Node → Node)
    (hf : ∀ nd, (f nd).links = nd.links) (ha : (net.getNode a).isSome = true) :
    ∃ net', net.modNode a f = some net' ∧ net'.topology = net.topology := by
  obtain ⟨nd, hnd⟩ := Option.isSome_iff_exists.mp ha
  obtain ⟨net', hmod, hlen, hat, hoth⟩ := modNode_of_getNode f hnd
  refine ⟨net', hmod, topology_ext hlen ?_⟩
  intro b
  by_cases hb : b = a
  · subst hb
    simp [hat, hnd, hf]
  · rw [hoth b hb]

theorem flowLink_topology {net cur : Network} (h : cur.topology = net.topology)
    {src : NodeAddr} {lnk : Connection} (hs : (net.getNode src).isSome = true)
    (ht : (net.getNode lnk.addr).isSome = true) :
    ∃ cur', cur.flowLink src lnk = some cur' ∧ cur'.topology = net.topology := by
  obtain ⟨n, hn⟩ := Option.isSome_iff_exists.mp (topology_isSome h hs)
  simp only [Network.flowLink, hn]
  obtain ⟨cur', hmod, htop⟩ := @modNode_topology cur lnk.addr
    (fun t => { t with
      s := t.s * (1 - lnk.w * ((lnk.k + n.s - 2 * n.s * lnk.k) * n.c)),
      c := t.c * (1 - lnk.c * ((lnk.k + n.s - 2 * n.s * lnk.k) * n.c)) })
    (fun _ => rfl) (topology_isSome h ht)
  exact ⟨cur', hmod, htop.trans h⟩

theorem flowNode_topology {net cur : Network} (h : cur.topology = net.topology)
    (hl : net.Linked) {L i : Nat} (hs : (net.getNode ⟨L, i⟩).isSome = true) :
    ∃ cur', cur.flowNode L i = some cur' ∧ cur'.topology = net.topology := by
  obtain ⟨n, hn⟩ := Option.isSome_iff_exists.mp hs
  obtain ⟨n', hn', hlinks⟩ := topology_getNode h hn
  simp only [Network.flowNode, hn']
  apply foldlM_list_inv (fun c lnk => c.flowLink ⟨L, i⟩ lnk)
    (fun _ c => c.topology = net.topology) n'.links cur h
  intro pre x suf c hxs hI
  exact flowLink_topology hI hs (hl _ n hn x (by rw [← hlinks, hxs]; simp))

theorem flow_topology {net cur : Network} (h : cur.topology = net.topology)
    (hl : net.Linked) {L : Nat} (hL : L < net.mat.length) :
    ∃ cur', cur.flow L = some cur' ∧ cur'.topology = net.topology := by
  have hlen := topology_length h
  have hcl : L < cur.mat.length := by
    have := congrArg List.length hlen
    simp at this
    omega
  have hll : (cur.mat[L]).length = (net.mat[L]).length := by
    have := congrArg (fun l => l[L]?) hlen
    simpa [List.getElem?_eq_getElem hcl, List.getElem?_eq_getElem hL] using this
  simp only [Network.flow, List.getElem?_eq_getElem hcl]
  apply foldlM_range_inv (fun c i => c.flowNode L i) (fun _ c => c.topology = net.topology)
    _ cur h
  intro k c hk hI
  apply flowNode_topology hI hl
  have hk' : k < (net.mat[L]).length := by omega
  simp [Network.getNode, List.getElem?_eq_getElem hL, List.getElem?_eq_getElem hk']

theorem flowUpTo_topology {net : Network} (hl : net.Linked) (n : Nat)
    (hn : n ≤ net.mat.length) :
    ∃ net', net.flowUpTo n = some net' ∧ net'.topology = net.topology := by
  unfold Network.flowUpTo
  apply foldlM_range_inv (fun c i => c.flow i) (fun _ c => c.topology = net.topology)
    _ net rfl
  intro k c hk hI
  exact flow_topology hI hl (by omega)

theorem flowAll_topology {net : Network} (hl : net.Linked) :
    ∃ net', net.flowAll = some net' ∧ net'.topology = net.topology :=
  flowUpTo_topology hl _ (Nat.sub_le _ _)

theorem flowUpTo_succ (net : Network) (n : Nat) :
    net.flowUpTo (n + 1) =
      match net.flowUpTo n with
      | none => none
      | some cur => cur.flow n := by
  unfold Network.flowUpTo
  rw [List.range_succ, List.foldlM_append]
  cases h : List.foldlM (fun cur i => cur.flow i) net (List.range n) with
  | none => rfl
  | some cur => simp [List.foldlM]

/-! ## Loading an input and running -/

theorem getNode_mem {net : Network} {a : NodeAddr} {n : Node} (h : net.getNode a = some n) :
    a.layer < net.mat.length ∧ n ∈ net.mat.getD a.layer [] := by
  unfold Network.getNode at h
  cases hl : net.mat[a.layer]? with
  | none => simp [hl] at h
  | some layer =>
    simp only [hl] at h
    have hlt : a.layer < net.mat.length := by
      by_contra hc
      rw [List.getElem?_eq_none (by omega)] at hl
      cases hl
    refine ⟨hlt, ?_⟩
    have hd : net.mat.getD a.layer [] = layer := by
      simp [List.getD_eq_getElem?_getD, hl]
    rw [hd]
    exact List.mem_iff_getElem?.mpr ⟨_, h⟩

theorem Network.Forward.linked {net : Network} (h : net.Forward) : net.Linked := by
  intro a n hn lnk hl
  obtain ⟨hlt, hmem⟩ := getNode_mem hn
  exact (h a.layer hlt n hmem lnk hl).2

theorem setSignals_reset (l0 : List Node) (input : List ℚ) (h : input.length = l0.length) :
    (setSignals l0 input).map (fun nd => ({ nd with c := 1 } : Node)) =
      List.zipWith (fun x lk => (⟨x, 1, lk⟩ : Node)) input (l0.map (fun nd => nd.links)) := by
  induction l0 generalizing input with
  | nil =>
    cases input with
    | nil => rfl
    | cons x xs => simp at h
  | cons nd nds ih =>
    cases input with
    | nil => simp at h
    | cons x xs =>
      simp only [setSignals, List.map_cons, List.zipWith_cons_cons, List.cons.injEq]
      exact ⟨trivial, ih xs (by simpa using h)⟩

theorem loadInput_reset {net : Network} {input : List ℚ}
    (hin : net.mat.head?.map List.length = some input.length) :
    ∃ loaded, net.loadInput input = some loaded ∧
      loaded.reset = some (initState net.topology input) := by
  obtain ⟨mat⟩ := net
  cases mat with
  | nil => simp at hin
  | cons l0 rest =>
    have hlen : input.length = l0.length := by simpa using hin.symm
    have hrest : rest.map resetNodes =
        (rest.map (fun layer => layer.map (fun nd => nd.links))).map
          (fun layer => layer.map (fun lk => (⟨1, 1, lk⟩ : Node))) := by
      simp [resetNodes, List.map_map, Function.comp_def]
    cases input with
    | nil =>
      have hl0 : l0 = [] := by
        cases l0 with
        | nil => rfl
        | cons a b => simp at hlen
      subst hl0
      refine ⟨⟨[] :: rest⟩, rfl, ?_⟩
      simp [Network.reset, initState, Network.topology, hrest]
    | cons x xs =>
      refine ⟨⟨setSignals l0 (x :: xs) :: rest⟩, ?_, ?_⟩
      · simp only [Network.loadInput]
        rw [if_pos (le_of_eq hlen)]
      · simp only [Network.reset, initState, Network.topology, List.map_cons]
        rw [setSignals_reset l0 (x :: xs) hlen, hrest]

theorem loadRun_eq {net : Network} {input : List ℚ}
    (hin : net.mat.head?.map List.length = some input.length) :
    net.loadRun input = (initState net.topology input).flowAll := by
  obtain ⟨loaded, h1, h2⟩ := loadInput_reset hin
  simp [Network.loadRun, h1, Network.run, h2]

theorem initState_topology (top : List (List (List Connection))) (input : List ℚ)
    (hin : top.head?.map List.length = some input.length) :
    (initState top input).topology = top := by
  cases top with
  | nil => rfl
  | cons l0 rest =>
    have hlen : l0.length = input.length := by simpa using hin
    simp only [initState, Network.topology, List.map_cons, List.map_map, List.cons.injEq]
    constructor
    · apply List.ext_getElem?
      intro i
      simp only [List.getElem?_map, List.getElem?_zipWith]
      by_cases hi : i < l0.length
      · simp [List.getElem?_eq_getElem hi, List.getElem?_eq_getElem (hlen ▸ hi)]
      · have e1 : l0[i]? = none := List.getElem?_eq_none (by omega)
        have e2 : input[i]? = none := List.getElem?_eq_none (by omega)
        simp [e1, e2]
    · simp [Function.comp_def]

theorem head_topology (net : Network) :
    net.topology.head?.map List.length = net.mat.head?.map List.length := by
  obtain ⟨mat⟩ := net
  cases mat with
  | nil => rfl
  | cons l0 rest => simp [Network.topology]

theorem loadRun_some {net : Network} {input : List ℚ} (hl : net.Linked)
    (hin : net.mat.head?.map List.length = some input.length) :
    ∃ r, net.loadRun input = some r ∧ r.topology = net.topology := by
  have htop : (initState net.topology input).topology = net.topology :=
    initState_topology _ _ (by rw [head_topology]; exact hin)
  obtain ⟨r, hr, hrt⟩ := flowAll_topology (linked_of_topology htop hl)
  exact ⟨r, by rw [loadRun_eq hin]; exact hr, hrt.trans htop⟩

theorem head_of_topology {net1 net2 : Network} (h : net1.topology = net2.topology) :
    net1.mat.head?.map List.length = net2.mat.head?.map List.length := by
  rw [← head_topology, ← head_topology, h]

theorem loadRun_congr {net1 net2 : Network} {input : List ℚ}
    (h : net1.topology = net2.topology)
    (hin : net1.mat.head?.map List.length = some input.length) :
    net1.loadRun input = net2.loadRun input := by
  rw [loadRun_eq hin, loadRun_eq (by rw [← head_of_topology h]; exact hin), h]

/-- C2: `loadInput(input); run()` is deterministic and independent of stale transient
state. Two networks with the same layers, connections and parameters (every connection
targeting an existing node of a strictly later layer), whatever their signals and
conductivities, reach the very same state `r` (hence the same last-layer signals) on an
input of layer-0 length; repeating the call on the result `r` gives `r` again. -/
theorem run_deterministic (net1 net2 : Network) (input : List ℚ)
    (htop : net1.topology = net2.topology) (hfw : net1.Forward)
    (hin : net1.mat.head?.map List.length = some input.length) :
    ∃ r, net1.loadRun input = some r ∧ net2.loadRun input = some r ∧
      r.output.isSome = true ∧ r.loadRun input = some r := by
  obtain ⟨r, hr, hrt⟩ := loadRun_some hfw.linked hin
  refine ⟨r, hr, ?_, ?_, ?_⟩
  · rw [← loadRun_congr htop hin]
    exact hr
  · have hne : r.mat ≠ [] := by
      intro e
      have h1 := head_of_topology hrt
      rw [hin, e] at h1
      simp at h1
    cases hm : r.mat.getLast? with
    | none => exact absurd (List.getLast?_eq_none_iff.mp hm) hne
    | some l => simp [Network.output, hm]
  · rw [loadRun_congr hrt (by rw [head_of_topology hrt]; exact hin)]
    exact hr

theorem run_deterministic_witness :
    fanInNet.Forward ∧
      ∃ r, fanInNet.loadRun [1, 1/2] = some r ∧
        (⟨[[⟨0, 7, [⟨0, 1/2, 0, ⟨1, 0⟩⟩]⟩, ⟨3, 1/5, [⟨1/4, 1, 1/2, ⟨1, 0⟩⟩]⟩],
            [⟨9, 2, []⟩]]⟩ : Network).loadRun [1, 1/2] = some r ∧
        r.output.isSome = true ∧ r.loadRun [1, 1/2] = some r :=
  ⟨by decide, run_deterministic fanInNet _ [1, 1/2] rfl (by decide) rfl⟩

/-! ## Skeleton and sample lengths -/

theorem view_getNode {β : Type} (f : Node → β) {net1 net2 : Network}
    (h : net1.mat.map (List.map f) = net2.mat.map (List.map f))
    {a : NodeAddr} {n2 : Node} (h2 : net2.getNode a = some n2) :
    ∃ n1, net1.getNode a = some n1 ∧ f n1 = f n2 := by
  have hi := congrArg (fun l => l[a.layer]?) h
  simp only [List.getElem?_map] at hi
  unfold Network.getNode at h2 ⊢
  cases hl2 : net2.mat[a.layer]? with
  | none => simp [hl2] at h2
  | some l2 =>
    cases hl1 : net1.mat[a.layer]? with
    | none => simp [hl1, hl2] at hi
    | some l1 =>
      simp only [hl2] at h2
      have hj : List.map f l1 = List.map f l2 := by simpa [hl1, hl2] using hi
      have hj' := congrArg (fun l => l[a.node]?) hj
      simp only [List.getElem?_map, h2] at hj'
      cases hn1 : l1[a.node]? with
      | none => simp [hn1] at hj'
      | some n1 => exact ⟨n1, hn1, by simpa [hn1] using hj'⟩

theorem view_ext {β : Type} (f : Node → β) {net1 net2 : Network}
    (hlen : net1.mat.map List.length = net2.mat.map List.length)
    (hnd : ∀ a, (net1.getNode a).map f = (net2.getNode a).map f) :
    net1.mat.map (List.map f) = net2.mat.map (List.map f) := by
  apply List.ext_getElem?
  intro i
  have hi := congrArg (fun l => l[i]?) hlen
  simp only [List.getElem?_map] at hi ⊢
  cases h1 : net1.mat[i]? with
  | none =>
    cases h2 : net2.mat[i]? with
    | none => rfl
    | some l2 => simp [h1, h2] at hi
  | some l1 =>
    cases h2 : net2.mat[i]? with
    | none => simp [h1, h2] at hi
    | some l2 =>
      simp only [Option.map_some', Option.some.injEq]
      apply List.ext_getElem?
      intro j
      have := hnd ⟨i, j⟩
      simpa [Network.getNode, h1, h2] using this

theorem view_length {β : Type} (f : Node → β) {net1 net2 : Network}
    (h : net1.mat.map (List.map f) = net2.mat.map (List.map f)) :
    net1.mat.map List.length = net2.mat.map List.length := by
  have := congrArg (fun t => t.map List.length) h
  simpa [List.map_map, Function.comp_def] using this

theorem skeleton_of_topology {net1 net2 : Network} (h : net1.topology = net2.topology) :
    net1.skeleton = net2.skeleton := by
  have := congrArg (fun t => t.map (fun layer =>
    layer.map (fun (ls : List Connection) => ls.map (fun lnk => lnk.addr)))) h
  simpa [Network.topology, Network.skeleton, List.map_map, Function.comp_def] using this

theorem skeleton_getNode {net1 net2 : Network} (h : net1.skeleton = net2.skeleton)
    {a : NodeAddr} {n2 : Node} (h2 : net2.getNode a = some n2) :
    ∃ n1, net1.getNode a = some n1 ∧
      n1.links.map (fun lnk => lnk.addr) = n2.links.map (fun lnk => lnk.addr) :=
  view_getNode (fun (nd : Node) => nd.links.map (fun (lnk : Connection) => lnk.addr))
    (by simpa [Network.skeleton] using h) h2

theorem skeleton_isSome {net1 net2 : Network} (h : net1.skeleton = net2.skeleton)
    {a : NodeAddr} (h2 : (net2.getNode a).isSome = true) : (net1.getNode a).isSome = true := by
  obtain ⟨n2, hn2⟩ := Option.isSome_iff_exists.mp h2
  obtain ⟨n1, hn1, _⟩ := skeleton_getNode h hn2
  simp [hn1]

theorem linked_of_skeleton {net1 net2 : Network} (h : net1.skeleton = net2.skeleton)
    (hl : net2.Linked) : net1.Linked := by
  intro a n1 hn1 lnk hlnk
  obtain ⟨n2, hn2, hlinks⟩ := skeleton_getNode h.symm hn1
  have hmem : lnk.addr ∈ n2.links.map (fun l => l.addr) := by
    rw [hlinks]
    exact List.mem_map_of_mem _ hlnk
  obtain ⟨l2, hl2, he⟩ := List.mem_map.mp hmem
  rw [← he]
  exact skeleton_isSome h (hl a n2 hn2 l2 hl2)

theorem fits_of_length {net1 net2 : Network} {smp : tuneSet}
    (h : net1.mat.map List.length = net2.mat.map List.length) (hf : net2.Fits smp) :
    net1.Fits smp := by
  have h1 := congrArg List.head? h
  have h2 := congrArg List.getLast? h
  simp only [List.head?_map, List.getLast?_map] at h1 h2
  exact ⟨h1.trans hf.1, h2.trans hf.2⟩

/-! ## Total squared error -/

theorem sqErrAcc_spec (last : List Node) (out : List ℚ) (err : ℚ)
    (h : last.length = out.length) :
    ∃ err', sqErrAcc err last out = some err' ∧ err ≤ err' ∧
      (err' = err ↔ last.map (fun nd => nd.s) = out) := by
  induction last generalizing out err with
  | nil =>
    cases out with
    | nil => exact ⟨err, rfl, le_refl _, by simp⟩
    | cons e es => simp at h
  | cons nd nds ih =>
    cases out with
    | nil => simp at h
    | cons e es =>
      obtain ⟨err', h1, h2, h3⟩ := ih es (err + (nd.s - e) * (nd.s - e)) (by simpa using h)
      have hsq : 0 ≤ (nd.s - e) * (nd.s - e) := mul_self_nonneg _
      refine ⟨err', by simpa [sqErrAcc] using h1, by linarith, ?_⟩
      simp only [List.map_cons, List.cons.injEq]
      constructor
      · intro he
        have hz : (nd.s - e) * (nd.s - e) = 0 := by linarith
        have hd : nd.s - e = 0 := by simpa using hz
        refine ⟨by linarith, ?_⟩
        apply h3.mp
        rw [he, hz]
        simp
      · rintro ⟨hs, hrest⟩
        have := h3.mpr hrest
        rw [this, hs]
        simp

theorem errorStep_spec {net cur : Network} {smp : tuneSet} (err : ℚ) (hl : net.Linked)
    (hfit : net.Fits smp) (hc : cur.topology = net.topology) :
    ∃ err' r, Network.errorStep (err, cur) smp = some (err', r) ∧
      net.loadRun smp.input = some r ∧ r.topology = net.topology ∧ err ≤ err' ∧
      (err' = err ↔ r.output = some smp.output) := by
  obtain ⟨r, hr, hrt⟩ := loadRun_some hl hfit.1
  have hcr : cur.loadRun smp.input = some r := by
    rw [loadRun_congr hc (by rw [head_of_topology hc]; exact hfit.1)]
    exact hr
  have hfr : r.Fits smp := fits_of_length (topology_length hrt) hfit
  cases hlast : r.mat.getLast? with
  | none =>
    have := hfr.2
    simp [hlast] at this
  | some last =>
    have hlen : last.length = smp.output.length := by
      have := hfr.2
      simpa [hlast] using this
    obtain ⟨err', h1, h2, h3⟩ := sqErrAcc_spec last smp.output err hlen
    refine ⟨err', r, ?_, hr, hrt, h2, ?_⟩
    · simp [Network.errorStep, hcr, hlast, h1]
    · simp [Network.output, hlast, h3]

theorem calculateError_spec {net : Network} (tuneData : List tuneSet) (hl : net.Linked)
    (hfit : ∀ smp ∈ tuneData, net.Fits smp) :
    ∃ err net', net.calculateError tuneData = some (err, net') ∧
      net'.topology = net.topology ∧ 0 ≤ err ∧
      (err = 0 ↔ ∀ smp ∈ tuneData,
        ∃ r, net.loadRun smp.input = some r ∧ r.output = some smp.output) := by
  have key := foldlM_list_inv Network.errorStep
    (fun pre (acc : ℚ × Network) => acc.2.topology = net.topology ∧ 0 ≤ acc.1 ∧
      (acc.1 = 0 ↔ ∀ smp ∈ pre,
        ∃ r, net.loadRun smp.input = some r ∧ r.output = some smp.output))
    tuneData (0, net) ⟨rfl, le_refl _, by simp⟩
    (by
      rintro pre smp suf ⟨err, cur⟩ hxs ⟨hc, h0, hiff⟩
      obtain ⟨err', r, hstep, hr, hrt, hle, hz⟩ :=
        errorStep_spec err hl (hfit smp (by simp [hxs])) hc
      refine ⟨(err', r), hstep, hrt, le_trans h0 hle, ?_⟩
      simp only [List.mem_append, List.mem_singleton] at hiff ⊢
      constructor
      · intro he
        have hez : err = 0 := le_antisymm (by linarith) h0
        intro s hs
        rcases hs with hs | hs
        · exact hiff.mp hez s hs
        · subst hs
          exact ⟨r, hr, hz.mp (by rw [he, hez])⟩
      · intro hall
        have hez : err = 0 := hiff.mpr (fun s hs => hall s (Or.inl hs))
        obtain ⟨r', hr', ho⟩ := hall smp (Or.inr rfl)
        rw [hr] at hr'
        cases hr'
        rw [hz.mpr ho, hez])
  obtain ⟨⟨err, net'⟩, h1, h2, h3, h4⟩ := key
  exact ⟨err, net', h1, h2, h3, h4⟩

/-! ## Single-precision rounding -/

theorem pow2_pos (e : Int) : 0 < pow2 e := by
  unfold pow2
  split
  · exact_mod_cast Nat.pos_pow_of_pos _ (by norm_num : 0 < 2)
  · apply div_pos one_pos
    exact_mod_cast Nat.pos_pow_of_pos _ (by norm_num : 0 < 2)

theorem roundEven_nonneg {m : ℚ} (h : 0 ≤ m) : 0 ≤ roundEven m := by
  have hf : 0 ≤ Rat.floor m := Rat.le_floor.mpr (by exact_mod_cast h)
  unfold roundEven
  simp only
  split_ifs <;> omega

theorem round32_zero : round32 0 = 0 := by
  simp [round32]

/-- Values of `round32`: binary32 values are kept, `0.1` goes to the nearest binary32
value, a tie goes to the even significand (`1 + 2^-24` down, `1 + 3 * 2^-24` up), a
negative argument is rounded by magnitude, and below the normal range the spacing is
`2^-149` (`2^-150` is a tie and goes to `0`, `3 * 2^-150` goes up to `2^-148`). -/
theorem round32_values :
    round32 1 = 1 ∧ round32 (3/4) = 3/4 ∧ round32 (1/10) = 13421773/134217728 ∧
    round32 (1 + pow2 (-24)) = 1 ∧ round32 (1 + 3 * pow2 (-24)) = 1 + pow2 (-22) ∧
    round32 (-(1/10)) = -(13421773/134217728) ∧
    round32 16777217 = 16777216 ∧
    round32 (pow2 (-149)) = pow2 (-149) ∧ round32 (pow2 (-150)) = 0 ∧
    round32 (3 * pow2 (-150)) = pow2 (-148) ∧ round32 (pow2 (-200)) = 0 :=
  ⟨by decide!, by decide!, by decide!, by decide!, by decide!, by decide!, by decide!,
    by decide!, by decide!, by decide!, by decide!⟩

theorem round32_nonneg {x : ℚ} (h : 0 ≤ x) : 0 ≤ round32 x := by
  unfold round32
  by_cases hx : x = 0
  · simp [hx]
  · rw [if_neg hx]
    have hlt : ¬ x < 0 := not_lt.mpr h
    simp only [hlt, if_false, one_mul]
    have hq := pow2_pos (max (ilog2 x) (-126) - 23)
    have hn : (0 : ℚ) ≤ (roundEven (x / pow2 (max (ilog2 x) (-126) - 23)) : ℚ) := by
      exact_mod_cast roundEven_nonneg (div_nonneg h hq.le)
    exact mul_nonneg hn hq.le

/-! ## Propagation in single precision keeps the topology -/

theorem flowLink32_topology {net cur : Network} (h : cur.topology = net.topology)
    {src : NodeAddr} {lnk : Connection} (hs : (net.getNode src).isSome = true)
    (ht : (net.getNode lnk.addr).isSome = true) :
    ∃ cur', cur.flowLink32 src lnk = some cur' ∧ cur'.topology = net.topology := by
  obtain ⟨n, hn⟩ := Option.isSome_iff_exists.mp (topology_isSome h hs)
  simp only [Network.flowLink32, hn]
  obtain ⟨cur', hmod, htop⟩ := @modNode_topology cur lnk.addr
    (fun t => { t with
      s := fmul t.s (fsub 1 (fmul lnk.w
        (fmul (fsub (fadd lnk.k n.s) (fmul (fmul 2 n.s) lnk.k)) n.c))),
      c := fmul t.c (fsub 1 (fmul lnk.c
        (fmul (fsub (fadd lnk.k n.s) (fmul (fmul 2 n.s) lnk.k)) n.c))) })
    (fun _ => rfl) (topology_isSome h ht)
  exact ⟨cur', hmod, htop.trans h⟩

theorem flowNode32_topology {net cur : Network} (h : cur.topology = net.topology)
    (hl : net.Linked) {L i : Nat} (hs : (net.getNode ⟨L, i⟩).isSome = true) :
    ∃ cur', cur.flowNode32 L i = some cur' ∧ cur'.topology = net.topology := by
  obtain ⟨n, hn⟩ := Option.isSome_iff_exists.mp hs
  obtain ⟨n', hn', hlinks⟩ := topology_getNode h hn
  simp only [Network.flowNode32, hn']
  apply foldlM_list_inv (fun c lnk => c.flowLink32 ⟨L, i⟩ lnk)
    (fun _ c => c.topology = net.topology) n'.links cur h
  intro pre x suf c hxs hI
  exact flowLink32_topology hI hs (hl _ n hn x (by rw [← hlinks, hxs]; simp))

theorem flow32_topology {net cur : Network} (h : cur.topology = net.topology)
    (hl : net.Linked) {L : Nat} (hL : L < net.mat.length) :
    ∃ cur', cur.flow32 L = some cur' ∧ cur'.topology = net.topology := by
  have hlen := topology_length h
  have hcl : L < cur.mat.length := by
    have := congrArg List.length hlen
    simp at this
    omega
  have hll : (cur.mat[L]).length = (net.mat[L]).length := by
    have := congrArg (fun l => l[L]?) hlen
    simpa [List.getElem?_eq_getElem hcl, List.getElem?_eq_getElem hL] using this
  simp only [Network.flow32, List.getElem?_eq_getElem hcl]
  apply foldlM_range_inv (fun c i => c.flowNode32 L i) (fun _ c => c.topology = net.topology)
    _ cur h
  intro k c hk hI
  apply flowNode32_topology hI hl
  have hk' : k < (net.mat[L]).length := by omega
  simp [Network.getNode, List.getElem?_eq_getElem hL, List.getElem?_eq_getElem hk']

theorem flowAll32_topology {net : Network} (hl : net.Linked) :
    ∃ net', net.flowAll32 = some net' ∧ net'.topology = net.topology := by
  unfold Network.flowAll32
  apply foldlM_range_inv (fun c i => c.flow32 i) (fun _ c => c.topology = net.topology)
    _ net rfl
  intro k c hk hI
  exact flow32_topology hI hl (by omega)

theorem loadRun32_eq {net : Network} {input : List ℚ}
    (hin : net.mat.head?.map List.length = some input.length) :
    net.loadRun32 input = (initState net.topology input).flowAll32 := by
  obtain ⟨loaded, h1, h2⟩ := loadInput_reset hin
  simp [Network.loadRun32, h1, Network.run32, h2]

theorem loadRun32_some {net : Network} {input : List ℚ} (hl : net.Linked)
    (hin : net.mat.head?.map List.length = some input.length) :
    ∃ r, net.loadRun32 input = some r ∧ r.topology = net.topology := by
  have htop : (initState net.topology input).topology = net.topology :=
    initState_topology _ _ (by rw [head_topology]; exact hin)
  obtain ⟨r, hr, hrt⟩ := flowAll32_topology (linked_of_topology htop hl)
  exact ⟨r, by rw [loadRun32_eq hin]; exact hr, hrt.trans htop⟩

theorem loadRun32_congr {net1 net2 : Network} {input : List ℚ}
    (h : net1.topology = net2.topology)
    (hin : net1.mat.head?.map List.length = some input.length) :
    net1.loadRun32 input = net2.loadRun32 input := by
  rw [loadRun32_eq hin, loadRun32_eq (by rw [← head_of_topology h]; exact hin), h]

/-! ## Total squared error in single precision -/

theorem sqErrAcc32_spec (last : List Node) (out : List ℚ) (err : ℚ)
    (h : last.length = out.length) :
    ∃ err', sqErrAcc32 err last out = some err' ∧ (0 ≤ err → 0 ≤ err') ∧
      (err = 0 → last.map (fun nd => nd.s) = out → err' = 0) := by
  induction last generalizing out err with
  | nil =>
    cases out with
    | nil => exact ⟨err, rfl, id, fun h0 _ => h0⟩
    | cons e es => simp at h
  | cons nd nds ih =>
    cases out with
    | nil => simp at h
    | cons e es =>
      obtain ⟨err', h1, h2, h3⟩ :=
        ih es (fadd err (fmul (fsub nd.s e) (fsub nd.s e))) (by simpa using h)
      refine ⟨err', by simpa [sqErrAcc32] using h1, ?_, ?_⟩
      · intro h0
        apply h2
        exact round32_nonneg (add_nonneg h0 (round32_nonneg (mul_self_nonneg _)))
      · intro h0 hfit
        simp only [List.map_cons, List.cons.injEq] at hfit
        apply h3 _ hfit.2
        rw [h0, hfit.1]
        simp [fadd, fmul, fsub, round32_zero]

theorem errorStep32_spec {net cur : Network} {smp : tuneSet} (err : ℚ) (hl : net.Linked)
    (hfit : net.Fits smp) (hc : cur.topology = net.topology) :
    ∃ err' r, Network.errorStep32 (err, cur) smp = some (err', r) ∧
      net.loadRun32 smp.input = some r ∧ r.topology = net.topology ∧ (0 ≤ err → 0 ≤ err') ∧
      (err = 0 → r.output = some smp.output → err' = 0) := by
  obtain ⟨r, hr, hrt⟩ := loadRun32_some hl hfit.1
  have hcr : cur.loadRun32 smp.input = some r := by
    rw [loadRun32_congr hc (by rw [head_of_topology hc]; exact hfit.1)]
    exact hr
  have hfr : r.Fits smp := fits_of_length (topology_length hrt) hfit
  cases hlast : r.mat.getLast? with
  | none =>
    have := hfr.2
    simp [hlast] at this
  | some last =>
    have hlen : last.length = smp.output.length := by
      have := hfr.2
      simpa [hlast] using this
    obtain ⟨err', h1, h2, h3⟩ := sqErrAcc32_spec last smp.output err hlen
    refine ⟨err', r, ?_, hr, hrt, h2, ?_⟩
    · simp [Network.errorStep32, hcr, hlast, h1]
    · intro h0 ho
      apply h3 h0
      simpa [Network.output, hlast] using ho

theorem calculateError32_spec {net : Network} (tuneData : List tuneSet) (hl : net.Linked)
    (hfit : ∀ smp ∈ tuneData, net.Fits smp) :
    ∃ err net', net.calculateError32 tuneData = some (err, net') ∧ 0 ≤ err ∧
      ((∀ smp ∈ tuneData,
        ∃ r, net.loadRun32 smp.input = some r ∧ r.output = some smp.output) → err = 0) := by
  have key := foldlM_list_inv Network.errorStep32
    (fun pre (acc : ℚ × Network) => acc.2.topology = net.topology ∧ 0 ≤ acc.1 ∧
      ((∀ smp ∈ pre,
        ∃ r, net.loadRun32 smp.input = some r ∧ r.output = some smp.output) → acc.1 = 0))
    tuneData (0, net) ⟨rfl, le_refl _, fun _ => rfl⟩
    (by
      rintro pre smp suf ⟨err, cur⟩ hxs ⟨hc, h0, himp⟩
      obtain ⟨err', r, hstep, hr, hrt, hle, hz⟩ :=
        errorStep32_spec err hl (hfit smp (by simp [hxs])) hc
      refine ⟨(err', r), hstep, hrt, hle h0, ?_⟩
      intro hall
      simp only [List.mem_append, List.mem_singleton] at hall
      have hez : err = 0 := himp (fun s hs => hall s (Or.inl hs))
      obtain ⟨r', hr', ho⟩ := hall smp (Or.inr rfl)
      rw [hr] at hr'
      cases hr'
      exact hz hez ho)
  obtain ⟨⟨err, net'⟩, h1, _, h3, h4⟩ := key
  exact ⟨err, net', h1, h3, h4⟩

theorem forall_mem_iff_getNode (net : Network) (P : Node → Prop) :
    (∀ layer ∈ net.mat, ∀ n ∈ layer, P n) ↔ ∀ a n, net.getNode a = some n → P n := by
  constructor
  · intro h a n hn
    unfold Network.getNode at hn
    cases hl : net.mat[a.layer]? with
    | none => simp [hl] at hn
    | some layer =>
      simp only [hl] at hn
      exact h layer (List.mem_iff_getElem?.mpr ⟨_, hl⟩) n (List.mem_iff_getElem?.mpr ⟨_, hn⟩)
  · intro h layer hl n hn
    obtain ⟨i, hi⟩ := List.mem_iff_getElem?.mp hl
    obtain ⟨j, hj⟩ := List.mem_iff_getElem?.mp hn
    exact h ⟨i, j⟩ n (by simp [Network.getNode, hi, hj])

theorem paramsIn01_of_topology {net1 net2 : Network} (h : net1.topology = net2.topology)
    (hp : net2.ParamsIn01) : net1.ParamsIn01 := by
  have hp' := (forall_mem_iff_getNode net2 (fun n => ∀ lnk ∈ n.links, lnk.In01)).mp hp
  apply (forall_mem_iff_getNode net1 (fun n => ∀ lnk ∈ n.links, lnk.In01)).mpr
  intro a n1 hn1 lnk hl
  obtain ⟨n2, hn2, hlinks⟩ := topology_getNode h.symm hn1
  exact hp' a n2 hn2 lnk (hlinks ▸ hl)

theorem set_getElem?_self {α : Type} {l : List α} {j : Nat} {x : α} (h : l[j]? = some x) :
    l.set j x = l := by
  apply List.ext_getElem?
  intro i
  rw [List.getElem?_set]
  by_cases hij : j = i
  · subst hij
    have hlt : j < l.length := by
      by_contra hc
      rw [List.getElem?_eq_none (by omega)] at h
      cases h
    simp [hlt, h]
  · simp [hij]

theorem getLink_eq {net : Network} {la : LinkAddr} {lnk : Connection}
    (h : net.getLink la = some lnk) :
    ∃ nd, net.getNode ⟨la.layer, la.node⟩ = some nd ∧ nd.links[la.link]? = some lnk := by
  unfold Network.getLink at h
  cases hn : net.getNode ⟨la.layer, la.node⟩ with
  | none => simp [hn] at h
  | some nd => exact ⟨nd, rfl, by simpa [hn] using h⟩

theorem modLink_spec {net : Network} {la : LinkAddr} {lnk : Connection}
    (f : Connection → Connection) (h : net.getLink la = some lnk) :
    ∃ net' nd, net.modLink la f = some net' ∧
      net.getNode ⟨la.layer, la.node⟩ = some nd ∧ nd.links[la.link]? = some lnk ∧
      net'.mat.map List.length = net.mat.map List.length ∧
      net'.getNode ⟨la.layer, la.node⟩ =
        some { nd with links := nd.links.set la.link (f lnk) } ∧
      ∀ b, b ≠ ⟨la.layer, la.node⟩ → net'.getNode b = net.getNode b := by
  obtain ⟨nd, hnd, hlk⟩ := getLink_eq h
  obtain ⟨net', hmod, hlen, hat, hoth⟩ := modNode_of_getNode
    (fun n => { n with links := n.links.set la.link (f lnk) }) hnd
  exact ⟨net', nd, by simp [Network.modLink, hnd, hlk, hmod], hnd, hlk, hlen, hat, hoth⟩

theorem modLink_skeleton {net : Network} {la : LinkAddr} {lnk : Connection}
    (f : Connection → Connection) (h : net.getLink la = some lnk)
    (hf : (f lnk).addr = lnk.addr) :
    ∃ net', net.modLink la f = some net' ∧ net'.skeleton = net.skeleton := by
  obtain ⟨net', nd, hmod, hnd, hlk, hlen, hat, hoth⟩ := modLink_spec f h
  refine ⟨net', hmod, ?_⟩
  have := @view_ext _ (fun (n : Node) => n.links.map (fun (l : Connection) => l.addr))
    net' net hlen (by
      intro b
      by_cases hb : b = ⟨la.layer, la.node⟩
      · subst hb
        rw [hat, hnd]
        simp only [Option.map_some', Option.some.injEq, List.map_set, hf]
        exact set_getElem?_self (by simp [List.getElem?_map, hlk])
      · rw [hoth b hb])
  simpa [Network.skeleton] using this

theorem Connection.In01.setProp {lnk : Connection} (h : lnk.In01) (prop : ConProperty) {v : ℚ}
    (h0 : 0 ≤ v) (h1 : v ≤ 1) : (lnk.setProp prop v).In01 := by
  obtain ⟨hk, hw, hc⟩ := h
  cases prop
  · exact ⟨⟨h0, h1⟩, hw, hc⟩
  · exact ⟨hk, ⟨h0, h1⟩, hc⟩
  · exact ⟨hk, hw, ⟨h0, h1⟩⟩

theorem Connection.In01.getProp {lnk : Connection} (h : lnk.In01) (prop : ConProperty) :
    0 ≤ lnk.getProp prop ∧ lnk.getProp prop ≤ 1 := by
  obtain ⟨hk, hw, hc⟩ := h
  cases prop
  · exact hk
  · exact hw
  · exact hc

theorem setProp_addr (lnk : Connection) (prop : ConProperty) (v : ℚ) :
    (lnk.setProp prop v).addr = lnk.addr := by
  cases prop <;> rfl

theorem modLink_params {net net' : Network} {la : LinkAddr} {lnk : Connection}
    (f : Connection → Connection) (h : net.getLink la = some lnk)
    (hmod : net.modLink la f = some net') (hf : (f lnk).In01) (hp : net.ParamsIn01) :
    net'.ParamsIn01 := by
  obtain ⟨net2, nd, hmod2, hnd, hlk, hlen, hat, hoth⟩ := modLink_spec f h
  rw [hmod] at hmod2
  cases hmod2
  have hp' := (forall_mem_iff_getNode net (fun n => ∀ l ∈ n.links, l.In01)).mp hp
  apply (forall_mem_iff_getNode net' (fun n => ∀ l ∈ n.links, l.In01)).mpr
  intro b n hn l hl
  by_cases hb : b = ⟨la.layer, la.node⟩
  · subst hb
    rw [hat] at hn
    cases hn
    rcases List.mem_or_eq_of_mem_set hl with hm | he
    · exact hp' _ nd hnd l hm
    · rw [he]
      exact hf
  · rw [hoth b hb] at hn
    exact hp' b n hn l hl

theorem getLink_of_skeleton {net1 net2 : Network} (h : net1.skeleton = net2.skeleton)
    {la : LinkAddr} (h2 : (net2.getLink la).isSome = true) :
    (net1.getLink la).isSome = true := by
  obtain ⟨l2, hl2⟩ := Option.isSome_iff_exists.mp h2
  obtain ⟨n2, hn2, hk2⟩ := getLink_eq hl2
  obtain ⟨n1, hn1, hlinks⟩ := skeleton_getNode h hn2
  have hlen : n1.links.length = n2.links.length := by
    have := congrArg List.length hlinks
    simpa using this
  have hlt : la.link < n2.links.length := by
    by_contra hc
    rw [List.getElem?_eq_none (by omega)] at hk2
    cases hk2
  simp [Network.getLink, hn1, List.getElem?_eq_getElem (hlen ▸ hlt)]

theorem getLink_params {net : Network} {la : LinkAddr} {lnk : Connection}
    (h : net.getLink la = some lnk) (hp : net.ParamsIn01) : lnk.In01 := by
  obtain ⟨nd, hnd, hlk⟩ := getLink_eq h
  exact (forall_mem_iff_getNode net (fun n => ∀ l ∈ n.links, l.In01)).mp hp _ nd hnd lnk
    (List.mem_iff_getElem?.mpr ⟨_, hlk⟩)

/-! ## Greedy per-link search -/

theorem skeleton_length {net1 net2 : Network} (h : net1.skeleton = net2.skeleton) :
    net1.mat.map List.length = net2.mat.map List.length :=
  view_length (fun (n : Node) => n.links.map (fun (l : Connection) => l.addr))
    (by simpa [Network.skeleton] using h)

theorem calculateError_skeleton {net cur : Network} (tuneData : List tuneSet)
    (hl : net.Linked) (hfit : ∀ smp ∈ tuneData, net.Fits smp)
    (hs : cur.skeleton = net.skeleton) :
    ∃ err n, cur.calculateError tuneData = some (err, n) ∧ n.topology = cur.topology ∧
      n.skeleton = net.skeleton := by
  obtain ⟨err, n, h1, h2, _, _⟩ := @calculateError_spec cur tuneData
    (linked_of_skeleton hs hl)
    (fun smp hsm => fits_of_length (skeleton_length hs) (hfit smp hsm))
  exact ⟨err, n, h1, h2, (skeleton_of_topology h2).trans hs⟩

theorem probe_spec {net cur : Network} (tuneData : List tuneSet)
    (hl : net.Linked) (hfit : ∀ smp ∈ tuneData, net.Fits smp)
    (hs : cur.skeleton = net.skeleton) {la : LinkAddr}
    (hg : (cur.getLink la).isSome = true) (prop : ConProperty) (v : ℚ) :
    ∃ err n, cur.probe la prop v tuneData = some (err, n) ∧ n.skeleton = net.skeleton ∧
      (0 ≤ v → v ≤ 1 → cur.ParamsIn01 → n.ParamsIn01) := by
  obtain ⟨lnk, hlnk⟩ := Option.isSome_iff_exists.mp hg
  obtain ⟨n1, hmod, hsk⟩ := modLink_skeleton (fun l => l.setProp prop v) hlnk
    (setProp_addr lnk prop v)
  obtain ⟨err, n, hce, htop, hsn⟩ := calculateError_skeleton tuneData hl hfit (hsk.trans hs)
  refine ⟨err, n, by simp [Network.probe, hmod, hce], hsn, ?_⟩
  intro h0 h1 hp
  exact paramsIn01_of_topology htop
    (modLink_params _ hlnk hmod ((getLink_params hlnk hp).setProp prop h0 h1) hp)

theorem revert_spec {net cur : Network} (hs : cur.skeleton = net.skeleton) {la : LinkAddr}
    (hg : (cur.getLink la).isSome = true) (prop : ConProperty) (prev : ℚ) :
    ∃ n, cur.revert la prop prev = some (1, n) ∧ n.skeleton = net.skeleton ∧
      (0 ≤ prev → prev ≤ 1 → cur.ParamsIn01 → n.ParamsIn01) := by
  obtain ⟨lnk, hlnk⟩ := Option.isSome_iff_exists.mp hg
  obtain ⟨n1, hmod, hsk⟩ := modLink_skeleton (fun l => l.setProp prop prev) hlnk
    (setProp_addr lnk prop prev)
  refine ⟨n1, by simp [Network.revert, hmod], hsk.trans hs, ?_⟩
  intro h0 h1 hp
  exact modLink_params _ hlnk hmod ((getLink_params hlnk hp).setProp prop h0 h1) hp

theorem tuneDown_spec {net cur : Network} (tuneData : List tuneSet)
    (hl : net.Linked) (hfit : ∀ smp ∈ tuneData, net.Fits smp)
    (hs : cur.skeleton = net.skeleton) {la : LinkAddr}
    (hg : (cur.getLink la).isSome = true) (prop : ConProperty)
    (learnMul currentErr prev value : ℚ) :
    ∃ f n, cur.tuneDown la prop tuneData learnMul currentErr prev value = some (f, n) ∧
      (f = 0 ∨ f = 1) ∧ n.skeleton = net.skeleton ∧
      (0 ≤ learnMul → 0 ≤ prev → prev ≤ 1 → cur.ParamsIn01 → n.ParamsIn01) := by
  unfold Network.tuneDown
  by_cases hv : value > 0
  · simp only [hv, if_true]
    obtain ⟨err, n2, hpr, hs2, hp2⟩ := probe_spec tuneData hl hfit hs hg prop
      (if prev - learnMul < 0 then 0 else prev - learnMul)
    have hin : 0 ≤ learnMul → 0 ≤ prev → prev ≤ 1 → cur.ParamsIn01 → n2.ParamsIn01 := by
      intro hlm h0 h1 hp
      apply hp2 _ _ hp
      · split <;> linarith
      · split <;> linarith
    simp only [hpr]
    by_cases he1 : err < currentErr
    · exact ⟨0, n2, by simp [he1], Or.inl rfl, hs2, hin⟩
    · by_cases he2 : err = currentErr
      · exact ⟨1, n2, by simp [he2], Or.inr rfl, hs2, hin⟩
      · obtain ⟨n3, hrv, hs3, hp3⟩ := revert_spec hs2
          (getLink_of_skeleton (hs2.trans hs.symm) hg) prop prev
        exact ⟨1, n3, by simp [he1, he2, hrv], Or.inr rfl, hs3,
          fun hlm h0 h1 hp => hp3 h0 h1 (hin hlm h0 h1 hp)⟩
  · simp only [hv, if_false]
    obtain ⟨n3, hrv, hs3, hp3⟩ := revert_spec hs hg prop prev
    exact ⟨1, n3, hrv, Or.inr rfl, hs3, fun _ h0 h1 hp => hp3 h0 h1 hp⟩

theorem tuneLink_spec {net cur : Network} (tuneData : List tuneSet)
    (hl : net.Linked) (hfit : ∀ smp ∈ tuneData, net.Fits smp)
    (hs : cur.skeleton = net.skeleton) (addr : NodeAddr) (j : Nat)
    (hg : (cur.getLink ⟨addr.layer, addr.node, j⟩).isSome = true) (prop : ConProperty)
    (learnMul currentErr : ℚ) :
    ∃ f n, cur.tuneLink addr j prop tuneData learnMul currentErr = some (f, n) ∧
      (f = 0 ∨ f = 1) ∧ n.skeleton = net.skeleton ∧
      (0 ≤ learnMul → cur.ParamsIn01 → n.ParamsIn01) := by
  obtain ⟨lnk, hlnk⟩ := Option.isSome_iff_exists.mp hg
  simp only [Network.tuneLink, hlnk]
  by_cases hv : lnk.getProp prop < 1
  · simp only [hv, if_true]
    obtain ⟨err, n1, hpr, hs1, hp1⟩ := probe_spec tuneData hl hfit hs hg prop
      (if lnk.getProp prop + learnMul > 1 then 1 else lnk.getProp prop + learnMul)
    have hin : 0 ≤ learnMul → cur.ParamsIn01 → n1.ParamsIn01 := by
      intro hlm hp
      have hb := (getLink_params hlnk hp).getProp prop
      apply hp1 _ _ hp
      · split <;> linarith [hb.1]
      · split <;> linarith [hb.2]
    simp only [hpr]
    by_cases he1 : err < currentErr
    · exact ⟨0, n1, by simp [he1], Or.inl rfl, hs1, hin⟩
    · by_cases he2 : err = currentErr
      · exact ⟨1, n1, by simp [he2], Or.inr rfl, hs1, hin⟩
      · obtain ⟨f, n2, htd, hf, hs2, hp2⟩ := tuneDown_spec tuneData hl hfit hs1
          (getLink_of_skeleton (hs1.trans hs.symm) hg) prop learnMul currentErr
          (lnk.getProp prop)
          (if lnk.getProp prop + learnMul > 1 then 1 else lnk.getProp prop + learnMul)
        refine ⟨f, n2, by simp [he1, he2, htd], hf, hs2, ?_⟩
        intro hlm hp
        have hb := (getLink_params hlnk hp).getProp prop
        exact hp2 hlm hb.1 hb.2 (hin hlm hp)
  · simp only [hv, if_false]
    obtain ⟨f, n2, htd, hf, hs2, hp2⟩ := tuneDown_spec tuneData hl hfit hs hg prop
      learnMul currentErr (lnk.getProp prop) (lnk.getProp prop)
    refine ⟨f, n2, htd, hf, hs2, ?_⟩
    intro hlm hp
    have hb := (getLink_params hlnk hp).getProp prop
    exact hp2 hlm hb.1 hb.2 hp

theorem tuneShallow_spec {net : Network} (tuneData : List tuneSet)
    (hl : net.Linked) (hfit : ∀ smp ∈ tuneData, net.Fits smp) (addr : NodeAddr)
    {nd : Node} (hnd : net.getNode addr = some nd) (prop : ConProperty) (learnMul : ℚ) :
    ∃ res net', net.tuneShallow addr prop tuneData learnMul = some (res, net') ∧
      net'.skeleton = net.skeleton ∧ res.total = nd.links.length ∧
      0 ≤ res.fails ∧ res.fails ≤ res.total ∧
      (0 ≤ learnMul → net.ParamsIn01 → net'.ParamsIn01) := by
  obtain ⟨currentErr, n0, hce, htop, hs0⟩ := calculateError_skeleton tuneData hl hfit
    (rfl : net.skeleton = net.skeleton)
  obtain ⟨nd0, hnd0, hlinks0⟩ := topology_getNode htop hnd
  simp only [Network.tuneShallow, hce, hnd0]
  have key := foldlM_range_inv (Network.tuneStep addr prop tuneData learnMul currentErr)
    (fun k (acc : tuneResult × Network) => acc.2.skeleton = net.skeleton ∧
      acc.1.total = k ∧ 0 ≤ acc.1.fails ∧ acc.1.fails ≤ acc.1.total ∧
      (0 ≤ learnMul → net.ParamsIn01 → acc.2.ParamsIn01))
    nd0.links.length (⟨0, 0⟩, n0)
    ⟨hs0, rfl, le_refl _, le_refl _, fun _ hp => paramsIn01_of_topology htop hp⟩
    (by
      rintro k ⟨res, cur⟩ hk ⟨hs, ht, hf0, hf1, hp⟩
      have hg0 : (n0.getLink ⟨addr.layer, addr.node, k⟩).isSome = true := by
        simp [Network.getLink, hnd0, List.getElem?_eq_getElem hk]
      obtain ⟨f, n, hstep, hf, hsn, hpn⟩ := tuneLink_spec tuneData hl hfit hs addr k
        (getLink_of_skeleton (hs.trans hs0.symm) hg0) prop learnMul currentErr
      refine ⟨(⟨res.fails + f, res.total + 1⟩, n), by simp [Network.tuneStep, hstep],
        hsn, ?_, ?_, ?_, fun hlm hp0 => hpn hlm (hp hlm hp0)⟩
      · simp only at ht ⊢
        rw [ht]
        push_cast
        ring
      · rcases hf with hf | hf <;> simp only [hf] <;> simp only at hf0 <;> omega
      · rcases hf with hf | hf <;> simp only [hf] <;> simp only at hf1 <;> omega)
  obtain ⟨⟨res, net'⟩, h1, h2, h3, h4, h5, h6⟩ := key
  exact ⟨res, net', h1, h2, by rw [h3, hlinks0], h4, h5, h6⟩

/-- C9: counters of `tuneShallow`. For every network whose connections target existing
nodes, every existing node, property, batch whose vector lengths match and learnRate,
`tuneShallow` returns `(fails, total)` with `total` the number of outgoing connections
of the node and `0 ≤ fails ≤ total`. -/
theorem tuneShallow_counters (net : Network) (addr : NodeAddr) (nd : Node)
    (prop : ConProperty) (tuneData : List tuneSet) (learnMul : ℚ)
    (hl : net.Linked) (hfit : ∀ smp ∈ tuneData, net.Fits smp)
    (hnd : net.getNode addr = some nd) :
    ∃ res net', net.tuneShallow addr prop tuneData learnMul = some (res, net') ∧
      res.total = nd.links.length ∧ 0 ≤ res.fails ∧ res.fails ≤ res.total := by
  obtain ⟨res, net', h1, _, h3, h4, h5, _⟩ :=
    tuneShallow_spec tuneData hl hfit addr hnd prop learnMul
  exact ⟨res, net', h1, h3, h4, h5⟩

theorem tuneShallow_counters_witness :
    twoSourceNet.Linked ∧ (∀ smp ∈ [(⟨[1, 1], [13/20]⟩ : tuneSet)], twoSourceNet.Fits smp) ∧
      ∃ res net', twoSourceNet.tuneShallow ⟨0, 0⟩ ConProperty.W [⟨[1, 1], [13/20]⟩] (1/4) =
          some (res, net') ∧
        res.total = ([⟨0, 1/5, 0, ⟨1, 0⟩⟩] : List Connection).length ∧
        0 ≤ res.fails ∧ res.fails ≤ res.total :=
  ⟨Network.Forward.linked (by decide), by decide,
    tuneShallow_counters twoSourceNet ⟨0, 0⟩ ⟨0, 0, [⟨0, 1/5, 0, ⟨1, 0⟩⟩]⟩ ConProperty.W
      [⟨[1, 1], [13/20]⟩] (1/4) (Network.Forward.linked (by decide)) (by decide) rfl⟩

/-- C8 as stated fails: with the negative learnRate `-1/2` the trial `value + learnRate`
of the weight `1/5` is `-3/10`; it is only clamped from above, it lowers the error to
zero on the sample `([1, 1], [13/20])` and is kept. -/
theorem tuneShallow_negative_rate_escapes :
    twoSourceNet.ParamsIn01 ∧
      (∀ smp ∈ [(⟨[1, 1], [13/20]⟩ : tuneSet)], twoSourceNet.Fits smp) ∧
      ∃ res net', twoSourceNet.tuneShallow ⟨0, 0⟩ ConProperty.W [⟨[1, 1], [13/20]⟩] (-1/2) =
          some (res, net') ∧
        net'.getLink ⟨0, 0, 0⟩ = some ⟨0, -3/10, 0, ⟨1, 0⟩⟩ ∧ ¬ net'.ParamsIn01 := by
  refine ⟨by decide!, by decide, ⟨0, 1⟩,
    ⟨[[⟨1, 1, [⟨0, -3/10, 0, ⟨1, 0⟩⟩]⟩, ⟨1, 1, [⟨0, 1/2, 0, ⟨1, 0⟩⟩]⟩], [⟨13/20, 1, []⟩]]⟩,
    by decide!, by decide!, by decide!⟩

/-- C8 (amended to a non-negative learnRate): for every network whose connections
target existing nodes and whose parameters `k`, `w`, `c` all lie in `[0,1]`, every
existing node, property, batch whose vector lengths match and learnRate `≥ 0`,
`tuneShallow` returns and every connection parameter still lies in `[0,1]`. -/
theorem tuneShallow_keeps_unit_interval (net : Network) (addr : NodeAddr) (nd : Node)
    (prop : ConProperty) (tuneData : List tuneSet) (learnMul : ℚ)
    (hl : net.Linked) (hfit : ∀ smp ∈ tuneData, net.Fits smp)
    (hnd : net.getNode addr = some nd) (hlm : 0 ≤ learnMul) (hp : net.ParamsIn01) :
    ∃ res net', net.tuneShallow addr prop tuneData learnMul = some (res, net') ∧
      net'.ParamsIn01 := by
  obtain ⟨res, net', h1, _, _, _, _, h6⟩ :=
    tuneShallow_spec tuneData hl hfit addr hnd prop learnMul
  exact ⟨res, net', h1, h6 hlm hp⟩

theorem tuneShallow_keeps_unit_interval_witness :
    twoSourceNet.Linked ∧ (∀ smp ∈ [(⟨[1, 1], [13/20]⟩ : tuneSet)], twoSourceNet.Fits smp) ∧
      twoSourceNet.ParamsIn01 ∧
      ∃ res net', twoSourceNet.tuneShallow ⟨0, 0⟩ ConProperty.W [⟨[1, 1], [13/20]⟩] (1/2) =
          some (res, net') ∧ net'.ParamsIn01 :=
  ⟨Network.Forward.linked (by decide), by decide, by decide!,
    tuneShallow_keeps_unit_interval twoSourceNet ⟨0, 0⟩ ⟨0, 0, [⟨0, 1/5, 0, ⟨1, 0⟩⟩]⟩
      ConProperty.W [⟨[1, 1], [13/20]⟩] (1/2) (Network.Forward.linked (by decide))
      (by decide) rfl (by norm_num) (by decide!)⟩

/-! ## End-to-end scenario on the network `[1, 1]` -/

theorem unit_net_of_topology {net : Network} {v : ℚ}
    (h : net.topology = (buildByConfig [1, 1] 0 v 0).topology) :
    ∃ s0 c0 s1 c1, net = ⟨[[⟨s0, c0, [⟨0, v, 0, ⟨1, 0⟩⟩]⟩], [⟨s1, c1, []⟩]]⟩ := by
  obtain ⟨mat⟩ := net
  have h' : mat.map (fun layer => layer.map (fun nd => nd.links)) =
      [[[⟨0, v, 0, ⟨1, 0⟩⟩]], [[]]] := by
    simpa [Network.topology, buildByConfig, buildLayers, uniformLinks, Node.blank,
      List.range, List.range.loop] using h
  match mat, h' with
  | [[⟨s0, c0, l0⟩], [⟨s1, c1, l1⟩]], h' =>
    simp only [List.map_cons, List.map_nil, List.cons.injEq, and_true] at h'
    obtain ⟨e0, e1⟩ := h'
    subst e0 e1
    exact ⟨s0, c0, s1, c1, rfl⟩

theorem tuneDeep_unit (v r s0 c0 s1 c1 : ℚ) (hv0 : 0 ≤ v) (hv1 : v ≤ 1) (hr0 : 0 < r)
    (hr1 : r ≤ 1) :
    (Network.mk [[⟨s0, c0, [⟨0, v, 0, ⟨1, 0⟩⟩]⟩], [⟨s1, c1, []⟩]]).tuneDeep ⟨0, 0⟩ 0
        ConProperty.W [⟨[1], [1/2]⟩] r =
      some (|(1/2 - v) * r|,
        ⟨[[⟨1, 1, [⟨0, 1/2 + (1 - r) * (v - 1/2), 0, ⟨1, 0⟩⟩]⟩], [⟨1 - v, 1, []⟩]]⟩) := by
  have hrun : (Network.mk [[⟨s0, c0, [⟨0, v, 0, ⟨1, 0⟩⟩]⟩], [⟨s1, c1, []⟩]]).loadRun [1] =
      some ⟨[[⟨1, 1, [⟨0, v, 0, ⟨1, 0⟩⟩]⟩], [⟨1 - v, 1, []⟩]]⟩ := by
    simp [Network.loadRun, Network.loadInput, setSignals, Network.run, Network.reset,
      resetNodes, Network.flowAll, Network.flowUpTo, Network.flow, Network.flowNode,
      Network.flowLink, Network.getNode, Network.modNode, List.range, List.range.loop]
  have hn : normalize (1/2 + (1 - r) * (v - 1/2)) = 1/2 + (1 - r) * (v - 1/2) := by
    unfold normalize
    rw [if_pos]
    constructor <;> nlinarith
  have hh : normalize (1 - 2⁻¹) = 2⁻¹ := by
    unfold normalize
    norm_num
  have hlt : (2⁻¹ : ℚ) < 1 := by norm_num
  have he : v + (1 + 2⁻¹ - 2⁻¹) * (2⁻¹ - v) * r = 1/2 + (1 - r) * (v - 1/2) := by ring
  simp [Network.tuneDeep, Network.collectTuningSummary, Network.getLink, Network.getNode,
    Network.summaryStep, hrun, Network.predictSignal, Network.solveDelta, summarize,
    Network.modLink, Network.modNode, Connection.getProp, Connection.setProp, hh]
  simp only [if_pos hlt]
  refine ⟨by congr 1; ring, ?_⟩
  rw [he, hn]
  ring

/-- C7 as stated fails in single precision: from `buildByConfig([1,1], 0, 1, 0)`, 52
successive `tuneDeep` calls on the connection with the batch `{([1], [1/2])}`, property
`W` and `learnMul = 1/4` bring `w` to `v = 1/2 + 2^-23`; in the next call
`diff = -2^-25` and `v + diff` lies halfway between two binary32 values and rounds back
to `v`. So `w` stays at `v`: it is not `1/2 + (1 - 1/4)(v - 1/2)` and it is not strictly
closer to `1/2` than before. -/
theorem tuneDeep_rounding_stalls :
    ∃ net52 mag net53,
      (buildByConfig [1, 1] 0 1 0).tuneDeepTimes32 ⟨0, 0⟩ 0 ConProperty.W [⟨[1], [1/2]⟩]
        (1/4) 52 = some net52 ∧
      net52.getLink ⟨0, 0, 0⟩ = some ⟨0, 1/2 + pow2 (-23), 0, ⟨1, 0⟩⟩ ∧
      net52.tuneDeep32 ⟨0, 0⟩ 0 ConProperty.W [⟨[1], [1/2]⟩] (1/4) = some (mag, net53) ∧
      mag = pow2 (-25) ∧
      net53.getLink ⟨0, 0, 0⟩ = some ⟨0, 1/2 + pow2 (-23), 0, ⟨1, 0⟩⟩ ∧
      1/2 + pow2 (-23) ≠ 1/2 + (1 - 1/4) * ((1/2 + pow2 (-23)) - 1/2) ∧
      ¬ (|(1/2 + pow2 (-23)) - 1/2| < |(1/2 + pow2 (-23)) - 1/2|) :=
  ⟨⟨[[⟨1, 1, [⟨0, 4194305/8388608, 0, ⟨1, 0⟩⟩]⟩], [⟨8388605/16777216, 1, []⟩]]⟩,
    1/33554432,
    ⟨[[⟨1, 1, [⟨0, 4194305/8388608, 0, ⟨1, 0⟩⟩]⟩], [⟨4194303/8388608, 1, []⟩]]⟩,
    by decide!, by decide!, by decide!, by decide!, by decide!, by decide!,
    lt_irrefl _⟩

/-- C7 (amended: the update formula of `tuneDeep` holds in exact arithmetic). On
`buildByConfig([1,1], k=0, w=1, c=0)` after `loadInput([1]); run()`, `solveDelta` for
`(0,0)`, connection 0, desired signal `1/2` and property `W` returns exactly `1/2`, in
exact arithmetic and in single precision. In exact arithmetic, on any network with the
topology of `buildByConfig([1,1], 0, v, 0)`, `0 ≤ v ≤ 1`, one `tuneDeep` call on that
connection with the batch `{([1], [1/2])}` and `learnMul = r ∈ (0,1]` returns and leaves
the topology of `buildByConfig([1,1], 0, v', 0)` with
`v' = 1/2 + (1 - r)(v - 1/2) ∈ [0,1]`: `v' = 1/2` when `r = 1`, `v'` is strictly closer to
`1/2` than `v` whenever `v ≠ 1/2`, and for `r < 1` it never reaches `1/2`, so this
repeats on every later call. -/
theorem end_to_end_scenario (net : Network) (v r : ℚ) (hv0 : 0 ≤ v) (hv1 : v ≤ 1)
    (hr0 : 0 < r) (hr1 : r ≤ 1)
    (hnet : net.topology = (buildByConfig [1, 1] 0 v 0).topology) :
    (∃ st, (buildByConfig [1, 1] 0 1 0).loadRun [1] = some st ∧
      st.solveDelta ⟨0, 0⟩ 0 (1/2) ConProperty.W = some (1/2)) ∧
    (∃ st, (buildByConfig [1, 1] 0 1 0).loadRun32 [1] = some st ∧
      st.solveDelta32 ⟨0, 0⟩ 0 (1/2) ConProperty.W = some (1/2)) ∧
    (∃ mag net', net.tuneDeep ⟨0, 0⟩ 0 ConProperty.W [⟨[1], [1/2]⟩] r = some (mag, net') ∧
      net'.topology =
        (buildByConfig [1, 1] 0 (1/2 + (1 - r) * (v - 1/2)) 0).topology) ∧
    (0 ≤ 1/2 + (1 - r) * (v - 1/2) ∧ 1/2 + (1 - r) * (v - 1/2) ≤ 1) ∧
    (r = 1 → 1/2 + (1 - r) * (v - 1/2) = 1/2) ∧
    (v ≠ 1/2 → |1/2 + (1 - r) * (v - 1/2) - 1/2| < |v - 1/2|) ∧
    (r < 1 → v ≠ 1/2 → 1/2 + (1 - r) * (v - 1/2) ≠ 1/2) := by
  refine ⟨⟨⟨[[⟨1, 1, [⟨0, 1, 0, ⟨1, 0⟩⟩]⟩], [⟨0, 1, []⟩]]⟩, by decide!, by decide!⟩,
    ⟨⟨[[⟨1, 1, [⟨0, 1, 0, ⟨1, 0⟩⟩]⟩], [⟨0, 1, []⟩]]⟩, by decide!, by decide!⟩, ?_,
    ⟨by nlinarith, by nlinarith⟩, ?_, ?_, ?_⟩
  · obtain ⟨s0, c0, s1, c1, rfl⟩ := unit_net_of_topology hnet
    refine ⟨_, _, tuneDeep_unit v r s0 c0 s1 c1 hv0 hv1 hr0 hr1, ?_⟩
    simp [Network.topology, buildByConfig, buildLayers, uniformLinks, Node.blank,
      List.range, List.range.loop]
  · intro h1
    rw [h1]
    ring
  · intro hne
    have hpos : 0 < |v - 1/2| := abs_pos.mpr (sub_ne_zero.mpr hne)
    have e : 1/2 + (1 - r) * (v - 1/2) - 1/2 = (1 - r) * (v - 1/2) := by ring
    rw [e, abs_mul, abs_of_nonneg (by linarith : (0 : ℚ) ≤ 1 - r)]
    nlinarith
  · intro hlt hne e
    have e' : (1 - r) * (v - 1/2) = 0 := by linarith
    rcases mul_eq_zero.mp e' with h | h
    · linarith
    · exact hne (by linarith)

theorem end_to_end_scenario_witness :
    (∃ st, (buildByConfig [1, 1] 0 1 0).loadRun [1] = some st ∧
      st.solveDelta ⟨0, 0⟩ 0 (1/2) ConProperty.W = some (1/2)) ∧
    (∃ st, (buildByConfig [1, 1] 0 1 0).loadRun32 [1] = some st ∧
      st.solveDelta32 ⟨0, 0⟩ 0 (1/2) ConProperty.W = some (1/2)) ∧
    (∃ mag net', (buildByConfig [1, 1] 0 1 0).tuneDeep ⟨0, 0⟩ 0 ConProperty.W
        [⟨[1], [1/2]⟩] (1/4) = some (mag, net') ∧
      net'.topology =
        (buildByConfig [1, 1] 0 (1/2 + (1 - 1/4) * (1 - 1/2)) 0).topology) ∧
    (0 ≤ 1/2 + (1 - 1/4) * ((1 : ℚ) - 1/2) ∧ 1/2 + (1 - 1/4) * ((1 : ℚ) - 1/2) ≤ 1) ∧
    ((1/4 : ℚ) = 1 → 1/2 + (1 - 1/4) * ((1 : ℚ) - 1/2) = 1/2) ∧
    ((1 : ℚ) ≠ 1/2 → |1/2 + (1 - 1/4) * ((1 : ℚ) - 1/2) - 1/2| < |(1 : ℚ) - 1/2|) ∧
    ((1/4 : ℚ) < 1 → (1 : ℚ) ≠ 1/2 → 1/2 + (1 - 1/4) * ((1 : ℚ) - 1/2) ≠ 1/2) :=
  end_to_end_scenario (buildByConfig [1, 1] 0 1 0) 1 (1/4) (by norm_num) (by norm_num)
    (by norm_num) (by norm_num) rfl

/-! ## Forward networks and re-propagation -/

theorem forward_iff_getNode (net : Network) :
    net.Forward ↔ ∀ a n, net.getNode a = some n → ∀ lnk ∈ n.links,
      a.layer < lnk.addr.layer ∧ (net.getNode lnk.addr).isSome = true := by
  constructor
  · intro h a n hn lnk hl
    obtain ⟨hlt, hmem⟩ := getNode_mem hn
    exact h a.layer hlt n hmem lnk hl
  · intro h L hL n hn lnk hl
    obtain ⟨i, hi⟩ := List.mem_iff_getElem?.mp hn
    have hlay : net.mat[L]? = some (net.mat.getD L []) := by
      simp [List.getD_eq_getElem?_getD, List.getElem?_eq_getElem hL]
    exact h ⟨L, i⟩ n (by simp only [Network.getNode, hlay]; exact hi) lnk hl

theorem forward_of_skeleton {net1 net2 : Network} (h : net1.skeleton = net2.skeleton)
    (hf : net2.Forward) : net1.Forward := by
  rw [forward_iff_getNode] at hf ⊢
  intro a n1 hn1 lnk hlnk
  obtain ⟨n2, hn2, hlinks⟩ := skeleton_getNode h.symm hn1
  have hmem : lnk.addr ∈ n2.links.map (fun l => l.addr) := by
    rw [hlinks]
    exact List.mem_map_of_mem _ hlnk
  obtain ⟨l2, hl2, he⟩ := List.mem_map.mp hmem
  rw [← he]
  obtain ⟨h1, h2⟩ := hf a n2 hn2 l2 hl2
  exact ⟨h1, skeleton_isSome h h2⟩

theorem forward_of_topology {net1 net2 : Network} (h : net1.topology = net2.topology)
    (hf : net2.Forward) : net1.Forward :=
  forward_of_skeleton (skeleton_of_topology h) hf

theorem forwardAt_of_forward {net : Network} (hf : net.Forward) {L : Nat}
    (hL : L < net.mat.length) : net.ForwardAt L :=
  hf L hL

theorem resetLayer_spec {net : Network} {m : Nat} (hm : m < net.mat.length) :
    ∃ r, net.resetLayer m = some r ∧ r.topology = net.topology ∧
      (∀ l, l ≠ m → r.mat[l]? = net.mat[l]?) ∧
      (∀ b nd, b.layer = m → net.getNode b = some nd →
        r.getNode b = some { nd with s := 1, c := 1 }) := by
  refine ⟨⟨net.mat.set m (resetNodes net.mat[m])⟩, ?_, ?_, ?_, ?_⟩
  · simp [Network.resetLayer, List.getElem?_eq_getElem hm]
  · simp only [Network.topology, List.map_set]
    apply set_getElem?_self
    simp [List.getElem?_eq_getElem hm, resetNodes, List.map_map, Function.comp_def]
  · intro l hl
    simp [List.getElem?_set, Ne.symm hl]
  · intro b nd hb hnd
    subst hb
    simp only [Network.getNode, List.getElem?_eq_getElem hm] at hnd
    simp [Network.getNode, List.getElem?_set, hm, resetNodes, List.getElem?_map, hnd]

theorem getNode_of_layer_eq {net1 net2 : Network} {l : Nat}
    (h : net1.mat[l]? = net2.mat[l]?) (j : Nat) :
    net1.getNode ⟨l, j⟩ = net2.getNode ⟨l, j⟩ := by
  simp [Network.getNode, h]

theorem prod_map_unique {α : Type} (l : List α) (h : α → ℚ) (i : Nat) (x : α)
    (hx : l[i]? = some x) (hone : ∀ i' y, i' ≠ i → l[i']? = some y → h y = 1) :
    (l.map h).prod = h x := by
  induction l generalizing i with
  | nil => simp at hx
  | cons a as ih =>
    cases i with
    | zero =>
      simp only [List.getElem?_cons_zero, Option.some.injEq] at hx
      subst hx
      have : (as.map h).prod = 1 := by
        apply prod_map_eq_one
        intro y hy
        obtain ⟨j, hj⟩ := List.mem_iff_getElem?.mp hy
        exact hone (j + 1) y (by omega) (by simpa using hj)
      simp [this]
    | succ i =>
      have ha : h a = 1 := hone 0 a (by omega) (by simp)
      have := ih i (by simpa using hx)
        (fun i' y hi' hy => hone (i' + 1) y (by omega) (by simpa using hy))
      simp [ha, this]

theorem linkProd_eq_map (g : Connection → ℚ) (links : List Connection) (t : NodeAddr) :
    linkProd g links t = (links.map (fun lnk => if lnk.addr = t then g lnk else 1)).prod := by
  unfold linkProd
  induction links with
  | nil => simp
  | cons a as ih =>
    by_cases ha : a.addr = t
    · simp [List.filter_cons, ha, ih]
    · simp [List.filter_cons, ha, ih]

theorem signalFactor_unique (layer : List Node) (t : NodeAddr) (i j : Nat) (nd : Node)
    (lnk : Connection) (hnd : layer[i]? = some nd) (hlk : nd.links[j]? = some lnk)
    (ht : lnk.addr = t)
    (huniq : ∀ i' nd' j' lnk', layer[i']? = some nd' → nd'.links[j']? = some lnk' →
      lnk'.addr = t → i' = i ∧ j' = j) :
    signalFactor layer t = 1 - lnk.w * attenuation nd lnk := by
  rw [signalFactor_eq]
  rw [prod_map_unique layer _ i nd hnd]
  · rw [linkProd_eq_map, prod_map_unique nd.links _ j lnk hlk]
    · simp [ht]
    · intro j' y hj' hy
      by_cases hyt : y.addr = t
      · exact absurd (huniq i nd j' y hnd hy hyt).2 hj'
      · simp [hyt]
  · intro i' y hi' hy
    apply linkProd_eq_one
    intro l hl e
    obtain ⟨j', hj'⟩ := List.mem_iff_getElem?.mp hl
    exact hi' (huniq i' y j' l hy hj' e).1

theorem flow_forward_spec {net : Network} (hf : net.Forward) {L : Nat} {layer : List Node}
    (hL : net.mat[L]? = some layer) :
    ∃ net', net.flow L = some net' ∧ net'.topology = net.topology ∧
      (∀ t nd, net.getNode t = some nd → net'.getNode t =
        some { nd with s := nd.s * signalFactor layer t, c := nd.c * condFactor layer t }) ∧
      (∀ t nd, t.layer ≤ L → net.getNode t = some nd → net'.getNode t = some nd) := by
  have hlt : L < net.mat.length := by
    by_contra hc
    rw [List.getElem?_eq_none (by omega)] at hL
    cases hL
  obtain ⟨net', hflow, hsc⟩ := flow_scaled hL (hf L hlt)
  obtain ⟨net2, hflow2, _, hpt, _, hle⟩ := flow_spec hL (hf L hlt)
  rw [hflow] at hflow2
  cases hflow2
  exact ⟨net', hflow, hsc.topology, hpt, fun t nd ht hnd => hle t nd hnd ht⟩

theorem reflow_step {net : Network} (hf : net.Forward) {x : Nat}
    (hx : x + 1 < net.mat.length) :
    ∃ r1 r2 layer, net.resetLayer (x + 1) = some r1 ∧ r1.flow x = some r2 ∧
      net.mat[x]? = some layer ∧ r2.topology = net.topology ∧
      (∀ b nd, b.layer ≤ x → net.getNode b = some nd → r2.getNode b = some nd) ∧
      (∀ b nd, b.layer = x + 1 → net.getNode b = some nd → r2.getNode b =
        some { nd with s := signalFactor layer b, c := condFactor layer b }) := by
  obtain ⟨r1, hr1, htop1, hsame, hreset⟩ := resetLayer_spec hx
  have hlx : net.mat[x]? = some net.mat[x] := List.getElem?_eq_getElem (by omega)
  have hl1 : r1.mat[x]? = some net.mat[x] := by
    rw [hsame x (by omega)]
    exact hlx
  obtain ⟨r2, hr2, htop2, hpt, hle⟩ := flow_forward_spec (forward_of_topology htop1 hf) hl1
  refine ⟨r1, r2, net.mat[x], hr1, hr2, hlx, htop2.trans htop1, ?_, ?_⟩
  · intro b nd hb hnd
    apply hle b nd hb
    obtain ⟨bl, bn⟩ := b
    rw [getNode_of_layer_eq (hsame bl (by simp only at hb; omega)) bn]
    exact hnd
  · intro b nd hb hnd
    rw [hpt b _ (hreset b nd hb hnd)]
    simp

theorem solveDelta_eq {st : Network} {addr : NodeAddr} {nd : Node} {j : Nat}
    {lnk : Connection} (hnd : st.getNode addr = some nd) (hlk : nd.links[j]? = some lnk)
    (d : ℚ) (prop : ConProperty) :
    st.solveDelta addr j d prop = some (normalize (unclamped nd lnk d prop)) := by
  cases prop <;> simp [Network.solveDelta, hnd, hlk, unclamped]

theorem normalize_of_mem {x : ℚ} (h0 : 0 ≤ x) (h1 : x ≤ 1) : normalize x = x := by
  unfold normalize
  rw [if_pos ⟨h0, h1⟩]

theorem factor_of_unclamped (nd : Node) (lnk : Connection) (d : ℚ) (prop : ConProperty)
    (hprop : prop = ConProperty.K ∨ prop = ConProperty.W)
    (hdiv : DivisorsNonzero nd lnk prop) :
    1 - (lnk.setProp prop (unclamped nd lnk d prop)).w *
        attenuation nd (lnk.setProp prop (unclamped nd lnk d prop)) = d := by
  rcases hprop with h | h
  · subst h
    obtain ⟨h1, h2⟩ := hdiv
    have hw : lnk.w ≠ 0 := fun e => h1 (by rw [e]; ring)
    have hc : nd.c ≠ 0 := fun e => h1 (by rw [e]; ring)
    simp only [Connection.setProp, attenuation, unclamped]
    field_simp
    ring
  · subst h
    have h1 : nd.c * (lnk.k + nd.s - 2 * nd.s * lnk.k) ≠ 0 := hdiv
    simp only [Connection.setProp, attenuation, unclamped]
    field_simp

theorem length_of_topology {net1 net2 : Network} (h : net1.topology = net2.topology) :
    net1.mat.length = net2.mat.length := by
  have := congrArg List.length (topology_length h)
  simpa using this

theorem reflow_keeps {st : Network} (hf : st.Forward) (start count : Nat) (t : NodeAddr)
    (tn : Node) (ht : t.layer ≤ start) (hlen : start + count + 1 ≤ st.mat.length)
    (htn : st.getNode t = some tn) :
    ∃ st', (List.range' start count).foldlM
        (fun cur n =>
          match cur.resetLayer (n + 1) with
          | none => none
          | some r => r.flow n) st = some st' ∧
      st'.topology = st.topology ∧ st'.getNode t = some tn := by
  apply foldlM_list_inv _ (fun _ cur => cur.topology = st.topology ∧ cur.getNode t = some tn)
    _ st ⟨rfl, htn⟩
  rintro pre x suf cur hxs ⟨htop, hcur⟩
  have hx : x ∈ List.range' start count := by rw [hxs]; simp
  rw [List.mem_range'_1] at hx
  have hlc := length_of_topology htop
  obtain ⟨r1, r2, layer, hr1, hr2, _, htop2, hle, _⟩ :=
    @reflow_step cur (forward_of_topology htop hf) x (by omega)
  exact ⟨r2, by simp [hr1, hr2], htop2.trans htop, hle t tn (by omega) hcur⟩

/-- C4 as stated fails. (1) On two sources feeding one output, after `loadInput([1,1]);
run()`, `solveDelta` for connection 0 of node `(0,0)`, property `W` and desired signal
`1/2` returns `1/2` (divisor `1`, unclamped solution `1/2`); stored and re-propagated
from layer 0, the output signal is `1/4`, the product with the factor of the other
connection, not `1/2`; a complete `loadInput([1,1]); run()` gives `1/4` as well.
(2) In single precision, on `buildByConfig([1,1], 0, 1/2, 0)` after `loadInput([1]);
run()`, where the target has this one incoming connection, `solveDelta` for property `W`
and the desired signal `d = 0.1f` (divisor `1`, unclamped solution in `[0,1]`) returns
`1 - d` rounded, `0.9f - 2^-24`; stored and re-propagated from layer 0, the target
signal is `d + 3 * 2^-27`, not `d`. -/
theorem solveDelta_ignores_other_connections :
    (∃ st st' st'' tn, twoSourceNet.loadRun [1, 1] = some st ∧
      DivisorsNonzero ⟨1, 1, [⟨0, 1/5, 0, ⟨1, 0⟩⟩]⟩ ⟨0, 1/5, 0, ⟨1, 0⟩⟩ ConProperty.W ∧
      unclamped ⟨1, 1, [⟨0, 1/5, 0, ⟨1, 0⟩⟩]⟩ ⟨0, 1/5, 0, ⟨1, 0⟩⟩ (1/2) ConProperty.W = 1/2 ∧
      st.solveDelta ⟨0, 0⟩ 0 (1/2) ConProperty.W = some (1/2) ∧
      st.modLink ⟨0, 0, 0⟩ (fun l => l.setProp ConProperty.W (1/2)) = some st' ∧
      st'.reflow 0 = some st'' ∧ st''.getNode ⟨1, 0⟩ = some tn ∧
      tn.s = 1/4 ∧ tn.s ≠ 1/2 ∧ (st'.loadRun [1, 1]).bind Network.output = some [1/4]) ∧
    (∃ st v st' st'' tn, (buildByConfig [1, 1] 0 (1/2) 0).loadRun32 [1] = some st ∧
      st = ⟨[[⟨1, 1, [⟨0, 1/2, 0, ⟨1, 0⟩⟩]⟩], [⟨1/2, 1, []⟩]]⟩ ∧
      round32 (1/10) = 13421773/134217728 ∧
      0 ∉ st.solveDivisors ⟨0, 0⟩ 0 ConProperty.W ∧
      (0 ≤ unclamped ⟨1, 1, [⟨0, 1/2, 0, ⟨1, 0⟩⟩]⟩ ⟨0, 1/2, 0, ⟨1, 0⟩⟩ (13421773/134217728)
          ConProperty.W ∧
        unclamped ⟨1, 1, [⟨0, 1/2, 0, ⟨1, 0⟩⟩]⟩ ⟨0, 1/2, 0, ⟨1, 0⟩⟩ (13421773/134217728)
          ConProperty.W ≤ 1) ∧
      st.solveDelta32 ⟨0, 0⟩ 0 (13421773/134217728) ConProperty.W = some v ∧
      v = 7549747/8388608 ∧
      st.modLink ⟨0, 0, 0⟩ (fun l => l.setProp ConProperty.W v) = some st' ∧
      st'.reflow32 0 = some st'' ∧ st''.getNode ⟨1, 0⟩ = some tn ∧
      tn.s = 13421773/134217728 + 3 * pow2 (-27) ∧ tn.s ≠ 13421773/134217728) :=
  ⟨⟨⟨[[⟨1, 1, [⟨0, 1/5, 0, ⟨1, 0⟩⟩]⟩, ⟨1, 1, [⟨0, 1/2, 0, ⟨1, 0⟩⟩]⟩], [⟨2/5, 1, []⟩]]⟩,
    ⟨[[⟨1, 1, [⟨0, 1/2, 0, ⟨1, 0⟩⟩]⟩, ⟨1, 1, [⟨0, 1/2, 0, ⟨1, 0⟩⟩]⟩], [⟨2/5, 1, []⟩]]⟩,
    ⟨[[⟨1, 1, [⟨0, 1/2, 0, ⟨1, 0⟩⟩]⟩, ⟨1, 1, [⟨0, 1/2, 0, ⟨1, 0⟩⟩]⟩], [⟨1/4, 1, []⟩]]⟩,
    ⟨1/4, 1, []⟩, by decide!, by norm_num [DivisorsNonzero], by norm_num [unclamped],
    by decide!, by decide!, by decide!, by decide!, rfl, by norm_num, by decide!⟩,
   ⟨⟨[[⟨1, 1, [⟨0, 1/2, 0, ⟨1, 0⟩⟩]⟩], [⟨1/2, 1, []⟩]]⟩, 7549747/8388608,
    ⟨[[⟨1, 1, [⟨0, 7549747/8388608, 0, ⟨1, 0⟩⟩]⟩], [⟨1/2, 1, []⟩]]⟩,
    ⟨[[⟨1, 1, [⟨0, 7549747/8388608, 0, ⟨1, 0⟩⟩]⟩], [⟨838861/8388608, 1, []⟩]]⟩,
    ⟨838861/8388608, 1, []⟩, by decide!, rfl, by decide!, by decide!,
    ⟨by norm_num [unclamped], by norm_num [unclamped]⟩, by decide!, rfl, by decide!,
    by decide!, by decide!, by decide!, by decide!⟩⟩

/-- C4 (amended to a target with a single incoming connection, in exact arithmetic): when
no `float` operation rounds, in every network state
whose connections target existing nodes of strictly later layers, for a node `(L, i)`,
its connection `j` whose target lies in layer `L + 1` and is targeted by no other
connection of layer `L`, property `K` or `W`, and a desired signal `d` with non-zero
divisors and unclamped solution in `[0,1]`: `solveDelta` returns a value `v` that makes
the factor `1 - w * attenuation` of the connection equal to `d`, and storing `v` in the
property and re-propagating from layer `L` (`reset(n + 1); flow(n)` for every `n ≥ L`)
leaves the target with signal `d`. -/
theorem solveDelta_inverts_single (st : Network) (L i j : Nat) (nd : Node)
    (lnk : Connection) (prop : ConProperty) (d : ℚ)
    (hf : st.Forward) (hnd : st.getNode ⟨L, i⟩ = some nd) (hlk : nd.links[j]? = some lnk)
    (hprop : prop = ConProperty.K ∨ prop = ConProperty.W)
    (hdiv : DivisorsNonzero nd lnk prop)
    (h0 : 0 ≤ unclamped nd lnk d prop) (h1 : unclamped nd lnk d prop ≤ 1)
    (hnext : lnk.addr.layer = L + 1)
    (huniq : ∀ i' nd' j' lnk', st.getNode ⟨L, i'⟩ = some nd' → nd'.links[j']? = some lnk' →
      lnk'.addr = lnk.addr → i' = i ∧ j' = j) :
    ∃ v st' st'' tn, st.solveDelta ⟨L, i⟩ j d prop = some v ∧
      1 - (lnk.setProp prop v).w * attenuation nd (lnk.setProp prop v) = d ∧
      st.modLink ⟨L, i, j⟩ (fun l => l.setProp prop v) = some st' ∧
      st'.reflow L = some st'' ∧ st''.getNode lnk.addr = some tn ∧ tn.s = d := by
  have hfac := factor_of_unclamped nd lnk d prop hprop hdiv
  have hsd : st.solveDelta ⟨L, i⟩ j d prop = some (unclamped nd lnk d prop) := by
    rw [solveDelta_eq hnd hlk, normalize_of_mem h0 h1]
  have hgl : st.getLink ⟨L, i, j⟩ = some lnk := by simp [Network.getLink, hnd, hlk]
  obtain ⟨st', nd0, hmod, hnd0, _, _, hat, hoth⟩ :=
    modLink_spec (fun l => l.setProp prop (unclamped nd lnk d prop)) hgl
  rw [hnd] at hnd0
  cases hnd0
  obtain ⟨st2, hmod2, hsk⟩ := modLink_skeleton
    (fun l => l.setProp prop (unclamped nd lnk d prop)) hgl (setProp_addr lnk prop _)
  rw [hmod] at hmod2
  cases hmod2
  have hf' : st'.Forward := forward_of_skeleton hsk hf
  have hmem : lnk ∈ nd.links := List.mem_iff_getElem?.mpr ⟨_, hlk⟩
  obtain ⟨tn0, htn0⟩ := Option.isSome_iff_exists.mp
    (((forward_iff_getNode st).mp hf _ nd hnd lnk hmem).2)
  have hne : lnk.addr ≠ (⟨L, i⟩ : NodeAddr) := by
    intro e
    rw [e] at hnext
    simp at hnext
  have htn' : st'.getNode lnk.addr = some tn0 := by rw [hoth _ hne]; exact htn0
  have hlen' : L + 1 < st'.mat.length := by
    have := (getNode_mem htn').1
    omega
  obtain ⟨r1, r2, layer, hr1, hr2, hlayer, htop2, _, hnew⟩ := @reflow_step st' hf' L hlen'
  have hsf : signalFactor layer lnk.addr = d := by
    rw [signalFactor_unique layer lnk.addr i j
      { nd with links := nd.links.set j (lnk.setProp prop (unclamped nd lnk d prop)) }
      (lnk.setProp prop (unclamped nd lnk d prop))
      (by rw [← getNode_of_layer hlayer]; exact hat)
      (by
        have hj : j < nd.links.length := by
          by_contra hc
          rw [List.getElem?_eq_none (by omega)] at hlk
          cases hlk
        simp [List.getElem?_set, hj])
      (setProp_addr lnk prop _)]
    · exact hfac
    · intro i' nd' j' lnk' hn' hl' ha'
      rw [← getNode_of_layer hlayer] at hn'
      by_cases hi : i' = i
      · subst hi
        rw [hat] at hn'
        cases hn'
        refine ⟨rfl, ?_⟩
        by_contra hj
        simp only [List.getElem?_set, if_neg (Ne.symm hj)] at hl'
        exact hj (huniq i' nd j' lnk' hnd hl' ha').2
      · rw [hoth _ (by simp [hi])] at hn'
        exact absurd (huniq i' nd' j' lnk' hn' hl' ha').1 hi
  have htn2 : r2.getNode lnk.addr =
      some { tn0 with s := signalFactor layer lnk.addr, c := condFactor layer lnk.addr } :=
    hnew lnk.addr tn0 hnext htn'
  have hlen2 := length_of_topology htop2
  obtain ⟨st'', hrest, _, hkeep⟩ := reflow_keeps (forward_of_topology htop2 hf') (L + 1)
    (st'.mat.length - 2 - L) lnk.addr _ (by omega) (by omega) htn2
  refine ⟨_, st', st'', _, hsd, hfac, hmod, ?_, hkeep, hsf⟩
  have hcount : st'.mat.length - 1 - L = (st'.mat.length - 2 - L) + 1 := by omega
  unfold Network.reflow
  rw [hcount, List.range'_succ]
  simp only [List.foldlM_cons, hr1, hr2]
  exact hrest

theorem solveDelta_inverts_single_witness :
    ∃ v st' st'' tn, singleLinkNet.solveDelta ⟨0, 0⟩ 0 (3/4) ConProperty.K = some v ∧
      1 - ((⟨1/4, 1/2, 0, ⟨1, 0⟩⟩ : Connection).setProp ConProperty.K v).w *
          attenuation ⟨1/4, 1, [⟨1/4, 1/2, 0, ⟨1, 0⟩⟩]⟩
            ((⟨1/4, 1/2, 0, ⟨1, 0⟩⟩ : Connection).setProp ConProperty.K v) = 3/4 ∧
      singleLinkNet.modLink ⟨0, 0, 0⟩ (fun l => l.setProp ConProperty.K v) = some st' ∧
      st'.reflow 0 = some st'' ∧ st''.getNode ⟨1, 0⟩ = some tn ∧ tn.s = 3/4 :=
  solveDelta_inverts_single singleLinkNet 0 0 0 ⟨1/4, 1, [⟨1/4, 1/2, 0, ⟨1, 0⟩⟩]⟩
    ⟨1/4, 1/2, 0, ⟨1, 0⟩⟩ ConProperty.K (3/4) (by decide) rfl rfl (Or.inl rfl)
    (by norm_num [DivisorsNonzero]) (by norm_num [unclamped]) (by norm_num [unclamped]) rfl
    (by
      intro i' nd' j' lnk' hn hl _
      cases i' with
      | zero =>
        simp only [singleLinkNet, Network.getNode, List.getElem?_cons_zero,
          Option.some.injEq] at hn
        subst hn
        cases j' with
        | zero => exact ⟨rfl, rfl⟩
        | succ j' => simp at hl
      | succ i' => simp [singleLinkNet, Network.getNode] at hn)

/-! ## Closed-form case of `predictSignal` -/

theorem modNode_layer {net : Network} {a : NodeAddr} {nd : Node} {layer : List Node}
    (f : Node → Node) (hl : net.mat[a.layer]? = some layer) (hn : layer[a.node]? = some nd) :
    ∃ net', net.modNode a f = some net' ∧
      net'.mat[a.layer]? = some (layer.set a.node (f nd)) := by
  have hlt : a.layer < net.mat.length := by
    by_contra hc
    rw [List.getElem?_eq_none (by omega)] at hl
    cases hl
  exact ⟨⟨net.mat.set a.layer (layer.set a.node (f nd))⟩, by simp [Network.modNode, hl, hn],
    by simp [List.getElem?_set, hlt]⟩

theorem signalFactor_set (layer : List Node) (t : NodeAddr) (i : Nat) (nd nd' : Node)
    (hnd : layer[i]? = some nd) :
    ∃ A B, signalFactor layer t =
        A * linkProd (fun lnk => 1 - lnk.w * attenuation nd lnk) nd.links t * B ∧
      signalFactor (layer.set i nd') t =
        A * linkProd (fun lnk => 1 - lnk.w * attenuation nd' lnk) nd'.links t * B := by
  have hi : i < layer.length := by
    by_contra hc
    rw [List.getElem?_eq_none (by omega)] at hnd
    cases hnd
  refine ⟨((layer.map (fun n =>
      linkProd (fun lnk => 1 - lnk.w * attenuation n lnk) n.links t)).take i).prod,
    ((layer.map (fun n =>
      linkProd (fun lnk => 1 - lnk.w * attenuation n lnk) n.links t)).drop (i + 1)).prod,
    ?_, ?_⟩
  · have hs : layer.set i nd = layer := set_getElem?_self hnd
    conv_lhs => rw [← hs, signalFactor_eq, List.map_set, List.prod_set]
    simp [hi]
  · rw [signalFactor_eq, List.map_set, List.prod_set]
    simp [hi]

theorem getLast?_eq_layer (net : Network) :
    net.mat.getLast? = net.mat[net.mat.length - 1]? := by
  rw [List.getLast?_eq_getElem?]

theorem predictSignal_closed {st : Network} {a : NodeAddr} {nd out : Node}
    {lnk : Connection} (e : ℚ) (hlayer : a.layer + 2 = st.mat.length)
    (hout : st.mat.getLast? = some [out]) (hnd : st.getNode a = some nd)
    (hlinks : nd.links = [lnk]) :
    st.predictSignal a [e] =
      some (((1 - e / (out.s / (1 - lnk.w * nd.c * (lnk.k + nd.s - 2 * nd.s * lnk.k)))) /
        (lnk.w * nd.c) - lnk.k) / (1 - 2 * lnk.k)) := by
  have h1 : ¬ (a.layer + 1 = st.mat.length) := by omega
  simp [Network.predictSignal, hout, h1, hlayer, hnd, hlinks]

theorem predict_algebra (w c k o e p cur x : ℚ) (hw : w ≠ 0) (hc : c ≠ 0) (hk : k ≠ 1/2)
    (ho : o ≠ 0) (hcur : cur ≠ 0)
    (hx : x = ((1 - e / (o / cur)) / (w * c) - k) / (1 - 2 * k))
    (hp : o = p * cur) :
    p * (1 - w * (c * (k + x - 2 * x * k))) = e := by
  have hk' : 1 - 2 * k ≠ 0 := by
    intro h
    apply hk
    linarith
  have hp0 : p ≠ 0 := by
    intro h
    apply ho
    rw [hp, h]
    ring
  have hnew : 1 - w * (c * (k + x - 2 * x * k)) = e / (o / cur) := by
    rw [hx]
    field_simp
    ring
  rw [hnew, hp]
  field_simp

/-! ## Analytic consensus update -/

theorem normalize_mem (x : ℚ) : 0 ≤ normalize x ∧ normalize x ≤ 1 := by
  unfold normalize
  split
  · assumption
  · split <;> norm_num

theorem predictSignal_some {st : Network} {t : NodeAddr} {out : List ℚ}
    (ht : (st.getNode t).isSome = true)
    (hfit : st.mat.getLast?.map List.length = some out.length)
    (hpred : st.Predictable t) : ∃ sig, st.predictSignal t out = some sig := by
  obtain ⟨tn, htn⟩ := Option.isSome_iff_exists.mp ht
  cases hlast : st.mat.getLast? with
  | none => simp [hlast] at hfit
  | some last =>
    have hlen : last.length = out.length := by simpa [hlast] using hfit
    simp only [Network.predictSignal, hlast, hlen, ne_eq, not_true_eq_false, if_false]
    by_cases h1 : t.layer + 1 = st.mat.length
    · rw [if_pos h1]
      have hl : st.mat[t.layer]? = some last := by
        rw [← hlast, getLast?_eq_layer]
        congr 1
        omega
      have hn : last[t.node]? = some tn := by
        rw [← getNode_of_layer hl]
        exact htn
      have hlt : t.node < out.length := by
        by_contra hc
        rw [List.getElem?_eq_none (by omega)] at hn
        cases hn
      exact ⟨out[t.node], List.getElem?_eq_getElem hlt⟩
    · rw [if_neg h1]
      by_cases h2 : ¬ out.length = 1 ∨ ¬ t.layer + 2 = st.mat.length
      · rw [if_pos h2]
        exact ⟨tn.s, by simp [htn]⟩
      · rw [if_neg h2]
        push_neg at h2
        obtain ⟨ho, hl2⟩ := h2
        have hne := hpred hl2 (by rw [hlast]; simp [hlen, ho]) tn htn
        obtain ⟨lnk, rest, hlk⟩ := List.exists_cons_of_ne_nil hne
        obtain ⟨o, hlo⟩ := List.length_eq_one.mp (hlen.trans ho)
        obtain ⟨e, heo⟩ := List.length_eq_one.mp ho
        simp [htn, hlk, hlo, heo]

theorem predictable_of_topology {net1 net2 : Network} (h : net1.topology = net2.topology)
    {t : NodeAddr} (hp : net2.Predictable t) : net1.Predictable t := by
  intro h1 h2 nd hnd
  obtain ⟨n2, hn2, hlinks⟩ := topology_getNode h.symm hnd
  have hlen := length_of_topology h
  have hl := congrArg List.getLast? (topology_length h)
  simp only [List.getLast?_map] at hl
  rw [← hlinks]
  exact hp (by omega) (by rw [← hl]; exact h2) n2 hn2

theorem getLink_of_topology {net1 net2 : Network} (h : net1.topology = net2.topology)
    (la : LinkAddr) : net1.getLink la = net2.getLink la := by
  unfold Network.getLink
  cases h2 : net2.getNode ⟨la.layer, la.node⟩ with
  | none =>
    cases h1 : net1.getNode ⟨la.layer, la.node⟩ with
    | none => rfl
    | some n1 =>
      obtain ⟨n2, hn2, _⟩ := topology_getNode h.symm h1
      rw [h2] at hn2
      cases hn2
  | some n2 =>
    obtain ⟨n1, hn1, hlinks⟩ := topology_getNode h h2
    simp [hn1, hlinks]

theorem summaryStep_spec {net cur : Network} {la : LinkAddr} {lnk : Connection}
    {smp : tuneSet} (prop : ConProperty) (ps : List ℚ) (hl : net.Linked)
    (hfit : net.Fits smp) (hlnk : net.getLink la = some lnk)
    (hpred : net.Predictable lnk.addr) (hc : cur.topology = net.topology) :
    ∃ p r, Network.summaryStep la lnk.addr prop (ps, cur) smp = some (ps ++ [p], r) ∧
      r.topology = net.topology ∧ net.proposal la lnk.addr prop smp = some p ∧
      0 ≤ p ∧ p ≤ 1 := by
  obtain ⟨r, hr, hrt⟩ := loadRun_some hl hfit.1
  have hcr : cur.loadRun smp.input = some r := by
    rw [loadRun_congr hc (by rw [head_of_topology hc]; exact hfit.1)]
    exact hr
  have hfr : r.Fits smp := fits_of_length (topology_length hrt) hfit
  obtain ⟨nd, hnd, hlk⟩ := getLink_eq hlnk
  have hmem : lnk ∈ nd.links := List.mem_iff_getElem?.mpr ⟨_, hlk⟩
  obtain ⟨sig, hsig⟩ := @predictSignal_some r lnk.addr smp.output
    (topology_isSome hrt (hl _ nd hnd lnk hmem)) hfr.2 (predictable_of_topology hrt hpred)
  obtain ⟨nr, hnr, hlr⟩ := topology_getNode hrt hnd
  have hsd := solveDelta_eq hnr (hlr ▸ hlk) sig prop
  refine ⟨normalize (unclamped nr lnk sig prop), r,
    by simp [Network.summaryStep, hcr, hsig, hsd], hrt,
    by simp [Network.proposal, hr, hsig, hsd], (normalize_mem _).1, (normalize_mem _).2⟩

theorem collectTuningSummary_spec {net : Network} {la : LinkAddr} {lnk : Connection}
    (prop : ConProperty) (tuneData : List tuneSet) (hl : net.Linked)
    (hfit : ∀ smp ∈ tuneData, net.Fits smp) (hlnk : net.getLink la = some lnk)
    (hpred : net.Predictable lnk.addr) :
    ∃ ps net1, net.collectTuningSummary la prop tuneData = some (ps, net1) ∧
      net1.topology = net.topology ∧
      tuneData.map (net.proposal la lnk.addr prop) = ps.map some ∧
      ∀ p ∈ ps, 0 ≤ p ∧ p ≤ 1 := by
  simp only [Network.collectTuningSummary, hlnk]
  have key := foldlM_list_inv (Network.summaryStep la lnk.addr prop)
    (fun pre (acc : List ℚ × Network) => acc.2.topology = net.topology ∧
      pre.map (net.proposal la lnk.addr prop) = acc.1.map some ∧
      ∀ p ∈ acc.1, 0 ≤ p ∧ p ≤ 1)
    tuneData ([], net) ⟨rfl, rfl, by simp⟩
    (by
      rintro pre smp suf ⟨ps, cur⟩ hxs ⟨hc, hmap, hin⟩
      obtain ⟨p, r, hstep, hrt, hprop, h0, h1⟩ :=
        summaryStep_spec prop ps hl (hfit smp (by simp [hxs])) hlnk hpred hc
      refine ⟨(ps ++ [p], r), hstep, hrt, ?_, ?_⟩
      · simp only at hmap
        simp [hmap, hprop]
      · intro q hq
        simp only [List.mem_append, List.mem_singleton] at hq
        rcases hq with hq | hq
        · exact hin q hq
        · subst hq
          exact ⟨h0, h1⟩)
  obtain ⟨⟨ps, net1⟩, h1, h2, h3, h4⟩ := key
  exact ⟨ps, net1, h1, h2, h3, h4⟩

theorem summarize_fold (ps : List ℚ) (a m M : ℚ) :
    (ps.foldl (fun (acc : ℚ × ℚ × ℚ) f =>
        (acc.1 + f, (if f < acc.2.1 then f else acc.2.1),
          (if f > acc.2.2 then f else acc.2.2))) (a, m, M)).1 = a + ps.sum ∧
      (ps.foldl (fun (acc : ℚ × ℚ × ℚ) f =>
        (acc.1 + f, (if f < acc.2.1 then f else acc.2.1),
          (if f > acc.2.2 then f else acc.2.2))) (a, m, M)).2.1 ≤ m ∧
      (∀ x ∈ ps, (ps.foldl (fun (acc : ℚ × ℚ × ℚ) f =>
        (acc.1 + f, (if f < acc.2.1 then f else acc.2.1),
          (if f > acc.2.2 then f else acc.2.2))) (a, m, M)).2.1 ≤ x) ∧
      ((ps.foldl (fun (acc : ℚ × ℚ × ℚ) f =>
        (acc.1 + f, (if f < acc.2.1 then f else acc.2.1),
          (if f > acc.2.2 then f else acc.2.2))) (a, m, M)).2.1 = m ∨
        (ps.foldl (fun (acc : ℚ × ℚ × ℚ) f =>
        (acc.1 + f, (if f < acc.2.1 then f else acc.2.1),
          (if f > acc.2.2 then f else acc.2.2))) (a, m, M)).2.1 ∈ ps) ∧
      M ≤ (ps.foldl (fun (acc : ℚ × ℚ × ℚ) f =>
        (acc.1 + f, (if f < acc.2.1 then f else acc.2.1),
          (if f > acc.2.2 then f else acc.2.2))) (a, m, M)).2.2 ∧
      (∀ x ∈ ps, x ≤ (ps.foldl (fun (acc : ℚ × ℚ × ℚ) f =>
        (acc.1 + f, (if f < acc.2.1 then f else acc.2.1),
          (if f > acc.2.2 then f else acc.2.2))) (a, m, M)).2.2) ∧
      ((ps.foldl (fun (acc : ℚ × ℚ × ℚ) f =>
        (acc.1 + f, (if f < acc.2.1 then f else acc.2.1),
          (if f > acc.2.2 then f else acc.2.2))) (a, m, M)).2.2 = M ∨
        (ps.foldl (fun (acc : ℚ × ℚ × ℚ) f =>
        (acc.1 + f, (if f < acc.2.1 then f else acc.2.1),
          (if f > acc.2.2 then f else acc.2.2))) (a, m, M)).2.2 ∈ ps) := by
  induction ps generalizing a m M with
  | nil => simp
  | cons x xs ih =>
    simp only [List.foldl_cons, List.sum_cons, List.mem_cons, forall_eq_or_imp]
    obtain ⟨h1, h2, h3, h4, h5, h6, h7⟩ :=
      ih (a + x) (if x < m then x else m) (if x > M then x else M)
    have hm1 : (if x < m then x else m) ≤ m := by split <;> linarith
    have hm2 : (if x < m then x else m) ≤ x := by split <;> linarith
    have hM1 : M ≤ (if x > M then x else M) := by split <;> linarith
    have hM2 : x ≤ (if x > M then x else M) := by split <;> linarith
    refine ⟨by rw [h1]; ring, le_trans h2 hm1, ⟨le_trans h2 hm2, h3⟩, ?_, le_trans hM1 h5,
      ⟨le_trans hM2 h5, h6⟩, ?_⟩
    · rcases h4 with h4 | h4
      · rw [h4]
        by_cases hx : x < m
        · simp [hx]
        · simp [hx]
      · exact Or.inr (Or.inr h4)
    · rcases h7 with h7 | h7
      · rw [h7]
        by_cases hx : x > M
        · simp [hx]
        · simp [hx]
      · exact Or.inr (Or.inr h7)

theorem summarize_spec (ps : List ℚ) (hne : ps ≠ []) (hin : ∀ p ∈ ps, 0 ≤ p ∧ p ≤ 1) :
    (summarize ps).1 = ps.sum ∧
      (summarize ps).2.1 ∈ ps ∧ (∀ x ∈ ps, (summarize ps).2.1 ≤ x) ∧
      (summarize ps).2.2 ∈ ps ∧ (∀ x ∈ ps, x ≤ (summarize ps).2.2) := by
  unfold summarize
  obtain ⟨h1, h2, h3, h4, h5, h6, h7⟩ := summarize_fold ps 0 1 0
  obtain ⟨y, hy⟩ := List.exists_mem_of_ne_nil ps hne
  refine ⟨by simpa using h1, ?_, h3, ?_, h6⟩
  · rcases h4 with h4 | h4
    · have hy1 : y = 1 := le_antisymm (hin y hy).2 (h4 ▸ h3 y hy)
      rw [h4, ← hy1]
      exact hy
    · exact h4
  · rcases h7 with h7 | h7
    · have hy0 : y = 0 := le_antisymm (h7 ▸ h6 y hy) (hin y hy).1
      rw [h7, ← hy0]
      exact hy
    · exact h7

theorem getLink_modLink {net net' : Network} {la : LinkAddr} {lnk : Connection}
    (f : Connection → Connection) (hg : net.getLink la = some lnk)
    (hmod : net.modLink la f = some net') :
    net'.getLink la = some (f lnk) ∧ ∀ la', la' ≠ la → net'.getLink la' = net.getLink la' := by
  obtain ⟨net2, nd, hmod2, hnd, hlk, _, hat, hoth⟩ := modLink_spec f hg
  rw [hmod] at hmod2
  cases hmod2
  have hj : la.link < nd.links.length := by
    by_contra hc
    rw [List.getElem?_eq_none (by omega)] at hlk
    cases hlk
  constructor
  · simp [Network.getLink, hat, List.getElem?_set, hj]
  · intro la' hne
    by_cases hb : (⟨la'.layer, la'.node⟩ : NodeAddr) = ⟨la.layer, la.node⟩
    · have hlink : la.link ≠ la'.link := by
        intro e
        apply hne
        obtain ⟨l1, n1, k1⟩ := la'
        obtain ⟨l2, n2, k2⟩ := la
        simp only [NodeAddr.mk.injEq] at hb
        simp only at e
        rw [hb.1, hb.2, e]
      simp only [Network.getLink, hb, hat, hnd, List.getElem?_set, if_neg hlink]
    · simp only [Network.getLink, hoth _ hb]

theorem getNode_isSome_of_length {net1 net2 : Network}
    (h : net1.mat.map List.length = net2.mat.map List.length) (a : NodeAddr) :
    (net1.getNode a).isSome = (net2.getNode a).isSome := by
  have hl := congrArg (fun l => l[a.layer]?) h
  simp only [List.getElem?_map] at hl
  unfold Network.getNode
  cases h1 : net1.mat[a.layer]? with
  | none =>
    cases h2 : net2.mat[a.layer]? with
    | none => rfl
    | some l2 => simp [h1, h2] at hl
  | some l1 =>
    cases h2 : net2.mat[a.layer]? with
    | none => simp [h1, h2] at hl
    | some l2 =>
      have hl' : l1.length = l2.length := by simpa [h1, h2] using hl
      by_cases hn : a.node < l1.length
      · simp [List.getElem?_eq_getElem hn, List.getElem?_eq_getElem (hl' ▸ hn)]
      · have e1 : l1[a.node]? = none := List.getElem?_eq_none (by omega)
        have e2 : l2[a.node]? = none := List.getElem?_eq_none (by omega)
        simp [e1, e2]

theorem network_ext {net1 net2 : Network}
    (hlen : net1.mat.map List.length = net2.mat.map List.length)
    (h : ∀ a nd, net1.getNode a = some nd → net2.getNode a = some nd) : net1 = net2 := by
  have := @view_ext Node id net1 net2 hlen (by
    intro a
    cases h1 : net1.getNode a with
    | none =>
      have hs := getNode_isSome_of_length hlen a
      rw [h1] at hs
      cases h2 : net2.getNode a with
      | none => rfl
      | some x => simp [h2] at hs
    | some nd => rw [h a nd h1])
  obtain ⟨m1⟩ := net1
  obtain ⟨m2⟩ := net2
  simpa using this

theorem Network.Layered.forward {net : Network} (h : net.Layered) : net.Forward := by
  rw [forward_iff_getNode]
  intro a n hn lnk hl
  obtain ⟨h1, h2⟩ := h a n hn lnk hl
  exact ⟨by omega, h2⟩

theorem getD_of_getElem? {net : Network} {l : Nat} {layer : List Node}
    (h : net.mat[l]? = some layer) : net.mat.getD l [] = layer := by
  simp [List.getD_eq_getElem?_getD, h]

theorem layerVal_links {net : Network} {input : List ℚ}
    (hin : net.mat.head?.map List.length = some input.length) (l : Nat) :
    (layerVal net input l).map (fun nd => nd.links) =
      (net.mat.getD l []).map (fun nd => nd.links) := by
  cases l with
  | zero =>
    obtain ⟨mat⟩ := net
    cases mat with
    | nil => simp at hin
    | cons l0 rest =>
      have hlen : l0.length = input.length := by simpa using hin
      simp only [layerVal, List.getD_cons_zero]
      apply List.ext_getElem?
      intro i
      simp only [List.getElem?_map, List.getElem?_zipWith]
      by_cases hi : i < l0.length
      · simp [List.getElem?_eq_getElem hi, List.getElem?_eq_getElem (hlen ▸ hi)]
      · have e1 : l0[i]? = none := List.getElem?_eq_none (by omega)
        have e2 : input[i]? = none := List.getElem?_eq_none (by omega)
        simp [e1, e2]
  | succ l =>
    simp only [layerVal]
    apply List.ext_getElem?
    intro i
    simp only [List.getElem?_map, List.getElem?_mapIdx]
    cases (net.mat.getD (l + 1) [])[i]? <;> rfl

theorem layerVal_length {net : Network} {input : List ℚ}
    (hin : net.mat.head?.map List.length = some input.length) (l : Nat) :
    (layerVal net input l).length = (net.mat.getD l []).length := by
  have := congrArg List.length (layerVal_links hin l)
  simpa using this

theorem stateUpTo_layer (net : Network) (input : List ℚ) (j l : Nat) :
    (stateUpTo net input j).mat[l]? =
      (net.mat[l]?).map (fun layer =>
        if l ≤ j then layerVal net input l else resetNodes layer) := by
  simp [stateUpTo, List.getElem?_mapIdx]

theorem stateUpTo_topology {net : Network} {input : List ℚ}
    (hin : net.mat.head?.map List.length = some input.length) (j : Nat) :
    (stateUpTo net input j).topology = net.topology := by
  unfold Network.topology
  apply List.ext_getElem?
  intro i
  simp only [List.getElem?_map, stateUpTo_layer]
  cases hl : net.mat[i]? with
  | none => rfl
  | some layer =>
    simp only [Option.map_some', Option.some.injEq]
    by_cases hij : i ≤ j
    · rw [if_pos hij, layerVal_links hin i, getD_of_getElem? hl]
    · rw [if_neg hij]
      simp [resetNodes, List.map_map, Function.comp_def]

theorem initState_eq_stateUpTo {net : Network} {input : List ℚ}
    (hin : net.mat.head?.map List.length = some input.length) :
    initState net.topology input = stateUpTo net input 0 := by
  obtain ⟨mat⟩ := net
  cases mat with
  | nil => simp at hin
  | cons l0 rest =>
    simp only [initState, Network.topology, List.map_cons, stateUpTo, List.mapIdx_cons,
      Nat.le_refl, if_true, layerVal, List.getD_cons_zero, Network.mk.injEq, List.cons.injEq]
    constructor
    · rw [List.zipWith_map_right]
    · apply List.ext_getElem?
      intro i
      simp only [List.getElem?_map, List.getElem?_mapIdx]
      cases rest[i]? with
      | none => rfl
      | some layer => simp [resetNodes, List.map_map, Function.comp_def]

theorem layered_of_topology {net1 net2 : Network} (h : net1.topology = net2.topology)
    (hl : net2.Layered) : net1.Layered := by
  intro a n1 hn1 lnk hlnk
  obtain ⟨n2, hn2, hlinks⟩ := topology_getNode h.symm hn1
  obtain ⟨h1, h2⟩ := hl a n2 hn2 lnk (hlinks ▸ hlnk)
  exact ⟨h1, topology_isSome h h2⟩

theorem stateUpTo_getNode_ne (net : Network) (input : List ℚ) (j : Nat) (a : NodeAddr)
    (ha : a.layer ≠ j + 1) :
    (stateUpTo net input (j + 1)).getNode a = (stateUpTo net input j).getNode a := by
  have h1 : (a.layer ≤ j + 1) = (a.layer ≤ j) := by
    apply propext
    constructor <;> intro h <;> omega
  simp only [Network.getNode, stateUpTo_layer, h1]

theorem flow_stateUpTo {net : Network} {input : List ℚ} (hlay : net.Layered)
    (hin : net.mat.head?.map List.length = some input.length) {j : Nat}
    (hj : j + 1 < net.mat.length) :
    (stateUpTo net input j).flow j = some (stateUpTo net input (j + 1)) := by
  have htop := stateUpTo_topology hin j
  have hcl : (stateUpTo net input j).Layered := layered_of_topology htop hlay
  have hlj : (stateUpTo net input j).mat[j]? = some (layerVal net input j) := by
    rw [stateUpTo_layer, List.getElem?_eq_getElem (by omega)]
    simp
  obtain ⟨net2, hflow, htop2, hpt, _⟩ := flow_forward_spec hcl.forward hlj
  rw [hflow]
  congr 1
  apply network_ext
    (topology_length (htop2.trans (htop.trans (stateUpTo_topology hin (j + 1)).symm)))
  intro a nd2 h2
  obtain ⟨ndc, hndc, _⟩ := topology_getNode htop2.symm h2
  rw [hpt a ndc hndc] at h2
  cases h2
  by_cases ha : a.layer = j + 1
  · obtain ⟨al, an⟩ := a
    simp only at ha
    subst ha
    have hl1 : net.mat[j + 1]? = some net.mat[j + 1] := List.getElem?_eq_getElem hj
    simp only [Network.getNode, stateUpTo_layer, hl1, Option.map_some',
      show ¬ (j + 1 ≤ j) by omega, if_false, resetNodes, List.getElem?_map] at hndc
    simp only [Network.getNode, stateUpTo_layer, hl1, Option.map_some', Nat.le_refl, if_true,
      layerVal, getD_of_getElem? hl1, List.getElem?_mapIdx]
    cases hn : (net.mat[j + 1])[an]? with
    | none => simp [hn] at hndc
    | some nd' =>
      simp only [hn, Option.map_some', Option.some.injEq] at hndc
      subst hndc
      simp
  · rw [stateUpTo_getNode_ne net input j a ha, hndc]
    have hne : ∀ n ∈ layerVal net input j, ∀ lnk ∈ n.links, lnk.addr ≠ a := by
      intro n hn lnk hl e
      obtain ⟨i, hi⟩ := List.mem_iff_getElem?.mp hn
      have hg : (stateUpTo net input j).getNode ⟨j, i⟩ = some n := by
        rw [getNode_of_layer hlj]
        exact hi
      have := (hcl _ n hg lnk hl).1
      rw [e] at this
      exact ha this
    rw [signalFactor_eq_one _ _ hne, condFactor_eq_one _ _ hne]
    simp

theorem flowUpTo_stateUpTo {net : Network} {input : List ℚ} (hlay : net.Layered)
    (hin : net.mat.head?.map List.length = some input.length) (j : Nat)
    (hj : j < net.mat.length) :
    (stateUpTo net input 0).flowUpTo j = some (stateUpTo net input j) := by
  induction j with
  | zero => rfl
  | succ j ih =>
    rw [flowUpTo_succ, ih (by omega)]
    exact flow_stateUpTo hlay hin hj

theorem loadRun_layered {net : Network} {input : List ℚ} (hlay : net.Layered)
    (hin : net.mat.head?.map List.length = some input.length) :
    net.loadRun input = some (stateUpTo net input (net.mat.length - 1)) := by
  have hne : 0 < net.mat.length := by
    obtain ⟨mat⟩ := net
    cases mat with
    | nil => simp at hin
    | cons l0 rest => simp
  rw [loadRun_eq hin, initState_eq_stateUpTo hin]
  unfold Network.flowAll
  have hlen : (stateUpTo net input 0).mat.length = net.mat.length := by
    simp [stateUpTo]
  rw [hlen]
  exact flowUpTo_stateUpTo hlay hin _ (by omega)

theorem output_stateUpTo {net : Network} {input : List ℚ} (hne : 0 < net.mat.length) :
    (stateUpTo net input (net.mat.length - 1)).output =
      some ((layerVal net input (net.mat.length - 1)).map (fun nd => nd.s)) := by
  have hlen : (stateUpTo net input (net.mat.length - 1)).mat.length = net.mat.length := by
    simp [stateUpTo]
  unfold Network.output
  rw [getLast?_eq_layer, hlen, stateUpTo_layer,
    List.getElem?_eq_getElem (by omega : net.mat.length - 1 < net.mat.length)]
  simp

/-! ## Exact inversion by `predictSignal` -/

/-- C5 as stated fails in single precision. In `twoSourceNet32` the last layer is a single
node and node `(0,0)` of the second-to-last layer has exactly one connection, to that
node, with `w = 0.2f` and `k = 0`. After `loadInput([1,1]); run()` the conductivity of
the node is `1`, the output is `0.4f` and no divisor of `predictSignal` is zero. For the
expected output `e = 0.2f`, `predictSignal((0,0), [e])` returns `3`; with the signal of
the node replaced by `3`, re-propagating the second-to-last layer gives the output
`0.2f - 2^-26`, not `e`. -/
theorem predictSignal_rounding_misses :
    ∃ st st1 st',
      twoSourceNet32.loadRun32 [1, 1] = some st ∧
      st = ⟨[[⟨1, 1, [⟨0, 13421773/67108864, 0, ⟨1, 0⟩⟩]⟩, ⟨1, 1, [⟨0, 1/2, 0, ⟨1, 0⟩⟩]⟩],
        [⟨13421773/33554432, 1, []⟩]]⟩ ∧
      round32 (1/5) = 13421773/67108864 ∧
      0 ∉ st.predictDivisors ⟨0, 0⟩ [13421773/67108864] ∧
      st.predictSignal32 ⟨0, 0⟩ [13421773/67108864] = some 3 ∧
      st.modNode ⟨0, 0⟩ (fun n => { n with s := 3 }) = some st1 ∧
      st1.reflow32 0 = some st' ∧
      st'.output = some [13421773/67108864 - pow2 (-26)] ∧
      st'.output ≠ some [13421773/67108864] :=
  ⟨⟨[[⟨1, 1, [⟨0, 13421773/67108864, 0, ⟨1, 0⟩⟩]⟩, ⟨1, 1, [⟨0, 1/2, 0, ⟨1, 0⟩⟩]⟩],
      [⟨13421773/33554432, 1, []⟩]]⟩,
    ⟨[[⟨3, 1, [⟨0, 13421773/67108864, 0, ⟨1, 0⟩⟩]⟩, ⟨1, 1, [⟨0, 1/2, 0, ⟨1, 0⟩⟩]⟩],
      [⟨13421773/33554432, 1, []⟩]]⟩,
    ⟨[[⟨3, 1, [⟨0, 13421773/67108864, 0, ⟨1, 0⟩⟩]⟩, ⟨1, 1, [⟨0, 1/2, 0, ⟨1, 0⟩⟩]⟩],
      [⟨3355443/16777216, 1, []⟩]]⟩,
    by decide!, rfl, by decide!, by decide!, by decide!, by decide!, by decide!, by decide!,
    by decide!⟩

/-- C5 (amended: in exact arithmetic). `predictSignal` is an exact inverse in its
closed-form case when no `float` operation rounds. Let `st` be the
state after `loadInput(input); run()` of a network whose connections target existing
nodes of strictly later layers and whose last layer is the single node `out`; let `a`
be a node of the second-to-last layer whose only connection `lnk` targets the output
node, with `lnk.w ≠ 0`, conductivity `≠ 0`, `lnk.k ≠ 1/2`, current output `≠ 0` and
current factor of the connection `≠ 0`. Then the run passes through the state `P` in
which the second-to-last layer is propagated (`P.flow = st`), `predictSignal(a, [e])`
returns a value `x`, and replacing the signal of `a` by `x` in `P` and propagating the
second-to-last layer again gives the output `[e]`. When every connection targets the
next layer, the same final state is reached from `st` itself by replacing the signal
of `a` and re-propagating from the second-to-last layer (`reset` of the last layer,
then `flow`). -/
theorem predictSignal_inverts (net st : Network) (input : List ℚ) (a : NodeAddr)
    (nd out : Node) (lnk : Connection) (e : ℚ)
    (hf : net.Forward) (hin : net.mat.head?.map List.length = some input.length)
    (hrun : net.loadRun input = some st) (hlayer : a.layer + 2 = net.mat.length)
    (hout : st.mat.getLast? = some [out]) (hnd : st.getNode a = some nd)
    (hlinks : nd.links = [lnk]) (htarget : lnk.addr = ⟨a.layer + 1, 0⟩)
    (hw : lnk.w ≠ 0) (hc : nd.c ≠ 0) (hk : lnk.k ≠ 1/2) (ho : out.s ≠ 0)
    (hcur : 1 - lnk.w * nd.c * (lnk.k + nd.s - 2 * nd.s * lnk.k) ≠ 0) :
    ∃ loaded r P x P' st', net.loadInput input = some loaded ∧ loaded.reset = some r ∧
      r.flowUpTo a.layer = some P ∧ P.flow a.layer = some st ∧
      st.predictSignal a [e] = some x ∧
      P.modNode a (fun n => { n with s := x }) = some P' ∧
      P'.flow a.layer = some st' ∧ st'.output = some [e] ∧
      (net.Layered → ∃ st1, st.modNode a (fun n => { n with s := x }) = some st1 ∧
        st1.reflow a.layer = some st') := by
  obtain ⟨loaded, hload, hreset⟩ := loadInput_reset hin
  have hrt : (initState net.topology input).topology = net.topology :=
    initState_topology _ _ (by rw [head_topology]; exact hin)
  have hrlen := length_of_topology hrt
  have hfr : (initState net.topology input).Forward := forward_of_topology hrt hf
  have hall : (initState net.topology input).flowAll = some st := by
    rw [← loadRun_eq hin]
    exact hrun
  obtain ⟨P, hP, hPt⟩ := flowUpTo_topology hfr.linked a.layer (by omega)
  have hPf : P.Forward := forward_of_topology hPt hfr
  have hPlen := length_of_topology hPt
  have hPst : P.flow a.layer = some st := by
    have := hall
    unfold Network.flowAll at this
    rw [show (initState net.topology input).mat.length - 1 = a.layer + 1 by omega,
      flowUpTo_succ, hP] at this
    exact this
  have hPl : P.mat[a.layer]? = some P.mat[a.layer] := List.getElem?_eq_getElem (by omega)
  obtain ⟨st2, hst2, hst2t, hpt, hle⟩ := flow_forward_spec hPf hPl
  rw [hPst] at hst2
  cases hst2
  have hstlen := length_of_topology hst2t
  -- the node `a` is the same in `P` and in `st`
  obtain ⟨ndP, hndP, _⟩ := topology_getNode hst2t.symm hnd
  have hndP' := hle a ndP (le_refl _) hndP
  rw [hnd] at hndP'
  cases hndP'
  -- the output node
  have hlast : st.mat[a.layer + 1]? = some [out] := by
    rw [← hout, getLast?_eq_layer]
    congr 1
    omega
  have hto : st.getNode ⟨a.layer + 1, 0⟩ = some out := by
    simp [Network.getNode, hlast]
  obtain ⟨outP, houtP, _⟩ := topology_getNode hst2t.symm hto
  have hrel := hpt _ outP houtP
  rw [hto] at hrel
  have hos : out.s = outP.s * signalFactor P.mat[a.layer] ⟨a.layer + 1, 0⟩ := by
    have := congrArg (fun o => o.map (fun n => n.s)) hrel
    simpa using this
  -- the prediction
  have hx := predictSignal_closed e (by omega) hout hnd hlinks
  -- the intervention
  have hPa : P.mat[a.layer][a.node]? = some nd := by
    rw [← getNode_of_layer hPl]
    exact hndP
  obtain ⟨P', hP', hP'l⟩ := modNode_layer (fun n => { n with s :=
    ((1 - e / (out.s / (1 - lnk.w * nd.c * (lnk.k + nd.s - 2 * nd.s * lnk.k)))) /
      (lnk.w * nd.c) - lnk.k) / (1 - 2 * lnk.k) }) hPl hPa
  obtain ⟨P2, hP2, hP2t⟩ := @modNode_topology P a (fun n => { n with s :=
    ((1 - e / (out.s / (1 - lnk.w * nd.c * (lnk.k + nd.s - 2 * nd.s * lnk.k)))) /
      (lnk.w * nd.c) - lnk.k) / (1 - 2 * lnk.k) }) (fun _ => rfl) (by simp [hndP])
  rw [hP'] at hP2
  cases hP2
  obtain ⟨P3, hP3, hlenP', hatP, hoth⟩ := modNode_of_getNode (fun n => { n with s :=
    ((1 - e / (out.s / (1 - lnk.w * nd.c * (lnk.k + nd.s - 2 * nd.s * lnk.k)))) /
      (lnk.w * nd.c) - lnk.k) / (1 - 2 * lnk.k) }) hndP
  rw [hP'] at hP3
  cases hP3
  have hP'f : P'.Forward := forward_of_topology hP2t hPf
  obtain ⟨st', hst', hst't, hpt', _⟩ := flow_forward_spec hP'f hP'l
  have hta : (⟨a.layer + 1, 0⟩ : NodeAddr) ≠ a := by
    intro h
    have := congrArg NodeAddr.layer h
    simp at this
  have houtP' : P'.getNode ⟨a.layer + 1, 0⟩ = some outP := by
    rw [hoth _ hta]
    exact houtP
  have hrel' := hpt' _ outP houtP'
  -- the two products differ in the factor of `a` only
  obtain ⟨A, B, hA, hB⟩ := signalFactor_set P.mat[a.layer] ⟨a.layer + 1, 0⟩ a.node nd
    { nd with s := ((1 - e / (out.s /
      (1 - lnk.w * nd.c * (lnk.k + nd.s - 2 * nd.s * lnk.k)))) /
      (lnk.w * nd.c) - lnk.k) / (1 - 2 * lnk.k) } hPa
  simp only [linkProd, hlinks, htarget, List.filter_cons, decide_True, if_true,
    List.filter_nil, List.map_cons, List.map_nil, List.prod_cons, List.prod_nil, mul_one,
    attenuation] at hA hB
  have halg := predict_algebra lnk.w nd.c lnk.k out.s e (outP.s * A * B)
    (1 - lnk.w * nd.c * (lnk.k + nd.s - 2 * nd.s * lnk.k)) _ hw hc hk ho hcur rfl
    (by rw [hos, hA]; ring)
  have hs' : outP.s * signalFactor (P.mat[a.layer].set a.node
      { nd with s := ((1 - e / (out.s /
        (1 - lnk.w * nd.c * (lnk.k + nd.s - 2 * nd.s * lnk.k)))) /
        (lnk.w * nd.c) - lnk.k) / (1 - 2 * lnk.k) }) ⟨a.layer + 1, 0⟩ = e := by
    simp only [hlinks]
    rw [hB]
    linear_combination halg
  rw [hs'] at hrel'
  -- the last layer of the result is that single node
  have htop' : st'.topology = st.topology := (hst't.trans hP2t).trans hst2t.symm
  have hlen' := length_of_topology htop'
  have hsh := congrArg (fun l => l[a.layer + 1]?) (topology_length htop')
  simp only [List.getElem?_map, hlast, Option.map_some', List.length_singleton] at hsh
  have hlast' : st'.mat.getLast? = st'.mat[a.layer + 1]? := by
    rw [getLast?_eq_layer]
    congr 1
    omega
  have hlayered : net.Layered → ∃ st1, st.modNode a (fun n => { n with s :=
      ((1 - e / (out.s / (1 - lnk.w * nd.c * (lnk.k + nd.s - 2 * nd.s * lnk.k)))) /
        (lnk.w * nd.c) - lnk.k) / (1 - 2 * lnk.k) }) = some st1 ∧
      st1.reflow a.layer = some st' := by
    intro hlay
    have hPeq : P = stateUpTo net input a.layer := by
      have h0 := flowUpTo_stateUpTo hlay hin a.layer (by omega)
      rw [← initState_eq_stateUpTo hin, hP] at h0
      exact Option.some.inj h0
    obtain ⟨st1, hst1, hlen1, hat1, hoth1⟩ := modNode_of_getNode (fun n => { n with s :=
      ((1 - e / (out.s / (1 - lnk.w * nd.c * (lnk.k + nd.s - 2 * nd.s * lnk.k)))) /
        (lnk.w * nd.c) - lnk.k) / (1 - 2 * lnk.k) }) hnd
    obtain ⟨st1b, hst1b, htop1⟩ := @modNode_topology st a (fun n => { n with s :=
      ((1 - e / (out.s / (1 - lnk.w * nd.c * (lnk.k + nd.s - 2 * nd.s * lnk.k)))) /
        (lnk.w * nd.c) - lnk.k) / (1 - 2 * lnk.k) }) (fun _ => rfl) (by simp [hnd])
    rw [hst1] at hst1b
    cases hst1b
    have hst1len := length_of_topology htop1
    obtain ⟨r1, hr1, hr1t, hsame, hreset1⟩ :=
      @resetLayer_spec st1 (a.layer + 1) (by omega)
    have hnetP : P.topology = net.topology := hPt.trans hrt
    have hr1P : r1 = P' := by
      apply network_ext
      · rw [topology_length hr1t, hlen1, topology_length hst2t, hlenP']
      · intro b nd1 hb
        by_cases hbl : b.layer = a.layer + 1
        · obtain ⟨ndst, hndst, _⟩ := topology_getNode hr1t.symm hb
          rw [hreset1 b ndst hbl hndst] at hb
          cases hb
          have hba : b ≠ a := by
            intro h
            rw [h] at hbl
            omega
          obtain ⟨n0, hn0, hl0⟩ := topology_getNode ((htop1.trans hst2t).trans hnetP).symm hndst
          rw [hoth b hba, hPeq]
          obtain ⟨bl, bn⟩ := b
          simp only at hbl
          subst hbl
          have hgt : ¬ (a.layer + 1 ≤ a.layer) := by omega
          simp only [Network.getNode, stateUpTo_layer, hgt, if_false]
          simp only [Network.getNode] at hn0
          cases hm : net.mat[a.layer + 1]? with
          | none => simp [hm] at hn0
          | some layer =>
            simp only [hm] at hn0
            simp [resetNodes, List.getElem?_map, hn0, hl0]
        · have hr1b : r1.getNode b = st1.getNode b := by
            obtain ⟨bl, bn⟩ := b
            exact getNode_of_layer_eq (hsame bl hbl) bn
          rw [hr1b] at hb
          by_cases hba : b = a
          · subst hba
            rw [hat1] at hb
            rw [hatP]
            exact hb
          · rw [hoth1 b hba] at hb
            rw [hoth b hba]
            obtain ⟨ndP, hndPb, _⟩ := topology_getNode hst2t.symm hb
            have hbl' : b.layer ≤ a.layer := by
              have := (getNode_mem hb).1
              omega
            have := hle b ndP hbl' hndPb
            rw [hb] at this
            cases this
            exact hndPb
    refine ⟨st1, hst1, ?_⟩
    unfold Network.reflow
    have hcount : st1.mat.length - 1 - a.layer = 1 := by omega
    rw [hcount]
    simp only [List.range', List.foldlM_cons, hr1, List.foldlM_nil]
    rw [hr1P, hst']
    rfl
  refine ⟨loaded, _, P, _, P', st', hload, hreset, hP, hPst, hx, hP', hst', ?_, hlayered⟩
  cases hL : st'.mat[a.layer + 1]? with
  | none => simp [hL] at hsh
  | some L' =>
    have hL1 : L'.length = 1 := by simpa [hL] using hsh
    have h0 : L'[0]? = st'.getNode ⟨a.layer + 1, 0⟩ := by simp [Network.getNode, hL]
    rw [hrel'] at h0
    match L', hL1, h0 with
    | [n'], _, h0 =>
      simp only [List.getElem?_cons_zero, Option.some.injEq] at h0
      simp [Network.output, hlast', hL, h0]

theorem predictSignal_inverts_witness :
    ∃ loaded r P x P' st', twoSourceNet.loadInput [1, 1] = some loaded ∧
      loaded.reset = some r ∧ r.flowUpTo 0 = some P ∧
      P.flow 0 = some ⟨[[⟨1, 1, [⟨0, 1/5, 0, ⟨1, 0⟩⟩]⟩, ⟨1, 1, [⟨0, 1/2, 0, ⟨1, 0⟩⟩]⟩],
        [⟨2/5, 1, []⟩]]⟩ ∧
      (⟨[[⟨1, 1, [⟨0, 1/5, 0, ⟨1, 0⟩⟩]⟩, ⟨1, 1, [⟨0, 1/2, 0, ⟨1, 0⟩⟩]⟩],
        [⟨2/5, 1, []⟩]]⟩ : Network).predictSignal ⟨0, 0⟩ [1/5] = some x ∧
      P.modNode ⟨0, 0⟩ (fun n => { n with s := x }) = some P' ∧
      P'.flow 0 = some st' ∧ st'.output = some [1/5] ∧
      (twoSourceNet.Layered →
        ∃ st1, (⟨[[⟨1, 1, [⟨0, 1/5, 0, ⟨1, 0⟩⟩]⟩, ⟨1, 1, [⟨0, 1/2, 0, ⟨1, 0⟩⟩]⟩],
          [⟨2/5, 1, []⟩]]⟩ : Network).modNode ⟨0, 0⟩ (fun n => { n with s := x }) =
            some st1 ∧ st1.reflow 0 = some st') :=
  predictSignal_inverts twoSourceNet
    ⟨[[⟨1, 1, [⟨0, 1/5, 0, ⟨1, 0⟩⟩]⟩, ⟨1, 1, [⟨0, 1/2, 0, ⟨1, 0⟩⟩]⟩], [⟨2/5, 1, []⟩]]⟩
    [1, 1] ⟨0, 0⟩ ⟨1, 1, [⟨0, 1/5, 0, ⟨1, 0⟩⟩]⟩ ⟨2/5, 1, []⟩ ⟨0, 1/5, 0, ⟨1, 0⟩⟩ (1/5)
    (by decide) rfl (by decide!) rfl rfl rfl rfl rfl (by norm_num) (by norm_num)
    (by norm_num) (by norm_num) (by norm_num)

/-! ## Inserting a layer of matching size -/

theorem insertLayer_same_size {net : Network} {p : Nat} {old : List Node}
    (hp : net.mat[p]? = some old) (k w c : ℚ) :
    net.insertLayer p old.length k w c = some (insertSame net p old k w c) := by
  have hb : (net.mat.take p).mapIdx (fun i l =>
      if i + 1 = p then
        l.map (fun nd =>
          ({ nd with links := nd.links ++ extraLinks p old.length old.length k w c } : Node))
      else l) = net.mat.take p := by
    apply List.ext_getElem?
    intro i
    rw [List.getElem?_mapIdx]
    cases (net.mat.take p)[i]? with
    | none => rfl
    | some l =>
      simp only [Option.map_some', Option.some.injEq]
      split
      · simp [extraLinks]
      · rfl
  simp only [Network.insertLayer, hp, lt_irrefl, if_false, hb, insertSame]

theorem insertSame_layer {net : Network} {p : Nat} {old : List Node}
    (hp : net.mat[p]? = some old) (k w c : ℚ) (l : Nat) :
    (insertSame net p old k w c).mat[l]? =
      if l < p then net.mat[l]?
      else if l = p then some ((List.range old.length).map (insertedNode p old.length k w c))
      else (net.mat[l - 1]?).map (fun layer => layer.map shiftLinks) := by
  have hlt : p < net.mat.length := by
    by_contra hc
    rw [List.getElem?_eq_none (by omega)] at hp
    cases hp
  have htl : (net.mat.take p).length = p := by
    rw [List.length_take]
    omega
  simp only [insertSame, List.getElem?_append, htl]
  by_cases h1 : l < p
  · simp [h1, List.getElem?_take]
  · simp only [h1, if_false]
    by_cases h2 : l = p
    · subst h2
      simp
    · simp only [h2, if_false]
      obtain ⟨i, rfl⟩ : ∃ i, l = p + (i + 1) := ⟨l - p - 1, by omega⟩
      have e1 : p + (i + 1) - p = i + 1 := by omega
      have e2 : p + (i + 1) - 1 = p + i := by omega
      rw [e1, e2, List.getElem?_cons_succ, List.getElem?_map, List.getElem?_drop]

theorem insertSame_length {net : Network} {p : Nat} {old : List Node}
    (hp : net.mat[p]? = some old) (k w c : ℚ) :
    (insertSame net p old k w c).mat.length = net.mat.length + 1 := by
  have hlt : p < net.mat.length := by
    by_contra hc
    rw [List.getElem?_eq_none (by omega)] at hp
    cases hp
  simp only [insertSame, List.length_append, List.length_take, List.length_cons,
    List.length_map, List.length_drop]
  omega

theorem insertSame_getNode {net : Network} {p : Nat} {old : List Node}
    (hp : net.mat[p]? = some old) (k w c : ℚ) (l j : Nat) :
    (insertSame net p old k w c).getNode ⟨l, j⟩ =
      if l < p then net.getNode ⟨l, j⟩
      else if l = p then
        (if j < old.length then some (insertedNode p old.length k w c j) else none)
      else (net.getNode ⟨l - 1, j⟩).map shiftLinks := by
  simp only [Network.getNode, insertSame_layer hp]
  by_cases h1 : l < p
  · simp [h1]
  · simp only [h1, if_false]
    by_cases h2 : l = p
    · simp only [h2, if_true]
      by_cases hj : j < old.length
      · simp [hj, List.getElem?_map, List.getElem?_range hj]
      · have : ((List.range old.length).map (insertedNode p old.length k w c))[j]? = none :=
          List.getElem?_eq_none (by simp; omega)
        simp [hj, this]
    · simp only [h2, if_false]
      cases net.mat[l - 1]? with
      | none => rfl
      | some layer => simp [List.getElem?_map]

theorem insertSame_layered {net : Network} {p : Nat} {old : List Node}
    (hp : net.mat[p]? = some old) (k w c : ℚ) (hlay : net.Layered) :
    (insertSame net p old k w c).Layered := by
  have hold : ∀ j, (net.getNode ⟨p, j⟩).isSome = true → j < old.length := by
    intro j hj
    rw [getNode_of_layer hp] at hj
    by_contra hc
    rw [List.getElem?_eq_none (by omega)] at hj
    simp at hj
  rintro ⟨l, j⟩ n hn lnk hl
  rw [insertSame_getNode hp] at hn
  by_cases h1 : l < p
  · simp only [h1, if_true] at hn
    obtain ⟨ha, hs⟩ := hlay _ n hn lnk hl
    refine ⟨ha, ?_⟩
    simp only at ha
    have hs' : (net.getNode ⟨l + 1, lnk.addr.node⟩).isSome = true := by
      rw [← ha]
      exact hs
    show ((insertSame net p old k w c).getNode ⟨lnk.addr.layer, lnk.addr.node⟩).isSome = true
    rw [insertSame_getNode hp, ha]
    by_cases h3 : l + 1 < p
    · simpa [h3] using hs'
    · have h4 : l + 1 = p := by omega
      subst h4
      simp [hold _ hs']
  · simp only [h1, if_false] at hn
    by_cases h2 : l = p
    · subst h2
      simp only [if_true] at hn
      by_cases hj : j < old.length
      · simp only [hj, if_true, Option.some.injEq] at hn
        subst hn
        simp only [insertedNode, List.mem_map, List.mem_range] at hl
        obtain ⟨i, hi, rfl⟩ := hl
        refine ⟨rfl, ?_⟩
        rw [insertSame_getNode hp]
        have hn0 : (net.getNode ⟨l, i⟩).isSome = true := by
          rw [getNode_of_layer hp, List.getElem?_eq_getElem hi]
          rfl
        simpa using hn0
      · simp [hj] at hn
    · simp only [h2, if_false] at hn
      cases hn0 : net.getNode ⟨l - 1, j⟩ with
      | none => simp [hn0] at hn
      | some n0 =>
        simp only [hn0, Option.map_some', Option.some.injEq] at hn
        subst hn
        simp only [shiftLinks, List.mem_map] at hl
        obtain ⟨lnk0, hl0, rfl⟩ := hl
        obtain ⟨ha, hs⟩ := hlay _ n0 hn0 lnk0 hl0
        simp only at ha
        refine ⟨by simp only; omega, ?_⟩
        rw [insertSame_getNode hp]
        have h5 : ¬ (lnk0.addr.layer + 1 < p) := by omega
        have h6 : ¬ (lnk0.addr.layer + 1 = p) := by omega
        simp only [h5, h6, if_false, Nat.add_sub_cancel]
        have hs' : (net.getNode ⟨lnk0.addr.layer, lnk0.addr.node⟩).isSome = true := hs
        simpa using hs'

theorem insertSame_getD {net : Network} {p : Nat} {old : List Node}
    (hp : net.mat[p]? = some old) (k w c : ℚ) (l : Nat) :
    (insertSame net p old k w c).mat.getD l [] =
      if l < p then net.mat.getD l []
      else if l = p then (List.range old.length).map (insertedNode p old.length k w c)
      else (net.mat.getD (l - 1) []).map shiftLinks := by
  simp only [List.getD_eq_getElem?_getD, insertSame_layer hp]
  by_cases h1 : l < p
  · simp [h1]
  · by_cases h2 : l = p
    · simp [h2]
    · simp only [h1, h2, if_false]
      cases net.mat[l - 1]? <;> simp

theorem layerVal_insert_before {net : Network} {p : Nat} {old : List Node}
    (hp : net.mat[p]? = some old) (k w c : ℚ) (input : List ℚ) (l : Nat) (hl : l < p) :
    layerVal (insertSame net p old k w c) input l = layerVal net input l := by
  induction l with
  | zero => simp only [layerVal, insertSame_getD hp, hl, if_true]
  | succ l ih =>
    simp only [layerVal, insertSame_getD hp, hl, if_true, ih (by omega)]

theorem layerVal_insert_at {net : Network} {p : Nat} {old : List Node}
    (hp : net.mat[p]? = some old) (k w c : ℚ) {input : List ℚ}
    (hin : net.mat.head?.map List.length = some input.length) :
    layerVal (insertSame net p old k w c) input p =
      (layerVal net input p).mapIdx (fun n nd =>
        (⟨nd.s, nd.c, (insertedNode p old.length k w c n).links⟩ : Node)) := by
  have hold : net.mat.getD p [] = old := getD_of_getElem? hp
  cases p with
  | zero =>
    have hlen : old.length = input.length := by
      obtain ⟨mat⟩ := net
      cases mat with
      | nil => simp at hp
      | cons l0 rest =>
        simp only [List.getElem?_cons_zero, Option.some.injEq] at hp
        subst hp
        simpa using hin
    simp only [layerVal, insertSame_getD hp, lt_irrefl, if_false, if_true, hold]
    apply List.ext_getElem?
    intro i
    simp only [List.getElem?_zipWith, List.getElem?_mapIdx, List.getElem?_map]
    by_cases hi : i < old.length
    · simp [List.getElem?_eq_getElem hi, List.getElem?_eq_getElem (hlen ▸ hi),
        List.getElem?_range hi]
    · have e1 : old[i]? = none := List.getElem?_eq_none (by omega)
      have e2 : input[i]? = none := List.getElem?_eq_none (by omega)
      simp [e1, e2]
  | succ q =>
    simp only [layerVal, insertSame_getD hp, lt_irrefl, if_false, if_true, hold,
      layerVal_insert_before hp k w c input q (by omega)]
    apply List.ext_getElem?
    intro i
    simp only [List.getElem?_mapIdx, List.getElem?_map]
    by_cases hi : i < old.length
    · simp [List.getElem?_eq_getElem hi, List.getElem?_range hi]
    · have e1 : old[i]? = none := List.getElem?_eq_none (by omega)
      have e2 : (List.range old.length)[i]? = none :=
        List.getElem?_eq_none (by simp; omega)
      simp [e1, e2]

theorem linkProd_range (g : Connection → ℚ) (mk : Nat → Connection) (N L t : Nat)
    (ht : t < N) (hmk : ∀ i, (mk i).addr = ⟨L, i⟩) :
    linkProd g ((List.range N).map mk) ⟨L, t⟩ = g (mk t) := by
  rw [linkProd_eq_map, prod_map_unique _ _ t (mk t)
    (by simp [List.getElem?_map, List.getElem?_range ht])]
  · simp [hmk]
  · intro i y hi hy
    have hiN : i < N := by
      by_contra hc
      have : ((List.range N).map mk)[i]? = none := List.getElem?_eq_none (by simp; omega)
      rw [this] at hy
      cases hy
    simp only [List.getElem?_map, List.getElem?_range hiN, Option.map_some',
      Option.some.injEq] at hy
    subst hy
    have : (mk i).addr ≠ ⟨L, t⟩ := by
      rw [hmk]
      intro e
      apply hi
      simpa using e
    simp [this]

theorem signalFactor_shift (A : List Node) (L t : Nat) :
    signalFactor (A.map shiftLinks) ⟨L + 1, t⟩ = signalFactor A ⟨L, t⟩ := by
  rw [signalFactor_eq, signalFactor_eq, List.map_map]
  congr 1
  apply List.map_congr_left
  intro n _
  simp only [Function.comp, linkProd_eq_map, shiftLinks, List.map_map]
  congr 1
  apply List.map_congr_left
  intro lnk _
  obtain ⟨k, w, c, ⟨al, an⟩⟩ := lnk
  simp [attenuation]

theorem condFactor_shift (A : List Node) (L t : Nat) :
    condFactor (A.map shiftLinks) ⟨L + 1, t⟩ = condFactor A ⟨L, t⟩ := by
  rw [condFactor_eq, condFactor_eq, List.map_map]
  congr 1
  apply List.map_congr_left
  intro n _
  simp only [Function.comp, linkProd_eq_map, shiftLinks, List.map_map]
  congr 1
  apply List.map_congr_left
  intro lnk _
  obtain ⟨k, w, c, ⟨al, an⟩⟩ := lnk
  simp [attenuation]

theorem layerVal_node_links {net : Network} {input : List ℚ}
    (hin : net.mat.head?.map List.length = some input.length) {l i : Nat} {nd : Node}
    (h : (layerVal net input l)[i]? = some nd) :
    ∃ n0, (net.mat.getD l [])[i]? = some n0 ∧ n0.links = nd.links := by
  have := congrArg (fun x => x[i]?) (layerVal_links hin l)
  simp only [List.getElem?_map, h, Option.map_some'] at this
  generalize net.mat.getD l [] = layer at this ⊢
  cases h0 : layer[i]? with
  | none => simp [h0] at this
  | some n0 => exact ⟨n0, rfl, by simpa [h0] using this.symm⟩

theorem getD_mem_or_nil (net : Network) (l : Nat) :
    net.mat.getD l [] ∈ net.mat ∨ net.mat.getD l [] = [] := by
  rw [List.getD_eq_getElem?_getD]
  cases h : net.mat[l]? with
  | none => exact Or.inr rfl
  | some layer => exact Or.inl (List.mem_iff_getElem?.mpr ⟨l, h⟩)

theorem layerVal_noCond {net : Network} {input : List ℚ} (hnc : net.NoCond)
    (hin : net.mat.head?.map List.length = some input.length) (l : Nat) :
    ∀ n ∈ layerVal net input l, ∀ lnk ∈ n.links, lnk.c = 0 := by
  intro n hn lnk hl
  obtain ⟨i, hi⟩ := List.mem_iff_getElem?.mp hn
  obtain ⟨n0, hn0, hlinks⟩ := layerVal_node_links hin hi
  rcases getD_mem_or_nil net l with hm | he
  · exact hnc _ hm n0 (List.mem_iff_getElem?.mpr ⟨i, hn0⟩) lnk (hlinks ▸ hl)
  · rw [he] at hn0
    simp at hn0

theorem condFactor_noCond (layer : List Node) (t : NodeAddr)
    (h : ∀ n ∈ layer, ∀ lnk ∈ n.links, lnk.c = 0) : condFactor layer t = 1 := by
  rw [condFactor_eq]
  apply prod_map_eq_one
  intro n hn
  rw [linkProd_eq_map]
  apply prod_map_eq_one
  intro lnk hl
  simp [h n hn lnk hl]

theorem layerVal_cond_one {net : Network} {input : List ℚ} (hnc : net.NoCond)
    (hin : net.mat.head?.map List.length = some input.length) (l i : Nat) (nd : Node)
    (h : (layerVal net input l)[i]? = some nd) : nd.c = 1 := by
  cases l with
  | zero =>
    simp only [layerVal, List.getElem?_zipWith] at h
    generalize net.mat.getD 0 [] = layer at h
    cases h1 : input[i]? with
    | none => simp [h1] at h
    | some x =>
      cases h2 : layer[i]? with
      | none => simp [h1, h2] at h
      | some n0 =>
        simp only [h1, h2, Option.some.injEq] at h
        rw [← h]
  | succ l =>
    simp only [layerVal, List.getElem?_mapIdx] at h
    generalize net.mat.getD (l + 1) [] = layer at h
    cases h2 : layer[i]? with
    | none => simp [h2] at h
    | some n0 =>
      simp only [h2, Option.map_some', Option.some.injEq] at h
      rw [← h]
      exact condFactor_noCond _ _ (layerVal_noCond hnc hin l)

theorem inserted_factors (A : List Node) (p t : Nat) (k : ℚ) (nd : Node)
    (ht : A[t]? = some nd) (hc : nd.c = 1) :
    signalFactor (A.mapIdx (fun n x =>
        (⟨x.s, x.c, (insertedNode p A.length k 0 0 n).links⟩ : Node))) ⟨p + 1, t⟩ = nd.s ∧
      condFactor (A.mapIdx (fun n x =>
        (⟨x.s, x.c, (insertedNode p A.length k 0 0 n).links⟩ : Node))) ⟨p + 1, t⟩ = 1 := by
  have htN : t < A.length := by
    by_contra hcn
    rw [List.getElem?_eq_none (by omega)] at ht
    cases ht
  constructor
  · rw [signalFactor_eq, prod_map_unique _ _ t ⟨nd.s, nd.c, (insertedNode p A.length k 0 0 t).links⟩
      (by simp [List.getElem?_mapIdx, ht])]
    · simp only [insertedNode]
      rw [linkProd_range _ _ _ _ _ htN (fun _ => rfl)]
      simp only [attenuation, if_true, hc]
      ring
    · intro i y hi hy
      simp only [List.getElem?_mapIdx] at hy
      cases hx : A[i]? with
      | none => simp [hx] at hy
      | some x =>
        simp only [hx, Option.map_some', Option.some.injEq] at hy
        subst hy
        simp only [insertedNode]
        rw [linkProd_range _ _ _ _ _ htN (fun _ => rfl)]
        simp [Ne.symm hi]
  · apply condFactor_noCond
    intro n hn lnk hl
    obtain ⟨i, hi⟩ := List.mem_iff_getElem?.mp hn
    simp only [List.getElem?_mapIdx] at hi
    cases hx : A[i]? with
    | none => simp [hx] at hi
    | some x =>
      simp only [hx, Option.map_some', Option.some.injEq] at hi
      subst hi
      simp only [insertedNode, List.mem_map] at hl
      obtain ⟨j, _, rfl⟩ := hl
      simp

theorem layerVal_insert_next {net : Network} {p : Nat} {old : List Node}
    (hp : net.mat[p]? = some old) (k : ℚ) {input : List ℚ} (hnc : net.NoCond)
    (hin : net.mat.head?.map List.length = some input.length) :
    layerVal (insertSame net p old k 0 0) input (p + 1) =
      (layerVal net input p).map shiftLinks := by
  have hold : net.mat.getD p [] = old := getD_of_getElem? hp
  have hlen : old.length = (layerVal net input p).length := by
    rw [layerVal_length hin p, hold]
  have h1 : ¬ (p + 1 < p) := by omega
  have h2 : ¬ (p + 1 = p) := by omega
  simp only [layerVal, insertSame_getD hp, h1, h2, if_false, Nat.add_sub_cancel, hold,
    layerVal_insert_at hp k 0 0 hin, hlen]
  apply List.ext_getElem?
  intro t
  simp only [List.getElem?_mapIdx, List.getElem?_map]
  cases hA : (layerVal net input p)[t]? with
  | none =>
    have : old[t]? = none := by
      apply List.getElem?_eq_none
      have : (layerVal net input p).length ≤ t := by
        by_contra hc
        rw [List.getElem?_eq_getElem (by omega)] at hA
        cases hA
      omega
    simp [this]
  | some nd =>
    obtain ⟨n0, hn0, hlinks⟩ := layerVal_node_links hin hA
    rw [hold] at hn0
    obtain ⟨hs, hc⟩ := inserted_factors (layerVal net input p) p t k nd hA
      (layerVal_cond_one hnc hin p t nd hA)
    simp only [hn0, Option.map_some', Option.some.injEq, hs, hc]
    rw [← layerVal_cond_one hnc hin p t nd hA]
    simp [shiftLinks, hlinks]

theorem layerVal_insert_after {net : Network} {p : Nat} {old : List Node}
    (hp : net.mat[p]? = some old) (k : ℚ) {input : List ℚ} (hnc : net.NoCond)
    (hin : net.mat.head?.map List.length = some input.length) (o : Nat) (ho : p ≤ o) :
    layerVal (insertSame net p old k 0 0) input (o + 1) =
      (layerVal net input o).map shiftLinks := by
  induction o, ho using Nat.le_induction with
  | base => exact layerVal_insert_next hp k hnc hin
  | succ o ho ih =>
    have h1 : ¬ (o + 1 + 1 < p) := by omega
    have h2 : ¬ (o + 1 + 1 = p) := by omega
    have e : layerVal (insertSame net p old k 0 0) input (o + 1 + 1) =
        ((insertSame net p old k 0 0).mat.getD (o + 1 + 1) []).mapIdx (fun t nd =>
          (⟨signalFactor (layerVal (insertSame net p old k 0 0) input (o + 1))
              ⟨o + 1 + 1, t⟩,
            condFactor (layerVal (insertSame net p old k 0 0) input (o + 1))
              ⟨o + 1 + 1, t⟩, nd.links⟩ : Node)) := rfl
    rw [e, ih, insertSame_getD hp]
    simp only [h1, h2, if_false, Nat.add_sub_cancel, layerVal]
    generalize net.mat.getD (o + 1) [] = layer
    apply List.ext_getElem?
    intro t
    simp only [List.getElem?_mapIdx, List.getElem?_map]
    cases layer[t]? with
    | none => rfl
    | some n0 =>
      simp only [Option.map_some', Option.some.injEq, signalFactor_shift, condFactor_shift]
      rfl

theorem insertSame_head {net : Network} {p : Nat} {old : List Node}
    (hp : net.mat[p]? = some old) (k w c : ℚ) :
    (insertSame net p old k w c).mat.head?.map List.length =
      net.mat.head?.map List.length := by
  rw [List.head?_eq_getElem?, List.head?_eq_getElem?, insertSame_layer hp]
  by_cases h : 0 < p
  · simp [h]
  · have h0 : p = 0 := by omega
    subst h0
    simp [hp]

theorem insertSame_output {net : Network} {input : List ℚ} {p : Nat} {old : List Node}
    (k : ℚ) (hlay : net.Layered) (hnc : net.NoCond)
    (hin : net.mat.head?.map List.length = some input.length)
    (hp : net.mat[p]? = some old) :
    ∃ r r', net.loadRun input = some r ∧
      (insertSame net p old k 0 0).loadRun input = some r' ∧ r'.output = r.output := by
  have hlt : p < net.mat.length := by
    by_contra hc
    rw [List.getElem?_eq_none (by omega)] at hp
    cases hp
  have hin' : (insertSame net p old k 0 0).mat.head?.map List.length = some input.length := by
    rw [insertSame_head hp]
    exact hin
  have hlen := insertSame_length hp k 0 0
  refine ⟨_, _, loadRun_layered hlay hin,
    loadRun_layered (insertSame_layered hp k 0 0 hlay) hin', ?_⟩
  rw [output_stateUpTo (by omega), output_stateUpTo (by omega), hlen]
  have e : net.mat.length + 1 - 1 = (net.mat.length - 1) + 1 := by omega
  rw [e, layerVal_insert_after hp k hnc hin (net.mat.length - 1) (by omega)]
  simp [List.map_map, Function.comp_def, shiftLinks]

/-! ## Networks built by `buildByConfig` -/

theorem buildLayers_getElem? (k w c : ℚ) (config : List Nat) (nLayer l : Nat) :
    (buildLayers k w c nLayer config)[l]? =
      (config[l]?).map (fun n =>
        List.replicate n
          (⟨0, 0, match config[l + 1]? with
            | some m => uniformLinks k w c (nLayer + l + 1) m
            | none => []⟩ : Node)) := by
  induction config generalizing nLayer l with
  | nil => simp [buildLayers]
  | cons n rest ih =>
    cases rest with
    | nil =>
      cases l with
      | zero => simp [buildLayers, Node.blank]
      | succ l => simp [buildLayers]
    | cons m rest =>
      cases l with
      | zero => simp [buildLayers]
      | succ l =>
        simp only [buildLayers, List.getElem?_cons_succ]
        rw [ih (nLayer + 1) l]
        simp only [List.getElem?_cons_succ]
        have e : nLayer + 1 + l + 1 = nLayer + (l + 1) + 1 := by omega
        rw [e]

theorem buildByConfig_layer (config : List Nat) (k w c : ℚ) (l : Nat) :
    (buildByConfig config k w c).mat[l]? =
      (config[l]?).map (fun n =>
        List.replicate n
          (⟨0, 0, match config[l + 1]? with
            | some m => uniformLinks k w c (l + 1) m
            | none => []⟩ : Node)) := by
  simp only [buildByConfig, buildLayers_getElem?, Nat.zero_add]

theorem buildByConfig_getNode {config : List Nat} {k w c : ℚ} {a : NodeAddr} {n : Node}
    (h : (buildByConfig config k w c).getNode a = some n) :
    ∃ size, config[a.layer]? = some size ∧ a.node < size ∧
      n = ⟨0, 0, match config[a.layer + 1]? with
        | some m => uniformLinks k w c (a.layer + 1) m
        | none => []⟩ := by
  simp only [Network.getNode, buildByConfig_layer] at h
  cases hc : config[a.layer]? with
  | none => simp [hc] at h
  | some size =>
    simp only [hc, Option.map_some', List.getElem?_replicate] at h
    by_cases hlt : a.node < size
    · simp only [hlt, if_true, Option.some.injEq] at h
      exact ⟨size, rfl, hlt, h.symm⟩
    · simp [hlt] at h

theorem buildByConfig_layered (config : List Nat) (k w c : ℚ) :
    (buildByConfig config k w c).Layered := by
  intro a n hn lnk hl
  obtain ⟨size, _, _, rfl⟩ := buildByConfig_getNode hn
  cases hm : config[a.layer + 1]? with
  | none => simp [hm] at hl
  | some m =>
    simp only [hm, uniformLinks, List.mem_map, List.mem_range] at hl
    obtain ⟨i, hi, rfl⟩ := hl
    refine ⟨rfl, ?_⟩
    simp [Network.getNode, buildByConfig_layer, hm, List.getElem?_replicate, hi]

theorem buildByConfig_noCond (config : List Nat) (k w : ℚ) :
    (buildByConfig config k w 0).NoCond := by
  apply (forall_mem_iff_getNode _ (fun n => ∀ lnk ∈ n.links, lnk.c = 0)).mpr
  intro a n hn lnk hl
  obtain ⟨size, _, _, rfl⟩ := buildByConfig_getNode hn
  cases hm : config[a.layer + 1]? with
  | none => simp [hm] at hl
  | some m =>
    simp only [hm, uniformLinks, List.mem_map, List.mem_range] at hl
    obtain ⟨i, _, rfl⟩ := hl
    rfl

theorem buildByConfig_head (config : List Nat) (k w c : ℚ) :
    (buildByConfig config k w c).mat.head?.map List.length = config.head? := by
  rw [List.head?_eq_getElem?, List.head?_eq_getElem?, buildByConfig_layer]
  cases config[0]? <;> simp

/-- C3 as stated fails. (1) With caller-supplied `w0 = 1` the connections of the new
layer that are not on the diagonal attenuate: inserting a layer of size 2 at position 0
of `buildByConfig([2], 0, 1, 0)` turns the output `[1, 1]` of the input `[1, 1]` into
`[0, 0]`. (2) With `c = 1` in the built network the conductivity of a node is not 1 and
is not passed through the new layer: inserting a layer of size 1 at position 1 of
`buildByConfig([1, 1], 0, 1, 1)` with `(k0, w0, c0) = (0, 0, 0)` turns the output `[0]`
of the input `[1]` into `[1]`. (3) In single precision the connection `(1, 1, 0)` of the
new layer computes `1 - ((1 + s) - 2 * s)`, which is not `s` after rounding: inserting a
layer of size 1 at position 1 of `buildByConfig([1, 1], 1/4, 1/2, 0)` with
`(k0, w0, c0) = (1/4, 0, 0)` turns the output `0.8f` of the input `0.3f` into
`0.8f + 2^-24`. -/
theorem insertLayer_changes_output :
    (((buildByConfig [2] 0 1 0).loadRun [1, 1]).bind Network.output = some [1, 1] ∧
      (((buildByConfig [2] 0 1 0).insertLayer 0 2 0 1 0).bind
        (fun n => n.loadRun [1, 1])).bind Network.output = some [0, 0]) ∧
    (((buildByConfig [1, 1] 0 1 1).loadRun [1]).bind Network.output = some [0] ∧
      (((buildByConfig [1, 1] 0 1 1).insertLayer 1 1 0 0 0).bind
        (fun n => n.loadRun [1])).bind Network.output = some [1]) ∧
    (round32 (3/10) = 5033165/16777216 ∧ round32 (4/5) = 13421773/16777216 ∧
      ((buildByConfig [1, 1] (1/4) (1/2) 0).loadRun32 [5033165/16777216]).bind
        Network.output = some [13421773/16777216] ∧
      (((buildByConfig [1, 1] (1/4) (1/2) 0).insertLayer 1 1 (1/4) 0 0).bind
        (fun n => n.loadRun32 [5033165/16777216])).bind Network.output =
          some [13421773/16777216 + pow2 (-24)]) :=
  ⟨⟨by decide!, by decide!⟩, ⟨by decide!, by decide!⟩,
    ⟨by decide!, by decide!, by decide!, by decide!⟩⟩

/-- C3 (amended to `c = 0` in the built network and `w0 = c0 = 0` in the call, the
defaults of both, in exact arithmetic): when no `float` operation rounds, for every
network built by `buildByConfig(config, k, w, 0)`, every
valid position `p`, every `k0` and every input of layer-0 length, `insertLayer(p, size
of layer p, k0, 0, 0)` returns a network on which `loadInput(input); run()` leaves the
same last-layer signals as on the network before the insertion. -/
theorem insertLayer_preserves_output (config : List Nat) (k w k0 : ℚ) (p size : Nat)
    (input : List ℚ) (hp : config[p]? = some size)
    (hin : config.head? = some input.length) :
    ∃ net' r r' out, (buildByConfig config k w 0).insertLayer p size k0 0 0 = some net' ∧
      (buildByConfig config k w 0).loadRun input = some r ∧
      net'.loadRun input = some r' ∧ r.output = some out ∧ r'.output = some out := by
  have hl := buildByConfig_layer config k w 0 p
  rw [hp] at hl
  simp only [Option.map_some'] at hl
  have hins := insertLayer_same_size hl k0 0 0
  rw [List.length_replicate] at hins
  have hin' : (buildByConfig config k w 0).mat.head?.map List.length = some input.length := by
    rw [buildByConfig_head]
    exact hin
  obtain ⟨r, r', hr, hr', hout⟩ := insertSame_output k0 (buildByConfig_layered config k w 0)
    (buildByConfig_noCond config k w) hin' hl
  have hne : 0 < (buildByConfig config k w 0).mat.length := by
    by_contra hc
    rw [List.getElem?_eq_none (by omega)] at hl
    cases hl
  have hro : r.output = some
      ((layerVal (buildByConfig config k w 0) input
        ((buildByConfig config k w 0).mat.length - 1)).map (fun nd => nd.s)) := by
    rw [loadRun_layered (buildByConfig_layered config k w 0) hin'] at hr
    cases hr
    exact output_stateUpTo hne
  exact ⟨_, r, r', _, hins, hr, hr', hro, by rw [hout, hro]⟩

theorem insertLayer_preserves_output_witness :
    ∃ net' r r' out,
      (buildByConfig [2, 1, 2] (1/4) (1/2) 0).insertLayer 1 1 (1/3) 0 0 = some net' ∧
      (buildByConfig [2, 1, 2] (1/4) (1/2) 0).loadRun [1/3, 1/5] = some r ∧
      net'.loadRun [1/3, 1/5] = some r' ∧ r.output = some out ∧ r'.output = some out :=
  insertLayer_preserves_output [2, 1, 2] (1/4) (1/2) (1/3) 1 1 [1/3, 1/5] rfl rfl

/-! ## The clamp `normalize` -/

theorem normalize_eq_self {x : ℚ} (h0 : 0 ≤ x) (h1 : x ≤ 1) : normalize x = x := by
  simp [normalize, h0, h1]

theorem normalize_eq_one {x : ℚ} (h : 1 < x) : normalize x = 1 := by
  have h1 : ¬ x ≤ 1 := not_le.mpr h
  simp [normalize, h1, h]

theorem normalize_eq_zero {x : ℚ} (h : x < 0) : normalize x = 0 := by
  have h0 : ¬ 0 ≤ x := not_le.mpr h
  have h1 : ¬ 1 < x := by
    intro h1
    linarith
  simp [normalize, h0, h1]

theorem normalize_idem (x : ℚ) : normalize (normalize x) = normalize x :=
  normalize_eq_self (normalize_mem x).1 (normalize_mem x).2

theorem scalar_normalize_finite (x : ℚ) :
    Scalar.normalize (.finite x) = .finite (normalize x) := by
  unfold Scalar.normalize normalize
  by_cases h0 : 0 ≤ x
  · by_cases h1 : x ≤ 1
    · simp [Scalar.le, h0, h1]
    · have h2 : 1 < x := not_le.mp h1
      simp [Scalar.le, Scalar.lt, h0, h1, h2]
  · have h2 : ¬ 1 < x := by
      intro h2
      apply h0
      linarith
    simp [Scalar.le, Scalar.lt, h0, h2]

/-- C12: `normalize` on finite values. For every finite `x`: `normalize x = x` when
`0 ≤ x ≤ 1`, `normalize x = 1` when `x > 1`, `normalize x = 0` when `x < 0`; hence
`normalize x` lies in `[0,1]` and `normalize (normalize x) = normalize x`. The clamp on
`float` values, taken at a finite value, is the clamp on the rationals. -/
theorem normalize_finite (x : ℚ) :
    (0 ≤ x ∧ x ≤ 1 → normalize x = x) ∧ (1 < x → normalize x = 1) ∧
      (x < 0 → normalize x = 0) ∧ (0 ≤ normalize x ∧ normalize x ≤ 1) ∧
      normalize (normalize x) = normalize x ∧
      Scalar.normalize (.finite x) = .finite (normalize x) :=
  ⟨fun h => normalize_eq_self h.1 h.2, normalize_eq_one, normalize_eq_zero, normalize_mem x,
    normalize_idem x, scalar_normalize_finite x⟩

theorem normalize_finite_witness :
    normalize (1/2) = 1/2 ∧ normalize 3 = 1 ∧ normalize (-2) = 0 :=
  ⟨(normalize_finite (1/2)).1 ⟨by norm_num, by norm_num⟩,
    (normalize_finite 3).2.1 (by norm_num), (normalize_finite (-2)).2.2.1 (by norm_num)⟩

/-- C13 (as stated, refuted): `+infinity` is not finite and `normalize` maps it to `1`,
not to `0`, because `value > 1.f` holds for it. -/
theorem normalize_posInf_is_one :
    ¬ ∀ x : Scalar, (∀ q, x ≠ .finite q) → Scalar.normalize x = .finite 0 := by
  intro h
  have h1 := h .posInf (by intro q hq; cases hq)
  revert h1
  decide

/-- C13 (amended): `normalize` on non-finite values. For every non-finite argument `x`,
`normalize x` is `1` when `x` is `+infinity` and `0` otherwise, that is for NaN and
`-infinity`. -/
theorem normalize_nonfinite (x : Scalar) (hx : ∀ q, x ≠ .finite q) :
    Scalar.normalize x = if x = .posInf then .finite 1 else .finite 0 := by
  cases x with
  | finite q => exact absurd rfl (hx q)
  | posInf => rfl
  | negInf => rfl
  | nan => rfl

theorem normalize_nonfinite_witness :
    Scalar.normalize .nan = (if Scalar.nan = .posInf then .finite 1 else .finite 0) ∧
      Scalar.normalize .negInf =
        (if Scalar.negInf = .posInf then .finite 1 else .finite 0) ∧
      Scalar.normalize .posInf =
        (if Scalar.posInf = .posInf then .finite 1 else .finite 0) :=
  ⟨normalize_nonfinite .nan (fun q h => by cases h),
    normalize_nonfinite .negInf (fun q h => by cases h),
    normalize_nonfinite .posInf (fun q h => by cases h)⟩

/-! ## `reset` -/

theorem reset_spec {net : Network} (hne : net.mat ≠ []) :
    ∃ r, net.reset = some r ∧ r.topology = net.topology ∧
      (∀ j nd, net.getNode ⟨0, j⟩ = some nd → r.getNode ⟨0, j⟩ = some { nd with c := 1 }) ∧
      (∀ l j nd, net.getNode ⟨l + 1, j⟩ = some nd →
        r.getNode ⟨l + 1, j⟩ = some { nd with s := 1, c := 1 }) := by
  obtain ⟨mat⟩ := net
  cases mat with
  | nil => exact absurd rfl hne
  | cons l0 rest =>
    refine ⟨_, rfl, ?_, ?_, ?_⟩
    · simp [Network.topology, resetNodes, Function.comp_def]
    · intro j nd h
      simp only [Network.getNode, List.getElem?_cons_zero] at h ⊢
      simp [List.getElem?_map, h]
    · intro l j nd h
      simp only [Network.getNode, List.getElem?_cons_succ, List.getElem?_map] at h ⊢
      cases hl : rest[l]? with
      | none => simp [hl] at h
      | some layer =>
        simp only [hl] at h
        simp [resetNodes, List.getElem?_map, h]

/-- C19 (as stated, refuted): after `reset()` the second node of layer 0 of `fanInNet`
still has the signal `1/2` it had before, not `1`. -/
theorem reset_keeps_input_signal :
    ∃ r nd, fanInNet.reset = some r ∧ r.getNode ⟨0, 1⟩ = some nd ∧ nd.s = 1/2 ∧ nd.s ≠ 1 := by
  refine ⟨_, _, rfl, rfl, rfl, ?_⟩
  norm_num

/-- C19 (amended): for every network with at least one layer, `reset()` returns; after it
every node of every layer other than layer 0 has signal 1 and conductivity 1, every node
of layer 0 has conductivity 1 and the signal it had before, and no layer, node,
connection or connection parameter has changed. -/
theorem reset_sets_neutral (net : Network) (hne : net.mat ≠ []) :
    ∃ r, net.reset = some r ∧ r.topology = net.topology ∧
      (∀ j nd, net.getNode ⟨0, j⟩ = some nd →
        r.getNode ⟨0, j⟩ = some ⟨nd.s, 1, nd.links⟩) ∧
      (∀ l j nd, net.getNode ⟨l + 1, j⟩ = some nd →
        r.getNode ⟨l + 1, j⟩ = some ⟨1, 1, nd.links⟩) :=
  reset_spec hne

theorem reset_sets_neutral_witness :
    ∃ r, fanInNet.reset = some r ∧ r.topology = fanInNet.topology ∧
      (∀ j nd, fanInNet.getNode ⟨0, j⟩ = some nd →
        r.getNode ⟨0, j⟩ = some ⟨nd.s, 1, nd.links⟩) ∧
      (∀ l j nd, fanInNet.getNode ⟨l + 1, j⟩ = some nd →
        r.getNode ⟨l + 1, j⟩ = some ⟨1, 1, nd.links⟩) :=
  reset_sets_neutral fanInNet (by decide)

/-! ## Uniform builder -/

theorem buildByConfig_sizes (config : List Nat) (k w c : ℚ) :
    (buildByConfig config k w c).mat.map List.length = config := by
  apply List.ext_getElem?
  intro l
  rw [List.getElem?_map, buildByConfig_layer]
  cases config[l]? with
  | none => rfl
  | some n => simp

theorem uniformLinks_getElem? (k w c : ℚ) (target count i : Nat) (hi : i < count) :
    (uniformLinks k w c target count)[i]? = some ⟨k, w, c, ⟨target, i⟩⟩ := by
  simp [uniformLinks, List.getElem?_map, List.getElem?_range hi]

/-- C14: `buildByConfig(config, k, w, c)` (the uniform builder). For every list of layer
sizes and every `(k, w, c)`, the built network has exactly the given number of layers
with exactly the given sizes; every node of a layer `l` that has a next layer of size
`m` has exactly `m` connections, the `i`-th of which is `(k, w, c)` to node `i` of layer
`l + 1`; and the nodes of the last layer have no connection. -/
theorem buildByConfig_structure (config : List Nat) (k w c : ℚ) :
    (buildByConfig config k w c).mat.map List.length = config ∧
      ∀ l j nd, (buildByConfig config k w c).getNode ⟨l, j⟩ = some nd →
        (∀ m, config[l + 1]? = some m →
          nd.links.length = m ∧ ∀ i, i < m → nd.links[i]? = some ⟨k, w, c, ⟨l + 1, i⟩⟩) ∧
        (l + 1 = config.length → nd.links = []) := by
  refine ⟨buildByConfig_sizes config k w c, ?_⟩
  intro l j nd h
  obtain ⟨size, _, _, hnd⟩ := buildByConfig_getNode h
  simp only at hnd
  constructor
  · intro m hm
    rw [hm] at hnd
    subst hnd
    exact ⟨by simp [uniformLinks], fun i hi => uniformLinks_getElem? k w c (l + 1) m i hi⟩
  · intro hl
    have hnone : config[l + 1]? = none := List.getElem?_eq_none (by omega)
    rw [hnone] at hnd
    subst hnd
    rfl

theorem buildByConfig_structure_witness :
    (buildByConfig [2, 3] (1/4) (1/2) 0).mat.map List.length = [2, 3] ∧
      ∀ l j nd, (buildByConfig [2, 3] (1/4) (1/2) 0).getNode ⟨l, j⟩ = some nd →
        (∀ m, [2, 3][l + 1]? = some m →
          nd.links.length = m ∧
            ∀ i, i < m → nd.links[i]? = some ⟨1/4, 1/2, 0, ⟨l + 1, i⟩⟩) ∧
        (l + 1 = [2, 3].length → nd.links = []) :=
  buildByConfig_structure [2, 3] (1/4) (1/2) 0

/-! ## Branching builder -/

theorem branchLinks_nodes (k w c : ℚ) (target n b size : Nat) :
    (branchLinks k w c target n b size).map (fun lnk => lnk.addr.node) =
      if n + b ≤ intMax then List.range' (n - b) (min (n + b) size - (n - b)) else [] := by
  unfold branchLinks
  split <;> simp [Function.comp_def]

theorem branchLinks_params (k w c : ℚ) (target n b size : Nat) :
    ∀ lnk ∈ branchLinks k w c target n b size,
      lnk.k = k ∧ lnk.w = w ∧ lnk.c = c ∧ lnk.addr.layer = target := by
  intro lnk h
  unfold branchLinks at h
  split at h
  · simp only [List.mem_map] at h
    obtain ⟨i, _, rfl⟩ := h
    exact ⟨rfl, rfl, rfl, rfl⟩
  · simp at h

theorem branchLayer_some (k w c : ℚ) (branching : List Nat) (nLayer n m : Nat)
    (h : nLayer < branching.length) :
    ∃ layer, branchLayer k w c branching nLayer n m = some layer := by
  unfold branchLayer
  split
  · exact ⟨_, rfl⟩
  · rw [List.getElem?_eq_getElem h]
    exact ⟨_, rfl⟩

theorem branchLayer_spec {k w c : ℚ} {branching : List Nat} {nLayer n m : Nat}
    {layer : List Node} (h : branchLayer k w c branching nLayer n m = some layer) :
    layer.length = n ∧ ∀ i nd, layer[i]? = some nd →
      ∃ b, branching[nLayer]? = some b ∧
        nd = (⟨0, 0, branchLinks k w c (nLayer + 1) i b m⟩ : Node) := by
  by_cases hn : n = 0
  · simp only [branchLayer, hn, if_true, Option.some.injEq] at h
    subst h
    exact ⟨hn.symm, fun i nd hi => by simp at hi⟩
  · cases hb : branching[nLayer]? with
    | none => simp [branchLayer, hn, hb] at h
    | some b =>
      simp only [branchLayer, hn, if_false, hb, Option.some.injEq] at h
      subst h
      refine ⟨by simp, ?_⟩
      intro i nd hi
      rw [List.getElem?_map] at hi
      have hlt : i < (List.range n).length := by
        by_contra hc
        rw [List.getElem?_eq_none (by omega)] at hi
        cases hi
      rw [List.getElem?_eq_getElem hlt, List.getElem_range] at hi
      simp only [Option.map_some', Option.some.injEq] at hi
      exact ⟨b, rfl, hi.symm⟩

theorem buildBranchLayers_some (k w c : ℚ) (branching : List Nat) (config : List Nat) :
    ∀ s, s + config.length ≤ branching.length + 1 →
      ∃ mat, buildBranchLayers k w c branching s config = some mat := by
  induction config with
  | nil => exact fun s _ => ⟨_, rfl⟩
  | cons n tail ih =>
    intro s hs
    cases tail with
    | nil => exact ⟨_, rfl⟩
    | cons m rest =>
      simp only [List.length_cons] at hs
      obtain ⟨layer, hl⟩ := branchLayer_some k w c branching s n m (by omega)
      obtain ⟨tl, ht⟩ := ih (s + 1) (by simp only [List.length_cons]; omega)
      exact ⟨layer :: tl, by simp [buildBranchLayers, hl, ht]⟩

theorem buildBranchLayers_spec {k w c : ℚ} {branching : List Nat} (config : List Nat) :
    ∀ s mat, buildBranchLayers k w c branching s config = some mat →
      mat.map List.length = config ∧
      ∀ l i nd, (mat[l]?).bind (fun layer => layer[i]?) = some nd →
        (config[l + 1]? = none → nd.links = []) ∧
        ∀ m, config[l + 1]? = some m →
          ∃ b, branching[s + l]? = some b ∧
            nd.links = branchLinks k w c (s + l + 1) i b m := by
  induction config with
  | nil =>
    intro s mat h
    simp only [buildBranchLayers, Option.some.injEq] at h
    subst h
    exact ⟨rfl, fun l i nd hnd => by simp at hnd⟩
  | cons n tail ih =>
    intro s mat h
    cases tail with
    | nil =>
      simp only [buildBranchLayers, Option.some.injEq] at h
      subst h
      refine ⟨by simp, ?_⟩
      intro l i nd hnd
      cases l with
      | zero =>
        simp only [List.getElem?_cons_zero, Option.some_bind] at hnd
        have hmem := List.mem_iff_getElem?.mpr ⟨i, hnd⟩
        rw [List.mem_replicate] at hmem
        rw [hmem.2]
        exact ⟨fun _ => rfl, fun m hm => by simp at hm⟩
      | succ l => simp at hnd
    | cons m rest =>
      simp only [buildBranchLayers] at h
      cases hl : branchLayer k w c branching s n m with
      | none => simp [hl] at h
      | some layer =>
        cases ht : buildBranchLayers k w c branching (s + 1) (m :: rest) with
        | none => simp [hl, ht] at h
        | some tl =>
          simp only [hl, ht, Option.some.injEq] at h
          subst h
          obtain ⟨hsz, hnodes⟩ := ih (s + 1) tl ht
          obtain ⟨hlen, hlayer⟩ := branchLayer_spec hl
          refine ⟨by simp [hlen, hsz], ?_⟩
          intro l i nd hnd
          cases l with
          | zero =>
            simp only [List.getElem?_cons_zero, Option.some_bind] at hnd
            obtain ⟨b, hb, rfl⟩ := hlayer i nd hnd
            refine ⟨fun hc => by simp at hc, ?_⟩
            intro m' hm'
            simp only [zero_add, List.getElem?_cons_succ, List.getElem?_cons_zero,
              Option.some.injEq] at hm'
            subst hm'
            exact ⟨b, by simpa using hb, rfl⟩
          | succ l =>
            simp only [List.getElem?_cons_succ] at hnd
            obtain ⟨h1, h2⟩ := hnodes l i nd hnd
            refine ⟨fun hc => h1 (by simpa using hc), ?_⟩
            intro m' hm'
            obtain ⟨b, hb, hlk⟩ := h2 m' (by simpa using hm')
            refine ⟨b, ?_, ?_⟩
            · rw [← hb]
              congr 1
              omega
            · rw [hlk]
              congr 1
              omega

theorem getNode_eq_bind (net : Network) (l i : Nat) :
    net.getNode ⟨l, i⟩ = (net.mat[l]?).bind (fun layer => layer[i]?) := by
  unfold Network.getNode
  cases net.mat[l]? <;> rfl

theorem buildByConfigBranching_spec (config branching : List Nat) (k w c : ℚ)
    (hlen : config.length ≤ branching.length + 1) :
    ∃ net, buildByConfigBranching config branching k w c = some net ∧
      net.mat.map List.length = config ∧
      ∀ l i nd, net.getNode ⟨l, i⟩ = some nd →
        (config[l + 1]? = none → nd.links = []) ∧
        ∀ m, config[l + 1]? = some m →
          ∃ b, branching[l]? = some b ∧ nd.links = branchLinks k w c (l + 1) i b m := by
  obtain ⟨mat, hmat⟩ := buildBranchLayers_some k w c branching config 0 (by omega)
  obtain ⟨hsz, hnodes⟩ := buildBranchLayers_spec config 0 mat hmat
  refine ⟨⟨mat⟩, by simp [buildByConfigBranching, hmat], hsz, ?_⟩
  intro l i nd hnd
  rw [getNode_eq_bind] at hnd
  obtain ⟨h1, h2⟩ := hnodes l i nd hnd
  refine ⟨h1, ?_⟩
  intro m hm
  obtain ⟨b, hb, hlk⟩ := h2 m hm
  exact ⟨b, by simpa using hb, by simpa using hlk⟩

/-- C15: the window built by `buildByConfig(config, branching, k, w, c)` misses its upper
end. (1) With sizes `[1, 2]` and radius `1`, node `1` of layer 1 exists and lies within
`[0 - 1, 0 + 1]` of node `0` of layer 0, but the built node has no connection to it: its
only connection targets node `0`. (2) With sizes `[1, 1]` and radius `0`, node `0` of
layer 1 lies within `[0 - 0, 0 + 0]` of node `0` of layer 0, but the built node has no
connection at all. -/
theorem branching_excludes_upper_end :
    (∃ net nd, buildByConfigBranching [1, 2] [1] (1/4) (1/2) 0 = some net ∧
      net.getNode ⟨0, 0⟩ = some nd ∧ (1 < 2 ∧ 0 ≤ 1 + 1 ∧ 1 ≤ 0 + 1) ∧
      nd.links.map (fun lnk => lnk.addr.node) = [0] ∧
      1 ∉ nd.links.map (fun lnk => lnk.addr.node)) ∧
    (∃ net nd, buildByConfigBranching [1, 1] [0] (1/4) (1/2) 0 = some net ∧
      net.getNode ⟨0, 0⟩ = some nd ∧ (0 < 1 ∧ 0 ≤ 0 + 0 ∧ 0 ≤ 0 + 0) ∧ nd.links = []) := by
  refine ⟨⟨⟨[[⟨0, 0, [⟨1/4, 1/2, 0, ⟨1, 0⟩⟩]⟩], [⟨0, 0, []⟩, ⟨0, 0, []⟩]]⟩, _, by decide!, rfl,
    by decide, rfl, by decide⟩,
    ⟨⟨[[⟨0, 0, []⟩], [⟨0, 0, []⟩]]⟩, _, by decide!, rfl, by decide, rfl⟩⟩

/-- The `int` sum `n + branching[nLayer]` wraps for a large radius: with sizes `[2, 2]` and
radius `intMax`, node `0` is connected to both nodes of layer 1 and node `1`, for which
`1 + intMax` exceeds `intMax`, to none. -/
theorem branching_radius_wraps :
    ∃ net nd0 nd1, buildByConfigBranching [2, 2] [intMax] (1/4) (1/2) 0 = some net ∧
      net.getNode ⟨0, 0⟩ = some nd0 ∧ nd0.links.map (fun lnk => lnk.addr.node) = [0, 1] ∧
      net.getNode ⟨0, 1⟩ = some nd1 ∧ nd1.links = [] :=
  ⟨⟨[[⟨0, 0, [⟨1/4, 1/2, 0, ⟨1, 0⟩⟩, ⟨1/4, 1/2, 0, ⟨1, 1⟩⟩]⟩, ⟨0, 0, []⟩],
      [⟨0, 0, []⟩, ⟨0, 0, []⟩]]⟩, _, _, by decide!, rfl, rfl, rfl, rfl⟩

/-- The window that `buildByConfig(config, branching, k, w, c)` builds. For every list of
layer sizes and every list of radii with an entry for every non-last layer, the builder
returns a network with the given layer sizes in which, for every non-last layer `l` with
radius `r` and next-layer size `m`, node `i` of layer `l` is connected to next-layer node
`j` if and only if `j < m`, `i - r ≤ j < i + r` (the upper end `i + r` is excluded) and
the `int` sum `i + r` does not exceed `intMax`; each such `j` exactly once, in
increasing order of `j`, with parameters `(k, w, c)`. -/
theorem buildByConfigBranching_window (config branching : List Nat) (k w c : ℚ)
    (hlen : config.length ≤ branching.length + 1) :
    ∃ net, buildByConfigBranching config branching k w c = some net ∧
      net.mat.map List.length = config ∧
      ∀ l i m r nd, config[l + 1]? = some m → branching[l]? = some r →
        net.getNode ⟨l, i⟩ = some nd →
          (∀ lnk ∈ nd.links, lnk.k = k ∧ lnk.w = w ∧ lnk.c = c ∧ lnk.addr.layer = l + 1) ∧
          (nd.links.map (fun lnk => lnk.addr.node)).Pairwise (fun a b => a < b) ∧
          ∀ j, j ∈ nd.links.map (fun lnk => lnk.addr.node) ↔
            (j < m ∧ i ≤ j + r ∧ j < i + r ∧ i + r ≤ intMax) := by
  obtain ⟨net, hnet, hsz, hnodes⟩ := buildByConfigBranching_spec config branching k w c hlen
  refine ⟨net, hnet, hsz, ?_⟩
  intro l i m r nd hm hr hnd
  obtain ⟨b, hb, hlk⟩ := (hnodes l i nd hnd).2 m hm
  rw [hr] at hb
  cases hb
  rw [hlk]
  refine ⟨branchLinks_params k w c (l + 1) i r m, ?_, ?_⟩
  · rw [branchLinks_nodes]
    split
    · exact List.pairwise_lt_range' _ _
    · exact List.Pairwise.nil
  · intro j
    rw [branchLinks_nodes]
    split
    · rw [List.mem_range'_1]
      omega
    · simp only [List.not_mem_nil, false_iff]
      omega

theorem buildByConfigBranching_window_witness :
    ∃ net, buildByConfigBranching [3, 4] [2] (1/4) (1/2) 0 = some net ∧
      net.mat.map List.length = [3, 4] ∧
      ∀ l i m r nd, [3, 4][l + 1]? = some m → [2][l]? = some r →
        net.getNode ⟨l, i⟩ = some nd →
          (∀ lnk ∈ nd.links,
            lnk.k = 1/4 ∧ lnk.w = 1/2 ∧ lnk.c = 0 ∧ lnk.addr.layer = l + 1) ∧
          (nd.links.map (fun lnk => lnk.addr.node)).Pairwise (fun a b => a < b) ∧
          ∀ j, j ∈ nd.links.map (fun lnk => lnk.addr.node) ↔
            (j < m ∧ i ≤ j + r ∧ j < i + r ∧ i + r ≤ intMax) :=
  buildByConfigBranching_window [3, 4] [2] (1/4) (1/2) 0 (by decide)

/-! ## `expandLayer` -/

theorem lt_length_of_getElem? {α : Type} {l : List α} {i : Nat} {x : α}
    (h : l[i]? = some x) : i < l.length := by
  by_contra hc
  rw [List.getElem?_eq_none (by omega)] at h
  cases h

theorem expandLayer_eq {net : Network} {L newSize : Nat} {old : List Node} (k w c : ℚ)
    (hL : net.mat[L]? = some old) (hsz : old.length < newSize) :
    net.expandLayer L newSize k w c =
      some ⟨(net.mat.set L (old ++ List.replicate (newSize - old.length)
        (⟨0, 0, uniformLinks k w c (L + 1) (net.mat.getD (L + 1) []).length⟩ : Node))).mapIdx
        (fun i l =>
          if i + 1 = L then
            l.map (fun nd =>
              ({ nd with links := nd.links ++ extraLinks L old.length newSize k w c } : Node))
          else l)⟩ := by
  have h1 : ¬ newSize = old.length := by omega
  have h2 : ¬ newSize < old.length := by omega
  simp only [Network.expandLayer, hL, h1, h2, if_false]

theorem expandLayer_layer {net net' : Network} {L newSize : Nat} {old : List Node}
    {k w c : ℚ} (hL : net.mat[L]? = some old) (hsz : old.length < newSize)
    (h : net.expandLayer L newSize k w c = some net') (l : Nat) :
    net'.mat[l]? =
      if l = L then
        some (old ++ List.replicate (newSize - old.length)
          (⟨0, 0, uniformLinks k w c (L + 1) (net.mat.getD (L + 1) []).length⟩ : Node))
      else
        (net.mat[l]?).map (fun layer =>
          if l + 1 = L then
            layer.map (fun nd =>
              ({ nd with links := nd.links ++ extraLinks L old.length newSize k w c } : Node))
          else layer) := by
  rw [expandLayer_eq k w c hL hsz] at h
  cases h
  have hlt := lt_length_of_getElem? hL
  simp only [List.getElem?_mapIdx, List.getElem?_set]
  by_cases hl : l = L
  · subst hl
    simp [hlt]
  · have hl' : ¬ L = l := fun e => hl e.symm
    simp only [hl, hl', if_false]

theorem expandLayer_spec {net : Network} {L newSize : Nat} {old : List Node} (k w c : ℚ)
    (hL : net.mat[L]? = some old) (hsz : old.length ≤ newSize) :
    ∃ net', net.expandLayer L newSize k w c = some net' ∧
      net'.mat.length = net.mat.length ∧
      (net'.mat[L]?).map List.length = some newSize ∧
      (∀ l, l ≠ L → (net'.mat[l]?).map List.length = (net.mat[l]?).map List.length) ∧
      (∀ l j nd, net.getNode ⟨l, j⟩ = some nd →
        net'.getNode ⟨l, j⟩ = some ⟨nd.s, nd.c, nd.links ++
          (if l + 1 = L then
            (List.range' old.length (newSize - old.length)).map
              (fun i => (⟨k, w, c, ⟨L, i⟩⟩ : Connection))
          else [])⟩) ∧
      (∀ i, old.length ≤ i → i < newSize →
        net'.getNode ⟨L, i⟩ = some ⟨0, 0, (List.range (net.mat.getD (L + 1) []).length).map
          (fun n => (⟨k, w, c, ⟨L + 1, n⟩⟩ : Connection))⟩) := by
  by_cases heq : newSize = old.length
  · refine ⟨net, by simp [Network.expandLayer, hL, heq], rfl, by simp [hL, heq],
      fun _ _ => rfl, ?_, ?_⟩
    · intro l j nd h
      simp [heq, h]
    · intro i h1 h2
      omega
  · have hlt : old.length < newSize := by omega
    have hLlt := lt_length_of_getElem? hL
    refine ⟨_, expandLayer_eq k w c hL hlt, by simp, ?_, ?_, ?_, ?_⟩
    · rw [expandLayer_layer hL hlt (expandLayer_eq k w c hL hlt) L]
      simp
      omega
    · intro l hl
      rw [expandLayer_layer hL hlt (expandLayer_eq k w c hL hlt) l]
      simp only [hl, if_false]
      cases net.mat[l]? with
      | none => rfl
      | some layer =>
        simp only [Option.map_some', Option.some.injEq]
        split <;> simp
    · intro l j nd h
      rw [getNode_eq_bind] at h ⊢
      rw [expandLayer_layer hL hlt (expandLayer_eq k w c hL hlt) l]
      by_cases hl : l = L
      · subst hl
        simp only [hL, Option.some_bind] at h
        have hj := lt_length_of_getElem? h
        simp only [if_true, Option.some_bind, List.getElem?_append_left hj, h,
          Nat.succ_ne_self, if_false, List.append_nil]
      · simp only [hl, if_false]
        cases hl' : net.mat[l]? with
        | none => simp [hl'] at h
        | some layer =>
          simp only [hl', Option.some_bind] at h
          simp only [Option.map_some', Option.some_bind]
          by_cases h1 : l + 1 = L
          · simp only [h1, if_true, List.getElem?_map, h, Option.map_some', extraLinks]
          · simp only [h1, if_false, h, List.append_nil]
    · intro i h1 h2
      rw [getNode_eq_bind, expandLayer_layer hL hlt (expandLayer_eq k w c hL hlt) L]
      simp only [if_true, Option.some_bind]
      rw [List.getElem?_append_right h1, List.getElem?_replicate]
      have : i - old.length < newSize - old.length := by omega
      simp only [this, if_true, uniformLinks]

/-- C16: `expandLayer` grows a layer without touching what exists. For every network,
valid layer index `L` and `newSize` not smaller than the size of layer `L`,
`expandLayer(L, newSize, k, w, c)` returns; afterwards the number of layers is the same,
layer `L` has `newSize` nodes and every other layer keeps its size; every previously
existing node keeps its signal, its conductivity and its connections as a prefix of its
connection list, to which exactly one connection `(k, w, c)` to every new node `i` of
layer `L` is appended when the node lies in layer `L - 1` and nothing otherwise; and
every new node has exactly one connection `(k, w, c)` to every node of layer `L + 1`
(none when there is no such layer). -/
theorem expandLayer_grows (net : Network) (L newSize : Nat) (k w c : ℚ) (old : List Node)
    (hL : net.mat[L]? = some old) (hsz : old.length ≤ newSize) :
    ∃ net', net.expandLayer L newSize k w c = some net' ∧
      net'.mat.length = net.mat.length ∧
      (net'.mat[L]?).map List.length = some newSize ∧
      (∀ l, l ≠ L → (net'.mat[l]?).map List.length = (net.mat[l]?).map List.length) ∧
      (∀ l j nd, net.getNode ⟨l, j⟩ = some nd →
        net'.getNode ⟨l, j⟩ = some ⟨nd.s, nd.c, nd.links ++
          (if l + 1 = L then
            (List.range' old.length (newSize - old.length)).map
              (fun i => (⟨k, w, c, ⟨L, i⟩⟩ : Connection))
          else [])⟩) ∧
      (∀ i, old.length ≤ i → i < newSize →
        net'.getNode ⟨L, i⟩ = some ⟨0, 0, (List.range (net.mat.getD (L + 1) []).length).map
          (fun n => (⟨k, w, c, ⟨L + 1, n⟩⟩ : Connection))⟩) :=
  expandLayer_spec k w c hL hsz

theorem expandLayer_grows_witness :
    ∃ net', (buildByConfig [2, 1, 2] (1/4) (1/2) 0).expandLayer 1 3 (1/3) (1/5) 0 = some net' ∧
      net'.mat.length = (buildByConfig [2, 1, 2] (1/4) (1/2) 0).mat.length ∧
      (net'.mat[1]?).map List.length = some 3 ∧
      (∀ l, l ≠ 1 → (net'.mat[l]?).map List.length =
        ((buildByConfig [2, 1, 2] (1/4) (1/2) 0).mat[l]?).map List.length) ∧
      (∀ l j nd, (buildByConfig [2, 1, 2] (1/4) (1/2) 0).getNode ⟨l, j⟩ = some nd →
        net'.getNode ⟨l, j⟩ = some ⟨nd.s, nd.c, nd.links ++
          (if l + 1 = 1 then
            (List.range' [(⟨0, 0, [⟨1/4, 1/2, 0, ⟨2, 0⟩⟩, ⟨1/4, 1/2, 0, ⟨2, 1⟩⟩]⟩ : Node)].length
              (3 - [(⟨0, 0, [⟨1/4, 1/2, 0, ⟨2, 0⟩⟩, ⟨1/4, 1/2, 0, ⟨2, 1⟩⟩]⟩ : Node)].length)).map
              (fun i => (⟨1/3, 1/5, 0, ⟨1, i⟩⟩ : Connection))
          else [])⟩) ∧
      (∀ i, [(⟨0, 0, [⟨1/4, 1/2, 0, ⟨2, 0⟩⟩, ⟨1/4, 1/2, 0, ⟨2, 1⟩⟩]⟩ : Node)].length ≤ i →
        i < 3 →
        net'.getNode ⟨1, i⟩ = some ⟨0, 0,
          (List.range ((buildByConfig [2, 1, 2] (1/4) (1/2) 0).mat.getD (1 + 1) []).length).map
            (fun n => (⟨1/3, 1/5, 0, ⟨1 + 1, n⟩⟩ : Connection))⟩) :=
  expandLayer_grows (buildByConfig [2, 1, 2] (1/4) (1/2) 0) 1 3 (1/3) (1/5) 0
    [⟨0, 0, [⟨1/4, 1/2, 0, ⟨2, 0⟩⟩, ⟨1/4, 1/2, 0, ⟨2, 1⟩⟩]⟩] rfl (by decide)

/-! ## `insertLayer` with any admissible size -/

theorem insertLayer_eq {net : Network} {p numNodes : Nat} {old : List Node} (k w c : ℚ)
    (hp : net.mat[p]? = some old) (hsz : old.length ≤ numNodes) :
    net.insertLayer p numNodes k w c =
      some ⟨(net.mat.take p).mapIdx (fun i l =>
          if i + 1 = p then
            l.map (fun nd =>
              ({ nd with links := nd.links ++ extraLinks p old.length numNodes k w c } : Node))
          else l) ++
        (List.range numNodes).map (insertedNode p old.length k w c) ::
          (net.mat.drop p).map (fun l => l.map shiftLinks)⟩ := by
  have h : ¬ numNodes < old.length := by omega
  simp only [Network.insertLayer, hp, h, if_false]

theorem insertLayer_layer {net net' : Network} {p numNodes : Nat} {old : List Node}
    {k w c : ℚ} (hp : net.mat[p]? = some old) (hsz : old.length ≤ numNodes)
    (h : net.insertLayer p numNodes k w c = some net') (l : Nat) :
    net'.mat[l]? =
      if l < p then
        (net.mat[l]?).map (fun layer =>
          if l + 1 = p then
            layer.map (fun nd =>
              ({ nd with links := nd.links ++ extraLinks p old.length numNodes k w c } : Node))
          else layer)
      else if l = p then some ((List.range numNodes).map (insertedNode p old.length k w c))
      else (net.mat[l - 1]?).map (fun layer => layer.map shiftLinks) := by
  rw [insertLayer_eq k w c hp hsz] at h
  cases h
  have hlt := lt_length_of_getElem? hp
  have htl : ((net.mat.take p).mapIdx (fun i l =>
      if i + 1 = p then
        l.map (fun nd =>
          ({ nd with links := nd.links ++ extraLinks p old.length numNodes k w c } : Node))
      else l)).length = p := by
    rw [List.length_mapIdx, List.length_take]
    omega
  simp only [List.getElem?_append, htl]
  by_cases h1 : l < p
  · simp only [h1, if_true, List.getElem?_mapIdx, List.getElem?_take]
  · simp only [h1, if_false]
    by_cases h2 : l = p
    · subst h2
      simp
    · simp only [h2, if_false]
      obtain ⟨i, rfl⟩ : ∃ i, l = p + (i + 1) := ⟨l - p - 1, by omega⟩
      have e1 : p + (i + 1) - p = i + 1 := by omega
      have e2 : p + (i + 1) - 1 = p + i := by omega
      rw [e1, e2, List.getElem?_cons_succ, List.getElem?_map, List.getElem?_drop]

theorem insertLayer_length {net net' : Network} {p numNodes : Nat} {old : List Node}
    {k w c : ℚ} (hp : net.mat[p]? = some old) (hsz : old.length ≤ numNodes)
    (h : net.insertLayer p numNodes k w c = some net') :
    net'.mat.length = net.mat.length + 1 := by
  rw [insertLayer_eq k w c hp hsz] at h
  cases h
  have hlt := lt_length_of_getElem? hp
  simp only [List.length_append, List.length_mapIdx, List.length_take, List.length_cons,
    List.length_map, List.length_drop]
  omega

theorem insertLayer_getNode {net net' : Network} {p numNodes : Nat} {old : List Node}
    {k w c : ℚ} (hp : net.mat[p]? = some old) (hsz : old.length ≤ numNodes)
    (h : net.insertLayer p numNodes k w c = some net') (l j : Nat) :
    net'.getNode ⟨l, j⟩ =
      if l < p then
        (net.getNode ⟨l, j⟩).map (fun nd =>
          if l + 1 = p then
            ({ nd with links := nd.links ++ extraLinks p old.length numNodes k w c } : Node)
          else nd)
      else if l = p then
        (if j < numNodes then some (insertedNode p old.length k w c j) else none)
      else (net.getNode ⟨l - 1, j⟩).map shiftLinks := by
  rw [getNode_eq_bind, insertLayer_layer hp hsz h l]
  by_cases h1 : l < p
  · simp only [h1, if_true, getNode_eq_bind]
    cases net.mat[l]? with
    | none => rfl
    | some layer =>
      simp only [Option.map_some', Option.some_bind]
      by_cases h2 : l + 1 = p
      · simp only [h2, if_true, List.getElem?_map]
      · simp only [h2, if_false]
        cases layer[j]? <;> rfl
  · simp only [h1, if_false]
    by_cases h2 : l = p
    · simp only [h2, if_true, Option.some_bind]
      by_cases hj : j < numNodes
      · simp [hj, List.getElem?_map, List.getElem?_range hj]
      · have : ((List.range numNodes).map (insertedNode p old.length k w c))[j]? = none :=
          List.getElem?_eq_none (by simp; omega)
        simp [hj, this]
    · simp only [h2, if_false, getNode_eq_bind]
      cases net.mat[l - 1]? with
      | none => rfl
      | some layer => simp [List.getElem?_map]

theorem insertLayer_spec {net : Network} {p numNodes : Nat} {old : List Node} (k w c : ℚ)
    (hp : net.mat[p]? = some old) (hsz : old.length ≤ numNodes) :
    ∃ net', net.insertLayer p numNodes k w c = some net' ∧
      net'.mat.length = net.mat.length + 1 ∧
      (∀ l j nd, l < p → net.getNode ⟨l, j⟩ = some nd →
        net'.getNode ⟨l, j⟩ = some ⟨nd.s, nd.c, nd.links ++
          (if l + 1 = p then
            (List.range' old.length (numNodes - old.length)).map
              (fun i => (⟨k, w, c, ⟨p, i⟩⟩ : Connection))
          else [])⟩) ∧
      (∀ l j nd, p ≤ l → net.getNode ⟨l, j⟩ = some nd →
        net'.getNode ⟨l + 1, j⟩ = some ⟨nd.s, nd.c, nd.links.map (fun lnk =>
          (⟨lnk.k, lnk.w, lnk.c, ⟨lnk.addr.layer + 1, lnk.addr.node⟩⟩ : Connection))⟩) ∧
      (∀ l j, p ≤ l → (net'.getNode ⟨l + 1, j⟩).isSome = (net.getNode ⟨l, j⟩).isSome) ∧
      (∀ j, j < numNodes → net'.getNode ⟨p, j⟩ = some ⟨0, 0,
        (List.range old.length).map (fun i =>
          (⟨if i = j then 1 else k, if i = j then 1 else w, if i = j then 0 else c,
            ⟨p + 1, i⟩⟩ : Connection))⟩) ∧
      (∀ j, numNodes ≤ j → net'.getNode ⟨p, j⟩ = none) := by
  refine ⟨_, insertLayer_eq k w c hp hsz, insertLayer_length hp hsz (insertLayer_eq k w c hp hsz),
    ?_, ?_, ?_, ?_, ?_⟩
  · intro l j nd hl h
    rw [insertLayer_getNode hp hsz (insertLayer_eq k w c hp hsz), if_pos hl, h]
    by_cases h1 : l + 1 = p
    · simp only [h1, if_true, Option.map_some', extraLinks]
    · simp only [h1, if_false, Option.map_some', List.append_nil]
  · intro l j nd hl h
    have h1 : ¬ (l + 1 < p) := by omega
    have h2 : ¬ (l + 1 = p) := by omega
    rw [insertLayer_getNode hp hsz (insertLayer_eq k w c hp hsz), if_neg h1, if_neg h2,
      Nat.add_sub_cancel, h]
    rfl
  · intro l j hl
    have h1 : ¬ (l + 1 < p) := by omega
    have h2 : ¬ (l + 1 = p) := by omega
    rw [insertLayer_getNode hp hsz (insertLayer_eq k w c hp hsz), if_neg h1, if_neg h2,
      Nat.add_sub_cancel]
    cases net.getNode ⟨l, j⟩ <;> rfl
  · intro j hj
    rw [insertLayer_getNode hp hsz (insertLayer_eq k w c hp hsz), if_neg (lt_irrefl p),
      if_pos rfl, if_pos hj]
    rfl
  · intro j hj
    have : ¬ j < numNodes := by omega
    rw [insertLayer_getNode hp hsz (insertLayer_eq k w c hp hsz), if_neg (lt_irrefl p),
      if_pos rfl, if_neg this]

/-- C17 (as stated, refuted): in `skipNet` every connection targets a strictly later
layer; the connection of node `(0, 0)` targets layer `2` and does not start in layer `1`,
the layer immediately before position `2`. After `insertLayer(2, 1, ...)` it still
targets layer `2`, not layer `3`. -/
theorem insertLayer_misses_skip_connection :
    skipNet.Forward ∧
      ∃ net' nd nd' lnk lnk', skipNet.insertLayer 2 1 (1/4) 0 0 = some net' ∧
        skipNet.getNode ⟨0, 0⟩ = some nd ∧ nd.links[0]? = some lnk ∧
        2 ≤ lnk.addr.layer ∧ 0 + 1 ≠ 2 ∧
        net'.getNode ⟨0, 0⟩ = some nd' ∧ nd'.links[0]? = some lnk' ∧
        lnk'.addr.layer = 2 ∧ lnk'.addr.layer ≠ lnk.addr.layer + 1 := by
  refine ⟨by decide, _, _, _, _, _, rfl, rfl, rfl, by decide, by decide, rfl, rfl, rfl,
    by decide⟩

/-- C17 (amended): `insertLayer` rewrites every stored target layer index. For every
network in which every connection targets the next layer and every valid position `p`
(with a new size not smaller than the size of the layer at `p`), `insertLayer(p, ...)`
returns a network with one more layer in which the layers previously at indices `≥ p`
sit at index `+ 1` with the same nodes (signal, conductivity, and the same connections
with target layer `+ 1`); every pre-existing connection that targeted a layer `t ≥ p`
and does not start in the layer immediately before `p` now targets layer `t + 1` (same
node index, same parameters); and the pre-existing connections from the layer
immediately before `p` are unchanged and target the new layer `p`. -/
theorem insertLayer_rewrites_targets (net : Network) (p numNodes : Nat) (k w c : ℚ)
    (old : List Node) (hlay : net.Layered) (hp : net.mat[p]? = some old)
    (hsz : old.length ≤ numNodes) :
    ∃ net', net.insertLayer p numNodes k w c = some net' ∧
      net'.mat.length = net.mat.length + 1 ∧
      (∀ l j nd, p ≤ l → net.getNode ⟨l, j⟩ = some nd →
        net'.getNode ⟨l + 1, j⟩ = some ⟨nd.s, nd.c, nd.links.map (fun lnk =>
          (⟨lnk.k, lnk.w, lnk.c, ⟨lnk.addr.layer + 1, lnk.addr.node⟩⟩ : Connection))⟩) ∧
      (∀ l j, p ≤ l → (net'.getNode ⟨l + 1, j⟩).isSome = (net.getNode ⟨l, j⟩).isSome) ∧
      (∀ (l j : Nat) (nd : Node) (i : Nat) (lnk : Connection), net.getNode ⟨l, j⟩ = some nd → nd.links[i]? = some lnk →
        p ≤ lnk.addr.layer → l + 1 ≠ p →
        ∃ nd', net'.getNode ⟨l + 1, j⟩ = some nd' ∧
          nd'.links[i]? = some ⟨lnk.k, lnk.w, lnk.c, ⟨lnk.addr.layer + 1, lnk.addr.node⟩⟩) ∧
      (∀ (l j : Nat) (nd : Node) (i : Nat) (lnk : Connection), net.getNode ⟨l, j⟩ = some nd → nd.links[i]? = some lnk →
        l + 1 = p →
        lnk.addr.layer = p ∧
          ∃ nd', net'.getNode ⟨l, j⟩ = some nd' ∧ nd'.links[i]? = some lnk) := by
  obtain ⟨net', hnet, hlen, hA, hB, hS, _, _⟩ := insertLayer_spec k w c hp hsz
  refine ⟨net', hnet, hlen, hB, hS, ?_, ?_⟩
  · intro l j nd i lnk hnd hlk ht hne
    have hl := (hlay ⟨l, j⟩ nd hnd lnk (List.mem_iff_getElem?.mpr ⟨i, hlk⟩)).1
    simp only at hl
    refine ⟨_, hB l j nd (by omega) hnd, ?_⟩
    simp only [List.getElem?_map, hlk, Option.map_some']
  · intro l j nd i lnk hnd hlk hl
    have ht := (hlay ⟨l, j⟩ nd hnd lnk (List.mem_iff_getElem?.mpr ⟨i, hlk⟩)).1
    simp only at ht
    refine ⟨by omega, _, hA l j nd (by omega) hnd, ?_⟩
    simp only
    rw [List.getElem?_append_left (lt_length_of_getElem? hlk), hlk]

theorem insertLayer_rewrites_targets_witness :
    ∃ net', (buildByConfig [2, 1, 2] (1/4) (1/2) 0).insertLayer 1 2 (1/3) (1/5) 0 = some net' ∧
      net'.mat.length = (buildByConfig [2, 1, 2] (1/4) (1/2) 0).mat.length + 1 ∧
      (∀ l j nd, 1 ≤ l → (buildByConfig [2, 1, 2] (1/4) (1/2) 0).getNode ⟨l, j⟩ = some nd →
        net'.getNode ⟨l + 1, j⟩ = some ⟨nd.s, nd.c, nd.links.map (fun lnk =>
          (⟨lnk.k, lnk.w, lnk.c, ⟨lnk.addr.layer + 1, lnk.addr.node⟩⟩ : Connection))⟩) ∧
      (∀ l j, 1 ≤ l → (net'.getNode ⟨l + 1, j⟩).isSome =
        ((buildByConfig [2, 1, 2] (1/4) (1/2) 0).getNode ⟨l, j⟩).isSome) ∧
      (∀ (l j : Nat) (nd : Node) (i : Nat) (lnk : Connection), (buildByConfig [2, 1, 2] (1/4) (1/2) 0).getNode ⟨l, j⟩ = some nd →
        nd.links[i]? = some lnk → 1 ≤ lnk.addr.layer → l + 1 ≠ 1 →
        ∃ nd', net'.getNode ⟨l + 1, j⟩ = some nd' ∧
          nd'.links[i]? = some ⟨lnk.k, lnk.w, lnk.c, ⟨lnk.addr.layer + 1, lnk.addr.node⟩⟩) ∧
      (∀ (l j : Nat) (nd : Node) (i : Nat) (lnk : Connection), (buildByConfig [2, 1, 2] (1/4) (1/2) 0).getNode ⟨l, j⟩ = some nd →
        nd.links[i]? = some lnk → l + 1 = 1 →
        lnk.addr.layer = 1 ∧
          ∃ nd', net'.getNode ⟨l, j⟩ = some nd' ∧ nd'.links[i]? = some lnk) :=
  insertLayer_rewrites_targets (buildByConfig [2, 1, 2] (1/4) (1/2) 0) 1 2 (1/3) (1/5) 0
    [⟨0, 0, [⟨1/4, 1/2, 0, ⟨2, 0⟩⟩, ⟨1/4, 1/2, 0, ⟨2, 1⟩⟩]⟩]
    (buildByConfig_layered [2, 1, 2] (1/4) (1/2) 0) rfl (by decide)

/-! ## The forward-target invariant -/

theorem getNode_isSome_iff (net : Network) (l j : Nat) :
    (net.getNode ⟨l, j⟩).isSome = true ↔ ∃ m, (net.mat[l]?).map List.length = some m ∧ j < m := by
  rw [getNode_eq_bind]
  cases h : net.mat[l]? with
  | none => simp
  | some layer =>
    simp only [Option.some_bind, Option.map_some', Option.some.injEq, exists_eq_left']
    constructor
    · intro hs
      obtain ⟨x, hx⟩ := Option.isSome_iff_exists.mp hs
      exact lt_length_of_getElem? hx
    · intro hj
      rw [List.getElem?_eq_getElem hj]
      rfl

theorem mem_branchLinks {k w c : ℚ} {target n b size : Nat} {lnk : Connection}
    (h : lnk ∈ branchLinks k w c target n b size) :
    lnk.addr.layer = target ∧ lnk.addr.node < size := by
  unfold branchLinks at h
  split at h
  · simp only [List.mem_map, List.mem_range'_1] at h
    obtain ⟨i, hi, rfl⟩ := h
    exact ⟨rfl, by simp only; omega⟩
  · simp at h

theorem buildByConfigBranching_layered {config branching : List Nat} {k w c : ℚ}
    {net : Network} (h : buildByConfigBranching config branching k w c = some net) :
    net.Layered := by
  cases hmat : buildBranchLayers k w c branching 0 config with
  | none => simp [buildByConfigBranching, hmat] at h
  | some mat =>
    simp only [buildByConfigBranching, hmat, Option.map_some', Option.some.injEq] at h
    subst h
    obtain ⟨hsz, hnodes⟩ := buildBranchLayers_spec config 0 mat hmat
    rintro ⟨l, i⟩ nd hnd lnk hlnk
    rw [getNode_eq_bind] at hnd
    obtain ⟨h1, h2⟩ := hnodes l i nd hnd
    cases hm : config[l + 1]? with
    | none =>
      rw [h1 hm] at hlnk
      cases hlnk
    | some m =>
      obtain ⟨b, _, hlk⟩ := h2 m hm
      rw [hlk] at hlnk
      obtain ⟨ha, hb⟩ := mem_branchLinks hlnk
      simp only [zero_add] at ha
      refine ⟨ha, ?_⟩
      show ((⟨mat⟩ : Network).getNode ⟨lnk.addr.layer, lnk.addr.node⟩).isSome = true
      rw [getNode_isSome_iff, ha]
      refine ⟨m, ?_, hb⟩
      rw [← List.getElem?_map, hsz, hm]

theorem expandLayer_layered {net net' : Network} {L newSize : Nat} {k w c : ℚ}
    (hlay : net.Layered) (h : net.expandLayer L newSize k w c = some net') : net'.Layered := by
  cases hL : net.mat[L]? with
  | none => simp [Network.expandLayer, hL] at h
  | some old =>
    have hsz : old.length ≤ newSize := by
      by_contra hc
      have h1 : ¬ newSize = old.length := by omega
      have h2 : newSize < old.length := by omega
      simp [Network.expandLayer, hL, h1, h2] at h
    obtain ⟨net2, hnet2, hlen, hLsz, hoth, hold, hnew⟩ := expandLayer_spec k w c hL hsz
    rw [h] at hnet2
    cases hnet2
    have hmono : ∀ a, (net.getNode a).isSome = true → (net'.getNode a).isSome = true := by
      rintro ⟨l, j⟩ hs
      obtain ⟨nd, hnd⟩ := Option.isSome_iff_exists.mp hs
      rw [hold l j nd hnd]
      rfl
    have hnewSome : ∀ i, i < newSize → (net'.getNode ⟨L, i⟩).isSome = true := by
      intro i hi
      rw [getNode_isSome_iff]
      exact ⟨newSize, hLsz, hi⟩
    rintro ⟨l, j⟩ nd' hnd' lnk hlnk
    have hsome : (net'.getNode ⟨l, j⟩).isSome = true := by simp [hnd']
    by_cases hex : (net.getNode ⟨l, j⟩).isSome = true
    · obtain ⟨nd, hnd⟩ := Option.isSome_iff_exists.mp hex
      rw [hold l j nd hnd] at hnd'
      cases hnd'
      simp only [List.mem_append] at hlnk
      rcases hlnk with hlnk | hlnk
      · obtain ⟨ha, hs⟩ := hlay _ nd hnd lnk hlnk
        exact ⟨ha, hmono _ hs⟩
      · by_cases h1 : l + 1 = L
        · simp only [h1, if_true, List.mem_map, List.mem_range'_1] at hlnk
          obtain ⟨i, hi, rfl⟩ := hlnk
          exact ⟨h1.symm, hnewSome i (by omega)⟩
        · simp [h1] at hlnk
    · have hlL : l = L := by
        by_contra hne
        apply hex
        rw [getNode_isSome_iff] at hsome ⊢
        rw [hoth l hne] at hsome
        exact hsome
      subst hlL
      obtain ⟨m, hm, hj⟩ := (getNode_isSome_iff net' l j).mp hsome
      rw [hLsz] at hm
      cases hm
      have hjold : old.length ≤ j := by
        by_contra hc
        apply hex
        rw [getNode_isSome_iff]
        exact ⟨old.length, by simp [hL], by omega⟩
      rw [hnew j hjold hj] at hnd'
      cases hnd'
      simp only [List.mem_map, List.mem_range] at hlnk
      obtain ⟨n, hn, rfl⟩ := hlnk
      refine ⟨rfl, hmono _ ?_⟩
      show (net.getNode ⟨l + 1, n⟩).isSome = true
      rw [getNode_isSome_iff]
      cases hnext : net.mat[l + 1]? with
      | none => simp [List.getD_eq_getElem?_getD, hnext] at hn
      | some layer =>
        refine ⟨layer.length, rfl, ?_⟩
        simpa [List.getD_eq_getElem?_getD, hnext] using hn

theorem insertLayer_layered {net net' : Network} {p numNodes : Nat} {k w c : ℚ}
    (hlay : net.Layered) (h : net.insertLayer p numNodes k w c = some net') : net'.Layered := by
  cases hp : net.mat[p]? with
  | none => simp [Network.insertLayer, hp] at h
  | some old =>
    have hsz : old.length ≤ numNodes := by
      by_contra hc
      have h2 : numNodes < old.length := by omega
      simp [Network.insertLayer, hp, h2] at h
    have hold : ∀ j, (net.getNode ⟨p, j⟩).isSome = true → j < numNodes := by
      intro j hj
      obtain ⟨m, hm, hjm⟩ := (getNode_isSome_iff net p j).mp hj
      simp only [hp, Option.map_some', Option.some.injEq] at hm
      omega
    rintro ⟨l, j⟩ n hn lnk hl
    rw [insertLayer_getNode hp hsz h] at hn
    by_cases h1 : l < p
    · simp only [h1, if_true] at hn
      cases hn0 : net.getNode ⟨l, j⟩ with
      | none => simp [hn0] at hn
      | some n0 =>
        simp only [hn0, Option.map_some', Option.some.injEq] at hn
        have hkeep : ∀ lnk0 ∈ n0.links, lnk0.addr.layer = l + 1 ∧
            (net'.getNode lnk0.addr).isSome = true := by
          intro lnk0 hl0
          obtain ⟨ha, hs⟩ := hlay _ n0 hn0 lnk0 hl0
          refine ⟨ha, ?_⟩
          simp only at ha
          have hs' : (net.getNode ⟨l + 1, lnk0.addr.node⟩).isSome = true := by
            rw [← ha]
            exact hs
          show (net'.getNode ⟨lnk0.addr.layer, lnk0.addr.node⟩).isSome = true
          rw [insertLayer_getNode hp hsz h, ha]
          by_cases h3 : l + 1 < p
          · simp only [h3, if_true]
            cases hx : net.getNode ⟨l + 1, lnk0.addr.node⟩ with
            | none => simp [hx] at hs'
            | some x => rfl
          · have h4 : l + 1 = p := by omega
            subst h4
            simp [hold _ hs']
        by_cases h2 : l + 1 = p
        · simp only [h2, if_true] at hn
          subst hn
          simp only [List.mem_append] at hl
          rcases hl with hl | hl
          · exact hkeep lnk hl
          · simp only [extraLinks, List.mem_map, List.mem_range'_1] at hl
            obtain ⟨i, hi, rfl⟩ := hl
            refine ⟨h2.symm, ?_⟩
            rw [insertLayer_getNode hp hsz h]
            have hi' : i < numNodes := by omega
            simp [hi']
        · simp only [h2, if_false] at hn
          subst hn
          exact hkeep lnk hl
    · simp only [h1, if_false] at hn
      by_cases h2 : l = p
      · subst h2
        simp only [if_true] at hn
        by_cases hj : j < numNodes
        · simp only [hj, if_true, Option.some.injEq] at hn
          subst hn
          simp only [insertedNode, List.mem_map, List.mem_range] at hl
          obtain ⟨i, hi, rfl⟩ := hl
          refine ⟨rfl, ?_⟩
          rw [insertLayer_getNode hp hsz h]
          have hn0 : (net.getNode ⟨l, i⟩).isSome = true := by
            rw [getNode_of_layer hp, List.getElem?_eq_getElem hi]
            rfl
          simpa using hn0
        · simp [hj] at hn
      · simp only [h2, if_false] at hn
        cases hn0 : net.getNode ⟨l - 1, j⟩ with
        | none => simp [hn0] at hn
        | some n0 =>
          simp only [hn0, Option.map_some', Option.some.injEq] at hn
          subst hn
          simp only [shiftLinks, List.mem_map] at hl
          obtain ⟨lnk0, hl0, rfl⟩ := hl
          obtain ⟨ha, hs⟩ := hlay _ n0 hn0 lnk0 hl0
          simp only at ha
          refine ⟨by simp only; omega, ?_⟩
          rw [insertLayer_getNode hp hsz h]
          have h5 : ¬ (lnk0.addr.layer + 1 < p) := by omega
          have h6 : ¬ (lnk0.addr.layer + 1 = p) := by omega
          simp only [h5, h6, if_false, Nat.add_sub_cancel]
          have hs' : (net.getNode ⟨lnk0.addr.layer, lnk0.addr.node⟩).isSome = true := hs
          simpa using hs'

theorem applyEdit_layered {net net' : Network} {e : Edit} (hlay : net.Layered)
    (h : net.applyEdit e = some net') : net'.Layered := by
  cases e with
  | expand layer numNodes k w c => exact expandLayer_layered hlay h
  | insert layer numNodes k w c => exact insertLayer_layered hlay h

theorem applyEdits_layered (edits : List Edit) :
    ∀ {net net' : Network}, net.Layered → net.applyEdits edits = some net' → net'.Layered := by
  induction edits with
  | nil =>
    intro net net' hlay h
    simp only [Network.applyEdits, List.foldlM_nil] at h
    cases h
    exact hlay
  | cons e rest ih =>
    intro net net' hlay h
    simp only [Network.applyEdits, List.foldlM_cons] at h
    cases h1 : net.applyEdit e with
    | none => simp [h1] at h
    | some net1 =>
      simp only [h1] at h
      exact ih (applyEdit_layered hlay h1) h

theorem applyEdit_isSome_iff (net : Network) (e : Edit) :
    (net.applyEdit e).isSome = true ↔ e.Valid net := by
  cases e with
  | expand layer numNodes k w c =>
    simp only [Network.applyEdit, Edit.Valid]
    constructor
    · intro h
      cases hL : net.mat[layer]? with
      | none => simp [Network.expandLayer, hL] at h
      | some old =>
        refine ⟨old, rfl, ?_⟩
        by_contra hc
        have h1 : ¬ numNodes = old.length := by omega
        have h2 : numNodes < old.length := by omega
        simp [Network.expandLayer, hL, h1, h2] at h
    · rintro ⟨old, hL, hsz⟩
      obtain ⟨net', hnet', _⟩ := expandLayer_spec k w c hL hsz
      simp [hnet']
  | insert layer numNodes k w c =>
    simp only [Network.applyEdit, Edit.Valid]
    constructor
    · intro h
      cases hL : net.mat[layer]? with
      | none => simp [Network.insertLayer, hL] at h
      | some old =>
        refine ⟨old, rfl, ?_⟩
        by_contra hc
        have h2 : numNodes < old.length := by omega
        simp [Network.insertLayer, hL, h2] at h
    · rintro ⟨old, hL, hsz⟩
      simp [insertLayer_eq k w c hL hsz]

/-- C18: forward-target invariant. Every network obtained from the uniform or the
branching builder by a finite sequence of `expandLayer` and `insertLayer` calls, each
of which returns (a call returns exactly when its arguments are valid: layer index in
range and new size not smaller than the size of the layer at that index), satisfies:
the target layer index of every connection is strictly greater than the layer index of
its source node, and its target node index names an existing node of that layer. -/
theorem forward_target_invariant (config branching : List Nat) (k w c : ℚ)
    (start net' : Network) (edits : List Edit)
    (hstart : start = buildByConfig config k w c ∨
      buildByConfigBranching config branching k w c = some start)
    (hedits : start.applyEdits edits = some net') :
    (∀ a n, net'.getNode a = some n → ∀ lnk ∈ n.links,
      a.layer < lnk.addr.layer ∧ (net'.getNode lnk.addr).isSome = true) ∧
    net'.Forward ∧ ∀ e : Edit, (net'.applyEdit e).isSome = true ↔ e.Valid net' := by
  have hs : start.Layered := by
    rcases hstart with h | h
    · rw [h]
      exact buildByConfig_layered config k w c
    · exact buildByConfigBranching_layered h
  have hl := applyEdits_layered edits hs hedits
  exact ⟨(forward_iff_getNode net').mp hl.forward, hl.forward, applyEdit_isSome_iff net'⟩

theorem forward_target_invariant_witness :
    (∀ a n, (⟨[[⟨0, 0, [⟨1/4, 1/2, 0, ⟨1, 0⟩⟩]⟩],
        [⟨0, 0, [⟨1, 1, 0, ⟨2, 0⟩⟩, ⟨1/3, 1/5, 0, ⟨2, 1⟩⟩]⟩],
        [⟨0, 0, []⟩, ⟨0, 0, []⟩]]⟩ : Network).getNode a = some n → ∀ lnk ∈ n.links,
      a.layer < lnk.addr.layer ∧
        ((⟨[[⟨0, 0, [⟨1/4, 1/2, 0, ⟨1, 0⟩⟩]⟩],
          [⟨0, 0, [⟨1, 1, 0, ⟨2, 0⟩⟩, ⟨1/3, 1/5, 0, ⟨2, 1⟩⟩]⟩],
          [⟨0, 0, []⟩, ⟨0, 0, []⟩]]⟩ : Network).getNode lnk.addr).isSome = true) ∧
    (⟨[[⟨0, 0, [⟨1/4, 1/2, 0, ⟨1, 0⟩⟩]⟩],
        [⟨0, 0, [⟨1, 1, 0, ⟨2, 0⟩⟩, ⟨1/3, 1/5, 0, ⟨2, 1⟩⟩]⟩],
        [⟨0, 0, []⟩, ⟨0, 0, []⟩]]⟩ : Network).Forward ∧
    ∀ e : Edit, ((⟨[[⟨0, 0, [⟨1/4, 1/2, 0, ⟨1, 0⟩⟩]⟩],
        [⟨0, 0, [⟨1, 1, 0, ⟨2, 0⟩⟩, ⟨1/3, 1/5, 0, ⟨2, 1⟩⟩]⟩],
        [⟨0, 0, []⟩, ⟨0, 0, []⟩]]⟩ : Network).applyEdit e).isSome = true ↔
      e.Valid ⟨[[⟨0, 0, [⟨1/4, 1/2, 0, ⟨1, 0⟩⟩]⟩],
        [⟨0, 0, [⟨1, 1, 0, ⟨2, 0⟩⟩, ⟨1/3, 1/5, 0, ⟨2, 1⟩⟩]⟩],
        [⟨0, 0, []⟩, ⟨0, 0, []⟩]]⟩ :=
  forward_target_invariant [1, 1] [] (1/4) (1/2) 0 (buildByConfig [1, 1] (1/4) (1/2) 0) _
    [.insert 1 1 (1/3) (1/5) 0, .expand 2 2 (1/3) (1/5) 0] (Or.inl rfl) (by decide!)

/-! ## All-zero input on a uniform network with `(k, w, c) = (0, 1, 0)` -/

theorem buildByConfig_getD (config : List Nat) (k w c : ℚ) (l n : Nat)
    (hn : config[l]? = some n) :
    (buildByConfig config k w c).mat.getD l [] =
      List.replicate n (⟨0, 0, match config[l + 1]? with
        | some m => uniformLinks k w c (l + 1) m
        | none => []⟩ : Node) := by
  rw [List.getD_eq_getElem?_getD, buildByConfig_layer, hn]
  rfl

theorem signalFactor_replicate (n : Nat) (nd : Node) (t : NodeAddr) :
    signalFactor (List.replicate n nd) t =
      (linkProd (fun lnk => 1 - lnk.w * attenuation nd lnk) nd.links t) ^ n := by
  rw [signalFactor_eq, List.map_replicate, List.prod_replicate]

theorem layerVal_zero_input (config : List Nat) (hpos : ∀ n ∈ config, 0 < n)
    (input : List ℚ) (hin : input = List.replicate (config.headD 0) 0) :
    ∀ l n, config[l]? = some n →
      layerVal (buildByConfig config 0 1 0) input l =
        List.replicate n (⟨if l % 2 = 0 then 0 else 1, 1, match config[l + 1]? with
          | some m => uniformLinks 0 1 0 (l + 1) m
          | none => []⟩ : Node) := by
  intro l
  induction l with
  | zero =>
    intro n hn
    have hhd : config.headD 0 = n := by
      cases config with
      | nil => simp at hn
      | cons a rest =>
        simp only [List.getElem?_cons_zero, Option.some.injEq] at hn
        simpa using hn
    rw [layerVal, buildByConfig_getD config 0 1 0 0 n hn, hin, hhd, List.zipWith_replicate]
    simp
  | succ l ih =>
    intro m hm
    have hl : l < config.length := by
      have := lt_length_of_getElem? hm
      omega
    have hprev := ih config[l] (List.getElem?_eq_getElem hl)
    have hnpos : 0 < config[l] := hpos _ (List.getElem_mem hl)
    rw [layerVal, buildByConfig_getD config 0 1 0 (l + 1) m hm, hprev, hm]
    apply List.ext_getElem?
    intro t
    rw [List.getElem?_mapIdx, List.getElem?_replicate, List.getElem?_replicate]
    by_cases ht : t < m
    · simp only [ht, if_true, Option.map_some', Option.some.injEq]
      have hs : signalFactor (List.replicate config[l]
          (⟨if l % 2 = 0 then 0 else 1, 1, uniformLinks 0 1 0 (l + 1) m⟩ : Node)) ⟨l + 1, t⟩ =
          if (l + 1) % 2 = 0 then 0 else 1 := by
        rw [signalFactor_replicate]
        simp only [uniformLinks]
        rw [linkProd_range _ _ _ _ _ ht (fun _ => rfl)]
        simp only [attenuation]
        by_cases hp : l % 2 = 0
        · have hp' : ¬ ((l + 1) % 2 = 0) := by omega
          simp [hp, hp']
        · have hp' : (l + 1) % 2 = 0 := by omega
          simp only [hp, hp', if_false, if_true]
          norm_num
          omega
      have hc : condFactor (List.replicate config[l]
          (⟨if l % 2 = 0 then 0 else 1, 1, uniformLinks 0 1 0 (l + 1) m⟩ : Node)) ⟨l + 1, t⟩ =
          1 := by
        apply condFactor_noCond
        intro x hx lnk hlnk
        rw [List.mem_replicate] at hx
        rw [hx.2] at hlnk
        simp only [uniformLinks, List.mem_map] at hlnk
        obtain ⟨i, _, rfl⟩ := hlnk
        rfl
      rw [hs, hc]
    · simp [ht]

theorem zero_input_run (config : List Nat) (hpos : ∀ n ∈ config, 0 < n)
    (hlen : 2 ≤ config.length) :
    ∃ r st n, (buildByConfig config 0 1 0).reset = some r ∧
      r.loadRun (List.replicate (config.headD 0) 0) = some st ∧
      config.getLast? = some n ∧
      st.output = some (List.replicate n (if config.length % 2 = 0 then 1 else 0)) := by
  have hsz := buildByConfig_sizes config 0 1 0
  have hmlen : (buildByConfig config 0 1 0).mat.length = config.length := by
    simpa using congrArg List.length hsz
  have hne : (buildByConfig config 0 1 0).mat ≠ [] := by
    intro h
    rw [h] at hmlen
    simp at hmlen
    omega
  obtain ⟨r, hr, hrt, _, _⟩ := reset_spec hne
  have hhead : config.head? = some (config.headD 0) := by
    cases config with
    | nil => simp at hlen
    | cons a rest => rfl
  have hin : (buildByConfig config 0 1 0).mat.head?.map List.length =
      some (List.replicate (config.headD 0) (0 : ℚ)).length := by
    rw [buildByConfig_head, hhead]
    simp
  have hinr : r.mat.head?.map List.length =
      some (List.replicate (config.headD 0) (0 : ℚ)).length := by
    rw [head_of_topology hrt]
    exact hin
  have hlast : config.length - 1 < config.length := by omega
  refine ⟨r, stateUpTo (buildByConfig config 0 1 0) (List.replicate (config.headD 0) 0)
    ((buildByConfig config 0 1 0).mat.length - 1), config[config.length - 1], hr, ?_, ?_, ?_⟩
  · rw [loadRun_congr hrt hinr]
    exact loadRun_layered (buildByConfig_layered config 0 1 0) hin
  · rw [List.getLast?_eq_getElem?, List.getElem?_eq_getElem hlast]
  · rw [output_stateUpTo (by omega), hmlen,
      layerVal_zero_input config hpos _ rfl _ _ (List.getElem?_eq_getElem hlast)]
    simp only [List.map_replicate]
    congr 2
    by_cases hp : config.length % 2 = 0
    · have hp' : ¬ ((config.length - 1) % 2 = 0) := by omega
      simp [hp, hp']
    · have hp' : (config.length - 1) % 2 = 0 := by omega
      simp [hp, hp']

/-- C20 (as stated, refuted): on the uniform network with sizes `[1, 1, 1]` and
`(k, w, c) = (0, 1, 0)`, after `reset`, `loadInput([0])` and `run` the node of the last
layer has signal `0`, not `1`: the middle node has signal `1` and switches it off. -/
theorem zero_input_three_layers :
    ∃ r st, (buildByConfig [1, 1, 1] 0 1 0).reset = some r ∧
      r.loadRun [0] = some st ∧ st.output = some [0] ∧ st.output ≠ some [1] := by
  refine ⟨_, ⟨[[⟨0, 1, [⟨0, 1, 0, ⟨1, 0⟩⟩]⟩], [⟨1, 1, [⟨0, 1, 0, ⟨2, 0⟩⟩]⟩], [⟨0, 1, []⟩]]⟩, rfl,
    by decide!, by decide!, by decide!⟩

/-- C20 (amended): all-zero input on the demo parameters. For every list of positive
layer sizes with at least two layers, on the network built by the uniform builder with
`(k, w, c) = (0, 1, 0)`, `reset` followed by `loadInput` of the all-zero input of layer-0
length and `run` returns, and every node of the last layer has signal `1` when the
number of layers is even and signal `0` when it is odd. -/
theorem zero_input_output (config : List Nat) (hpos : ∀ n ∈ config, 0 < n)
    (hlen : 2 ≤ config.length) :
    ∃ r st n, (buildByConfig config 0 1 0).reset = some r ∧
      r.loadRun (List.replicate (config.headD 0) 0) = some st ∧
      config.getLast? = some n ∧
      st.output = some (List.replicate n (if config.length % 2 = 0 then 1 else 0)) :=
  zero_input_run config hpos hlen

theorem zero_input_output_witness :
    ∃ r st n, (buildByConfig [2, 3, 1, 2] 0 1 0).reset = some r ∧
      r.loadRun (List.replicate ([2, 3, 1, 2].headD 0) 0) = some st ∧
      [2, 3, 1, 2].getLast? = some n ∧
      st.output = some (List.replicate n (if [2, 3, 1, 2].length % 2 = 0 then 1 else 0)) :=
  zero_input_output [2, 3, 1, 2] (by decide) (by decide)

/-! ## Re-propagation from a layer agrees with a full run -/

theorem stateUpTo_getNode_succ {net : Network} {input : List ℚ} {j l t : Nat} {nd : Node}
    (hl : l + 1 ≤ j) (h : (stateUpTo net input j).getNode ⟨l + 1, t⟩ = some nd) :
    nd.s = signalFactor (layerVal net input l) ⟨l + 1, t⟩ ∧
      nd.c = condFactor (layerVal net input l) ⟨l + 1, t⟩ := by
  rw [getNode_eq_bind, stateUpTo_layer] at h
  cases hm : net.mat[l + 1]? with
  | none => simp [hm] at h
  | some layer =>
    simp only [hm, Option.map_some', hl, if_true, Option.some_bind, layerVal,
      getD_of_getElem? hm, List.getElem?_mapIdx] at h
    cases hn : layer[t]? with
    | none => simp [hn] at h
    | some n0 =>
      simp only [hn, Option.map_some', Option.some.injEq] at h
      subst h
      exact ⟨rfl, rfl⟩

theorem stateUpTo_mat_length (net : Network) (input : List ℚ) (j : Nat) :
    (stateUpTo net input j).mat.length = net.mat.length := by
  simp [stateUpTo]

theorem reflow_step_layered {net S : Network} {input : List ℚ} (hlay : net.Layered)
    (hin : net.mat.head?.map List.length = some input.length) {x j : Nat}
    (hx : x + 1 < net.mat.length) (hj : x + 1 ≤ j) (htop : S.topology = net.topology)
    (hinv : ∀ b nd, b.layer ≤ x → (stateUpTo net input j).getNode b = some nd →
      S.getNode b = some nd) :
    ∃ r1 S', S.resetLayer (x + 1) = some r1 ∧ r1.flow x = some S' ∧
      S'.topology = net.topology ∧
      ∀ b nd, b.layer ≤ x + 1 → (stateUpTo net input j).getNode b = some nd →
        S'.getNode b = some nd := by
  have hTtop := stateUpTo_topology hin j
  have hSlay : S.Layered := layered_of_topology htop hlay
  have hSlen : S.mat.length = net.mat.length := length_of_topology htop
  obtain ⟨r1, S', layer, hr1, hS', hlayer, htop', hkeep, hnew⟩ :=
    @reflow_step S hSlay.forward x (by omega)
  have hTx : (stateUpTo net input j).mat[x]? = some (layerVal net input x) := by
    rw [stateUpTo_layer, List.getElem?_eq_getElem (by omega : x < net.mat.length)]
    simp only [Option.map_some', Option.some.injEq, ite_eq_left_iff]
    intro hc
    omega
  have hlay_eq : layer = layerVal net input x := by
    have hlen : layer.length = (layerVal net input x).length := by
      have h1 := congrArg (fun m => m[x]?) (topology_length (htop.trans hTtop.symm))
      simp only [List.getElem?_map, hlayer, hTx, Option.map_some', Option.some.injEq] at h1
      exact h1
    apply List.ext_getElem?
    intro i
    cases hi : (layerVal net input x)[i]? with
    | none =>
      have : (layerVal net input x).length ≤ i := by
        by_contra hc
        rw [List.getElem?_eq_getElem (by omega)] at hi
        cases hi
      exact List.getElem?_eq_none (by omega)
    | some nd =>
      have hT : (stateUpTo net input j).getNode ⟨x, i⟩ = some nd := by
        rw [getNode_of_layer hTx]
        exact hi
      have := hinv ⟨x, i⟩ nd (le_refl x) hT
      rw [getNode_of_layer hlayer] at this
      exact this
  refine ⟨r1, S', hr1, hS', htop'.trans htop, ?_⟩
  rintro ⟨bl, bn⟩ nd hb hT
  simp only at hb
  by_cases hbx : bl ≤ x
  · exact hkeep ⟨bl, bn⟩ nd hbx (hinv ⟨bl, bn⟩ nd hbx hT)
  · have hbl : bl = x + 1 := by omega
    subst hbl
    obtain ⟨sn, hsn, hlinks⟩ := topology_getNode (htop.trans hTtop.symm) hT
    rw [hnew ⟨x + 1, bn⟩ sn rfl hsn, hlay_eq]
    obtain ⟨h1, h2⟩ := stateUpTo_getNode_succ hj hT
    rw [← h1, ← h2]
    congr 1
    cases nd
    cases sn
    simp only at hlinks
    simp [hlinks]

theorem reflow_layered {net : Network} {input : List ℚ} (hlay : net.Layered)
    (hin : net.mat.head?.map List.length = some input.length) (count : Nat) :
    ∀ (start : Nat) (S : Network), start + count + 1 = net.mat.length →
      S.topology = net.topology →
      (∀ b nd, b.layer ≤ start →
        (stateUpTo net input (net.mat.length - 1)).getNode b = some nd →
        S.getNode b = some nd) →
      (List.range' start count).foldlM
        (fun cur n =>
          match cur.resetLayer (n + 1) with
          | none => none
          | some r => r.flow n) S = some (stateUpTo net input (net.mat.length - 1)) := by
  induction count with
  | zero =>
    intro start S hlen htop hinv
    simp only [List.range'_zero, List.foldlM_nil]
    have hTtop := stateUpTo_topology hin (net.mat.length - 1)
    have : stateUpTo net input (net.mat.length - 1) = S := by
      apply network_ext (topology_length (hTtop.trans htop.symm))
      intro a nd ha
      have hmem := (getNode_mem ha).1
      rw [stateUpTo_mat_length] at hmem
      exact hinv a nd (by omega) ha
    rw [this]
    rfl
  | succ count ih =>
    intro start S hlen htop hinv
    obtain ⟨r1, S', hr1, hS', htop', hinv'⟩ :=
      reflow_step_layered hlay hin (by omega : start + 1 < net.mat.length)
        (by omega : start + 1 ≤ net.mat.length - 1) htop hinv
    rw [List.range'_succ, List.foldlM_cons]
    simp only [hr1, hS']
    exact ih (start + 1) S' (by omega) htop' hinv'

theorem getD_length_of_shape {net1 net2 : Network}
    (h : net1.mat.map List.length = net2.mat.map List.length) (l : Nat) :
    (net1.mat.getD l []).length = (net2.mat.getD l []).length := by
  have h1 := congrArg (fun m => m[l]?) h
  simp only [List.getElem?_map] at h1
  simp only [List.getD_eq_getElem?_getD]
  cases h1a : net1.mat[l]? <;> cases h2a : net2.mat[l]? <;> simp_all

theorem node_list_ext {l1 l2 : List Node}
    (hs : l1.map (fun nd => (nd.s, nd.c)) = l2.map (fun nd => (nd.s, nd.c)))
    (hl : l1.map (fun nd => nd.links) = l2.map (fun nd => nd.links)) : l1 = l2 := by
  apply List.ext_getElem?
  intro i
  have h1 := congrArg (fun m => m[i]?) hs
  have h2 := congrArg (fun m => m[i]?) hl
  simp only [List.getElem?_map] at h1 h2
  cases ha : l1[i]? with
  | none =>
    cases hb : l2[i]? with
    | none => rfl
    | some b => simp [ha, hb] at h1
  | some a =>
    cases hb : l2[i]? with
    | none => simp [ha, hb] at h1
    | some b =>
      simp only [ha, hb, Option.map_some', Option.some.injEq, Prod.mk.injEq] at h1 h2
      cases a
      cases b
      simp_all

theorem layerVal_congr {net1 net2 : Network} {input : List ℚ}
    (hin1 : net1.mat.head?.map List.length = some input.length)
    (hin2 : net2.mat.head?.map List.length = some input.length)
    (hshape : net1.mat.map List.length = net2.mat.map List.length) :
    ∀ l, (∀ l', l' < l → (net1.mat.getD l' []).map (fun nd => nd.links) =
        (net2.mat.getD l' []).map (fun nd => nd.links)) →
      (layerVal net1 input l).map (fun nd => (nd.s, nd.c)) =
        (layerVal net2 input l).map (fun nd => (nd.s, nd.c)) := by
  intro l
  induction l with
  | zero =>
    intro _
    have hlen := getD_length_of_shape hshape 0
    apply List.ext_getElem?
    intro i
    simp only [layerVal, List.getElem?_map, List.getElem?_zipWith]
    by_cases hi : i < (net1.mat.getD 0 []).length
    · have e1 : (net1.mat.getD 0 [])[i]? = some (net1.mat.getD 0 [])[i] :=
        List.getElem?_eq_getElem hi
      obtain ⟨x, e2⟩ : ∃ x, (net2.mat.getD 0 [])[i]? = some x :=
        ⟨_, List.getElem?_eq_getElem (by omega)⟩
      rw [e1, e2]
      cases input[i]? <;> rfl
    · have e1 : (net1.mat.getD 0 [])[i]? = none := List.getElem?_eq_none (by omega)
      have e2 : (net2.mat.getD 0 [])[i]? = none := List.getElem?_eq_none (by omega)
      rw [e1, e2]
  | succ l ih =>
    intro hlinks
    have hstate := ih (fun l' hl' => hlinks l' (by omega))
    have hfull : layerVal net1 input l = layerVal net2 input l := by
      apply node_list_ext hstate
      rw [layerVal_links hin1, layerVal_links hin2]
      exact hlinks l (by omega)
    have hlen := getD_length_of_shape hshape (l + 1)
    apply List.ext_getElem?
    intro i
    simp only [layerVal, List.getElem?_map, List.getElem?_mapIdx, hfull]
    by_cases hi : i < (net1.mat.getD (l + 1) []).length
    · have e1 : (net1.mat.getD (l + 1) [])[i]? = some (net1.mat.getD (l + 1) [])[i] :=
        List.getElem?_eq_getElem hi
      obtain ⟨x, e2⟩ : ∃ x, (net2.mat.getD (l + 1) [])[i]? = some x :=
        ⟨_, List.getElem?_eq_getElem (by omega)⟩
      rw [e1, e2]
      rfl
    · have e1 : (net1.mat.getD (l + 1) [])[i]? = none := List.getElem?_eq_none (by omega)
      have e2 : (net2.mat.getD (l + 1) [])[i]? = none := List.getElem?_eq_none (by omega)
      rw [e1, e2]

theorem layered_of_skeleton {net1 net2 : Network} (h : net1.skeleton = net2.skeleton)
    (hl : net2.Layered) : net1.Layered := by
  intro a n1 hn1 lnk hlnk
  obtain ⟨n2, hn2, hlinks⟩ := skeleton_getNode h.symm hn1
  have hmem : lnk.addr ∈ n2.links.map (fun l => l.addr) := by
    rw [hlinks]
    exact List.mem_map_of_mem _ hlnk
  obtain ⟨l2, hl2, he⟩ := List.mem_map.mp hmem
  rw [← he]
  obtain ⟨h1, h2⟩ := hl a n2 hn2 l2 hl2
  exact ⟨h1, skeleton_isSome h h2⟩

theorem head_of_shape {net1 net2 : Network}
    (h : net1.mat.map List.length = net2.mat.map List.length) :
    net1.mat.head?.map List.length = net2.mat.head?.map List.length := by
  have := congrArg List.head? h
  simpa [List.head?_map] using this

theorem getLast?_of_shape {net1 net2 : Network}
    (h : net1.mat.map List.length = net2.mat.map List.length) :
    net1.mat.getLast?.map List.length = net2.mat.getLast?.map List.length := by
  have := congrArg List.getLast? h
  simpa [List.getLast?_map] using this

theorem stateUpTo_getNode_val {net : Network} {input : List ℚ} {j : Nat} {b : NodeAddr}
    {nd : Node} (hb : b.layer ≤ j) (h : (stateUpTo net input j).getNode b = some nd) :
    (layerVal net input b.layer)[b.node]? = some nd := by
  obtain ⟨bl, bn⟩ := b
  simp only at hb
  rw [getNode_eq_bind, stateUpTo_layer] at h
  cases hm : net.mat[bl]? with
  | none => simp [hm] at h
  | some layer => simpa [hm, hb] using h

theorem recalculateError_layered {net0 st changed : Network} {input expected : List ℚ}
    {L : Nat} (hlay : net0.Layered)
    (hin : net0.mat.head?.map List.length = some input.length)
    (hexp : net0.mat.getLast?.map List.length = some expected.length)
    (hL : L + 1 < net0.mat.length)
    (hrun : net0.loadRun input = some st)
    (hskel : changed.skeleton = st.skeleton)
    (hstate : changed.mat.map (List.map (fun nd => (nd.s, nd.c))) =
      st.mat.map (List.map (fun nd => (nd.s, nd.c))))
    (hkeep : changed.mat.take L = st.mat.take L) :
    ∃ err r, changed.recalculateError L expected = some (err, r) ∧
      changed.calculateError [⟨input, expected⟩] = some (err, r) ∧
      changed.loadRun input = some r := by
  rw [loadRun_layered hlay hin] at hrun
  cases hrun
  have hst_top := stateUpTo_topology hin (net0.mat.length - 1)
  have hst_lay := layered_of_topology hst_top hlay
  have hclay : changed.Layered := layered_of_skeleton hskel hst_lay
  have hshape := skeleton_length hskel
  have hshape0 : changed.mat.map List.length = net0.mat.map List.length :=
    hshape.trans (topology_length hst_top)
  have hcin : changed.mat.head?.map List.length = some input.length := by
    rw [head_of_shape hshape0]
    exact hin
  have hclen : changed.mat.length = net0.mat.length := by
    simpa using congrArg List.length hshape0
  have hTtop := stateUpTo_topology hcin (changed.mat.length - 1)
  have hrunc := loadRun_layered hclay hcin
  have hlinks : ∀ l', l' < L → (changed.mat.getD l' []).map (fun nd => nd.links) =
      (net0.mat.getD l' []).map (fun nd => nd.links) := by
    intro l' hl'
    have h1 : changed.mat[l']? = (stateUpTo net0 input (net0.mat.length - 1)).mat[l']? := by
      have := congrArg (fun m => m[l']?) hkeep
      simpa [List.getElem?_take, hl'] using this
    have h2 := congrArg (fun m => m[l']?) hst_top
    simp only [Network.topology, List.getElem?_map] at h2
    simp only [List.getD_eq_getElem?_getD, h1]
    cases ha : (stateUpTo net0 input (net0.mat.length - 1)).mat[l']? with
    | none =>
      cases hb : net0.mat[l']? with
      | none => rfl
      | some y => simp [ha, hb] at h2
    | some x =>
      cases hb : net0.mat[l']? with
      | none => simp [ha, hb] at h2
      | some y => simpa [ha, hb] using h2
  have hinv : ∀ b nd, b.layer ≤ L →
      (stateUpTo changed input (changed.mat.length - 1)).getNode b = some nd →
      changed.getNode b = some nd := by
    intro b nd hb hT
    obtain ⟨cn, hcn, hcl⟩ := topology_getNode hTtop.symm hT
    obtain ⟨sn, hsn, hsv⟩ := view_getNode (fun (n : Node) => (n.s, n.c)) hstate.symm hcn
    have hv1 := stateUpTo_getNode_val (by omega) hT
    have hv0 := stateUpTo_getNode_val (by omega) hsn
    have hcong := layerVal_congr hcin hin hshape0 b.layer
      (fun l' hl' => hlinks l' (by omega))
    have := congrArg (fun m => m[b.node]?) hcong
    simp only [List.getElem?_map, hv1, hv0, Option.map_some', Option.some.injEq,
      Prod.mk.injEq] at this
    simp only [Prod.mk.injEq] at hsv
    rw [hcn]
    congr 1
    cases cn
    cases nd
    simp only at hcl hsv this
    simp only [Node.mk.injEq]
    exact ⟨by rw [← hsv.1, ← this.1], by rw [← hsv.2, ← this.2], hcl⟩
  have hreflow : changed.reflow L =
      some (stateUpTo changed input (changed.mat.length - 1)) := by
    unfold Network.reflow
    exact reflow_layered hclay hcin (changed.mat.length - 1 - L) L changed (by omega) rfl hinv
  have hlastlen : (stateUpTo changed input (changed.mat.length - 1)).mat.getLast?.map
      List.length = some expected.length := by
    rw [getLast?_of_shape (topology_length hTtop), getLast?_of_shape hshape0]
    exact hexp
  cases hlast : (stateUpTo changed input (changed.mat.length - 1)).mat.getLast? with
  | none => simp [hlast] at hlastlen
  | some last =>
    have hll : last.length = expected.length := by simpa [hlast] using hlastlen
    obtain ⟨err, herr, _, _⟩ := sqErrAcc_spec last expected 0 hll
    refine ⟨err, _, ?_, ?_, hrunc⟩
    · simp only [Network.recalculateError, hreflow, hlast, herr]
    · simp only [Network.calculateError, List.foldlM_cons, List.foldlM_nil, Network.errorStep,
        hrunc, hlast, herr]
      rfl

/-- C11: `recalculateError` agrees with a full re-run. Let `st` be the state of a network
built by the uniform builder after `loadInput(input); run()`, with `input` of layer-0
length, and let `changed` be `st` with any parameters of connections whose source node
lies in a layer `≥ L` changed (same nodes, same signals and conductivities, same
connection targets, layers below `L` identical), for a layer index `L` below the last
layer. Then for every expected vector of output-layer length,
`recalculateError(L, expected)` on `changed` returns the same squared error, and leaves
the same network state (in particular the same last-layer signals), as
`calculateError` on the single sample `(input, expected)`, that is as a complete
`loadInput(input); run()` on `changed` compared against `expected`. -/
theorem recalculateError_agrees (config : List Nat) (k w c : ℚ) (input expected : List ℚ)
    (L : Nat) (st changed : Network)
    (hin : config.head? = some input.length)
    (hexp : config.getLast? = some expected.length)
    (hL : L + 1 < config.length)
    (hrun : (buildByConfig config k w c).loadRun input = some st)
    (hskel : changed.skeleton = st.skeleton)
    (hstate : changed.mat.map (List.map (fun nd => (nd.s, nd.c))) =
      st.mat.map (List.map (fun nd => (nd.s, nd.c))))
    (hkeep : changed.mat.take L = st.mat.take L) :
    ∃ err r, changed.recalculateError L expected = some (err, r) ∧
      changed.calculateError [⟨input, expected⟩] = some (err, r) ∧
      changed.loadRun input = some r := by
  have hsz := buildByConfig_sizes config k w c
  have hlen : (buildByConfig config k w c).mat.length = config.length := by
    simpa using congrArg List.length hsz
  refine recalculateError_layered (buildByConfig_layered config k w c) ?_ ?_ (by omega) hrun
    hskel hstate hkeep
  · rw [buildByConfig_head, hin]
  · have := congrArg List.getLast? hsz
    rw [List.getLast?_map] at this
    rw [this, hexp]

theorem recalculateError_agrees_witness :
    ∃ err r, retunedNet.recalculateError 1 [1/2] = some (err, r) ∧
      retunedNet.calculateError [⟨[1, 1/2], [1/2]⟩] = some (err, r) ∧
      retunedNet.loadRun [1, 1/2] = some r :=
  recalculateError_agrees [2, 2, 1] (1/4) (1/2) 0 [1, 1/2] [1/2] 1 ranNet retunedNet
    rfl rfl (by decide) (by decide!) (by decide!) (by decide!) (by decide!)

/-! ## Unit-interval invariant of propagation -/

theorem foldlM_some_inv {σ α : Type} (f : σ → α → Option σ) (I : σ → Prop) (xs : List α) :
    ∀ (s0 s' : σ), I s0 → (∀ s x t, x ∈ xs → I s → f s x = some t → I t) →
      xs.foldlM f s0 = some s' → I s' := by
  induction xs with
  | nil =>
    intro s0 s' h0 _ h
    simp only [List.foldlM_nil] at h
    cases h
    exact h0
  | cons x rest ih =>
    intro s0 s' h0 hstep h
    simp only [List.foldlM_cons] at h
    cases h1 : f s0 x with
    | none => simp [h1] at h
    | some s1 =>
      simp only [h1] at h
      exact ih s1 s' (hstep s0 x s1 (List.mem_cons_self _ _) h0 h1)
        (fun s y t hy => hstep s y t (List.mem_cons_of_mem _ hy)) h

theorem modNode_inv {net net' : Network} {a : NodeAddr} {f : Node → Node} (Q : Node → Prop)
    (h : net.modNode a f = some net') (hf : ∀ nd, Q nd → Q (f nd))
    (hq : ∀ b n, net.getNode b = some n → Q n) :
    ∀ b n, net'.getNode b = some n → Q n := by
  cases hnd : net.getNode a with
  | none =>
    unfold Network.getNode at hnd
    unfold Network.modNode at h
    cases hl : net.mat[a.layer]? with
    | none => simp [hl] at h
    | some layer =>
      simp only [hl] at hnd h
      simp [hnd] at h
  | some nd =>
    obtain ⟨net2, h2, _, hat, hoth⟩ := modNode_of_getNode f hnd
    rw [h] at h2
    cases h2
    intro b n hb
    by_cases hba : b = a
    · subst hba
      rw [hat] at hb
      cases hb
      exact hf nd (hq _ nd hnd)
    · rw [hoth b hba] at hb
      exact hq b n hb

theorem factor_mem_unit {k w s c : ℚ} (hk : 0 ≤ k ∧ k ≤ 1) (hw : 0 ≤ w ∧ w ≤ 1)
    (hs : 0 ≤ s ∧ s ≤ 1) (hc : 0 ≤ c ∧ c ≤ 1) :
    0 ≤ 1 - w * ((k + s - 2 * s * k) * c) ∧ 1 - w * ((k + s - 2 * s * k) * c) ≤ 1 := by
  have a1 := mul_nonneg hk.1 (sub_nonneg.mpr hs.2)
  have a2 := mul_nonneg hs.1 (sub_nonneg.mpr hk.2)
  have a3 := mul_nonneg (sub_nonneg.mpr hk.2) (sub_nonneg.mpr hs.2)
  have a4 := mul_nonneg hs.1 hk.1
  have h1 : 0 ≤ k + s - 2 * s * k := by nlinarith
  have h2 : k + s - 2 * s * k ≤ 1 := by nlinarith
  have h3 : 0 ≤ (k + s - 2 * s * k) * c := mul_nonneg h1 hc.1
  have h4 : (k + s - 2 * s * k) * c ≤ 1 := by nlinarith
  have h5 : 0 ≤ w * ((k + s - 2 * s * k) * c) := mul_nonneg hw.1 h3
  have h6 : w * ((k + s - 2 * s * k) * c) ≤ 1 := by nlinarith
  constructor <;> linarith

theorem mul_mem_unit {x y : ℚ} (hx : 0 ≤ x ∧ x ≤ 1) (hy : 0 ≤ y ∧ y ≤ 1) :
    0 ≤ x * y ∧ x * y ≤ 1 :=
  ⟨mul_nonneg hx.1 hy.1, by nlinarith⟩

theorem flowLink_unit {cur cur' : Network} {src : NodeAddr} {lnk : Connection}
    (hl : lnk.In01) (h : cur.flowLink src lnk = some cur')
    (hq : ∀ b n, cur.getNode b = some n →
      ((0 ≤ n.s ∧ n.s ≤ 1) ∧ (0 ≤ n.c ∧ n.c ≤ 1)) ∧ ∀ l ∈ n.links, l.In01) :
    ∀ b n, cur'.getNode b = some n →
      ((0 ≤ n.s ∧ n.s ≤ 1) ∧ (0 ≤ n.c ∧ n.c ≤ 1)) ∧ ∀ l ∈ n.links, l.In01 := by
  unfold Network.flowLink at h
  cases hsrc : cur.getNode src with
  | none => simp [hsrc] at h
  | some node =>
    simp only [hsrc] at h
    obtain ⟨⟨hs, hc⟩, _⟩ := hq src node hsrc
    obtain ⟨hk, hw, hcc⟩ := hl
    refine modNode_inv _ h ?_ hq
    rintro nd ⟨⟨hns, hnc⟩, hlinks⟩
    exact ⟨⟨mul_mem_unit hns (factor_mem_unit hk hw hs hc),
      mul_mem_unit hnc (factor_mem_unit hk hcc hs hc)⟩, hlinks⟩

theorem flowNode_unit {net net' : Network} {L i : Nat} (h : net.flowNode L i = some net')
    (hq : ∀ b n, net.getNode b = some n →
      ((0 ≤ n.s ∧ n.s ≤ 1) ∧ (0 ≤ n.c ∧ n.c ≤ 1)) ∧ ∀ l ∈ n.links, l.In01) :
    ∀ b n, net'.getNode b = some n →
      ((0 ≤ n.s ∧ n.s ≤ 1) ∧ (0 ≤ n.c ∧ n.c ≤ 1)) ∧ ∀ l ∈ n.links, l.In01 := by
  unfold Network.flowNode at h
  cases hnd : net.getNode ⟨L, i⟩ with
  | none => simp [hnd] at h
  | some node =>
    simp only [hnd] at h
    have hlinks := (hq _ node hnd).2
    exact foldlM_some_inv _
      (fun cur => ∀ b n, cur.getNode b = some n →
        ((0 ≤ n.s ∧ n.s ≤ 1) ∧ (0 ≤ n.c ∧ n.c ≤ 1)) ∧ ∀ l ∈ n.links, l.In01)
      node.links net net' hq
      (fun s x t hx hs hst => flowLink_unit (hlinks x hx) hst hs) h

theorem flow_unit {net net' : Network} {L : Nat} (h : net.flow L = some net')
    (hq : ∀ b n, net.getNode b = some n →
      ((0 ≤ n.s ∧ n.s ≤ 1) ∧ (0 ≤ n.c ∧ n.c ≤ 1)) ∧ ∀ l ∈ n.links, l.In01) :
    ∀ b n, net'.getNode b = some n →
      ((0 ≤ n.s ∧ n.s ≤ 1) ∧ (0 ≤ n.c ∧ n.c ≤ 1)) ∧ ∀ l ∈ n.links, l.In01 := by
  unfold Network.flow at h
  cases hl : net.mat[L]? with
  | none => simp [hl] at h
  | some layer =>
    simp only [hl] at h
    exact foldlM_some_inv _
      (fun cur => ∀ b n, cur.getNode b = some n →
        ((0 ≤ n.s ∧ n.s ≤ 1) ∧ (0 ≤ n.c ∧ n.c ≤ 1)) ∧ ∀ l ∈ n.links, l.In01)
      (List.range layer.length) net net' hq
      (fun s x t _ hs hst => flowNode_unit hst hs) h

theorem flowUpTo_unit {net net' : Network} {n : Nat} (h : net.flowUpTo n = some net')
    (hq : ∀ b nd, net.getNode b = some nd →
      ((0 ≤ nd.s ∧ nd.s ≤ 1) ∧ (0 ≤ nd.c ∧ nd.c ≤ 1)) ∧ ∀ l ∈ nd.links, l.In01) :
    ∀ b nd, net'.getNode b = some nd →
      ((0 ≤ nd.s ∧ nd.s ≤ 1) ∧ (0 ≤ nd.c ∧ nd.c ≤ 1)) ∧ ∀ l ∈ nd.links, l.In01 := by
  unfold Network.flowUpTo at h
  exact foldlM_some_inv _
    (fun cur => ∀ b nd, cur.getNode b = some nd →
      ((0 ≤ nd.s ∧ nd.s ≤ 1) ∧ (0 ≤ nd.c ∧ nd.c ≤ 1)) ∧ ∀ l ∈ nd.links, l.In01)
    (List.range n) net net' hq
    (fun s x t _ hs hst => flow_unit hst hs) h

theorem initState_unit (top : List (List (List Connection))) (input : List ℚ)
    (h01 : ∀ x ∈ input, 0 ≤ x ∧ x ≤ 1) : (initState top input).Unit01 := by
  cases top with
  | nil =>
    intro layer hl
    simp [initState] at hl
  | cons l0 rest =>
    intro layer hl n hn
    simp only [initState, List.mem_cons, List.mem_map] at hl
    rcases hl with hl | ⟨lk, _, hl⟩
    · subst hl
      obtain ⟨i, hi⟩ := List.mem_iff_getElem?.mp hn
      rw [List.getElem?_zipWith] at hi
      cases hx : input[i]? with
      | none => simp [hx] at hi
      | some x =>
        cases hk : l0[i]? with
        | none => simp [hx, hk] at hi
        | some lk =>
          simp only [hx, hk, Option.some.injEq] at hi
          subst hi
          exact ⟨h01 x (List.mem_iff_getElem?.mpr ⟨i, hx⟩), by norm_num⟩
    · subst hl
      simp only [List.mem_map] at hn
      obtain ⟨lk2, _, rfl⟩ := hn
      norm_num

theorem loadRun_unit {net : Network} {input : List ℚ} (hl : net.Linked) (hp : net.ParamsIn01)
    (hin : net.mat.head?.map List.length = some input.length)
    (h01 : ∀ x ∈ input, 0 ≤ x ∧ x ≤ 1) :
    ∃ st, net.loadRun input = some st ∧ st.topology = net.topology ∧ st.Unit01 := by
  obtain ⟨st, hst, htop⟩ := loadRun_some hl hin
  refine ⟨st, hst, htop, ?_⟩
  rw [loadRun_eq hin] at hst
  have hit := initState_topology net.topology input (by rw [head_topology]; exact hin)
  have hq : ∀ b n, (initState net.topology input).getNode b = some n →
      ((0 ≤ n.s ∧ n.s ≤ 1) ∧ (0 ≤ n.c ∧ n.c ≤ 1)) ∧ ∀ l ∈ n.links, l.In01 := by
    intro b n hb
    have hu := (forall_mem_iff_getNode _ (fun n => (0 ≤ n.s ∧ n.s ≤ 1) ∧
      (0 ≤ n.c ∧ n.c ≤ 1))).mp (initState_unit net.topology input h01) b n hb
    have hpar := (forall_mem_iff_getNode _ (fun n => ∀ l ∈ n.links, l.In01)).mp
      (paramsIn01_of_topology hit hp) b n hb
    exact ⟨hu, hpar⟩
  have := flowUpTo_unit hst hq
  exact (forall_mem_iff_getNode _ (fun n => (0 ≤ n.s ∧ n.s ≤ 1) ∧
    (0 ≤ n.c ∧ n.c ≤ 1))).mpr (fun a n ha => (this a n ha).1)

/-- C22: unit-interval invariant of propagation (exact arithmetic). For every network in
which every connection targets an existing node of a strictly later layer and has
`k`, `w`, `c` in `[0,1]`, and every input of layer-0 length with all entries in `[0,1]`,
`loadInput(input); run()` returns, and afterwards the signal and the conductivity of
every node lie in `[0,1]`. -/
theorem run_keeps_unit_interval (net : Network) (input : List ℚ) (hf : net.Forward)
    (hp : net.ParamsIn01) (hin : net.mat.head?.map List.length = some input.length)
    (h01 : ∀ x ∈ input, 0 ≤ x ∧ x ≤ 1) :
    ∃ st, net.loadRun input = some st ∧
      ∀ a nd, st.getNode a = some nd → (0 ≤ nd.s ∧ nd.s ≤ 1) ∧ (0 ≤ nd.c ∧ nd.c ≤ 1) := by
  obtain ⟨st, hst, _, hu⟩ := loadRun_unit hf.linked hp hin h01
  exact ⟨st, hst, (forall_mem_iff_getNode _ (fun n => (0 ≤ n.s ∧ n.s ≤ 1) ∧
    (0 ≤ n.c ∧ n.c ≤ 1))).mp hu⟩

theorem run_keeps_unit_interval_witness :
    ∃ st, fanInNet.loadRun [1/3, 1/2] = some st ∧
      ∀ a nd, st.getNode a = some nd → (0 ≤ nd.s ∧ nd.s ≤ 1) ∧ (0 ≤ nd.c ∧ nd.c ≤ 1) :=
  run_keeps_unit_interval fanInNet [1/3, 1/2] (by decide) (by decide!) rfl
    (by decide!)

/-! ## `tuneShallow` and the error of the batch -/

theorem calculateError_fst_congr {cur1 cur2 : Network} (tuneData : List tuneSet)
    (h : cur1.topology = cur2.topology)
    (hfit : ∀ smp ∈ tuneData, cur1.mat.head?.map List.length = some smp.input.length) :
    (cur1.calculateError tuneData).map Prod.fst =
      (cur2.calculateError tuneData).map Prod.fst := by
  cases tuneData with
  | nil => rfl
  | cons smp rest =>
    have e : Network.errorStep (0, cur1) smp = Network.errorStep (0, cur2) smp := by
      simp only [Network.errorStep, loadRun_congr h (hfit smp (List.mem_cons_self _ _))]
    simp only [Network.calculateError, List.foldlM_cons, e]

theorem head_fits_of_skeleton {net cur : Network} {tuneData : List tuneSet}
    (hfit : ∀ smp ∈ tuneData, net.Fits smp) (hs : cur.skeleton = net.skeleton) :
    ∀ smp ∈ tuneData, cur.mat.head?.map List.length = some smp.input.length := by
  intro smp hsmp
  rw [head_of_shape (skeleton_length hs)]
  exact (hfit smp hsmp).1

theorem calculateError_again {net cur n : Network} {tuneData : List tuneSet} {e : ℚ}
    (hl : net.Linked) (hfit : ∀ smp ∈ tuneData, net.Fits smp)
    (hs : cur.skeleton = net.skeleton) (h : cur.calculateError tuneData = some (e, n)) :
    n.topology = cur.topology ∧ (n.calculateError tuneData).map Prod.fst = some e := by
  obtain ⟨e2, n2, h2, htop, hsk⟩ := calculateError_skeleton tuneData hl hfit hs
  rw [h] at h2
  cases h2
  refine ⟨htop, ?_⟩
  rw [calculateError_fst_congr tuneData htop (head_fits_of_skeleton hfit hsk), h]
  rfl

theorem setProp_setProp (lnk : Connection) (prop : ConProperty) (v v' : ℚ) :
    (lnk.setProp prop v).setProp prop v' = lnk.setProp prop v' := by
  cases prop <;> rfl

theorem setProp_getProp (lnk : Connection) (prop : ConProperty) :
    lnk.setProp prop (lnk.getProp prop) = lnk := by
  cases prop <;> rfl

theorem topology_of_getLink {net1 net2 : Network}
    (hshape : net1.mat.map List.length = net2.mat.map List.length)
    (h : ∀ la, net1.getLink la = net2.getLink la) : net1.topology = net2.topology := by
  apply topology_ext hshape
  rintro ⟨l, j⟩
  have hsome := getNode_isSome_of_length hshape ⟨l, j⟩
  cases h1 : net1.getNode ⟨l, j⟩ with
  | none =>
    cases h2 : net2.getNode ⟨l, j⟩ with
    | none => rfl
    | some n2 => simp [h1, h2] at hsome
  | some n1 =>
    cases h2 : net2.getNode ⟨l, j⟩ with
    | none => simp [h1, h2] at hsome
    | some n2 =>
      simp only [Option.map_some', Option.some.injEq]
      apply List.ext_getElem?
      intro i
      have := h ⟨l, j, i⟩
      simpa [Network.getLink, h1, h2] using this

theorem probe_rel {net cur m n : Network} {tuneData : List tuneSet} (hl : net.Linked)
    (hfit : ∀ smp ∈ tuneData, net.Fits smp) (hcs : cur.skeleton = net.skeleton)
    {la : LinkAddr} {lnk : Connection} {prop : ConProperty} {v err : ℚ}
    (hms : m.skeleton = cur.skeleton)
    (hoth : ∀ la', la' ≠ la → m.getLink la' = cur.getLink la')
    (hat : ∃ v0, m.getLink la = some (lnk.setProp prop v0))
    (h : m.probe la prop v tuneData = some (err, n)) :
    n.skeleton = cur.skeleton ∧ (∀ la', la' ≠ la → n.getLink la' = cur.getLink la') ∧
      (∃ v0, n.getLink la = some (lnk.setProp prop v0)) ∧
      (n.calculateError tuneData).map Prod.fst = some err := by
  obtain ⟨v0, hgm⟩ := hat
  obtain ⟨m1, hm1, hsk1⟩ := modLink_skeleton (fun l => l.setProp prop v) hgm
    (setProp_addr _ prop v)
  obtain ⟨hg1, hoth1⟩ := getLink_modLink (fun l => l.setProp prop v) hgm hm1
  simp only [Network.probe, hm1] at h
  have hs1 : m1.skeleton = net.skeleton := hsk1.trans (hms.trans hcs)
  obtain ⟨htop, herr⟩ := calculateError_again hl hfit hs1 h
  refine ⟨(skeleton_of_topology htop).trans (hsk1.trans hms), ?_, ?_, herr⟩
  · intro la' hne
    rw [getLink_of_topology htop, hoth1 la' hne, hoth la' hne]
  · refine ⟨v, ?_⟩
    rw [getLink_of_topology htop, hg1]
    simp only [setProp_setProp]

theorem revert_rel {cur m n : Network} {la : LinkAddr} {lnk : Connection}
    {prop : ConProperty} {f : Int} (hg : cur.getLink la = some lnk)
    (hms : m.skeleton = cur.skeleton)
    (hoth : ∀ la', la' ≠ la → m.getLink la' = cur.getLink la')
    (hat : ∃ v0, m.getLink la = some (lnk.setProp prop v0))
    (h : m.revert la prop (lnk.getProp prop) = some (f, n)) :
    n.topology = cur.topology := by
  obtain ⟨v0, hgm⟩ := hat
  obtain ⟨m1, hm1, hsk1⟩ := modLink_skeleton (fun l => l.setProp prop (lnk.getProp prop)) hgm
    (setProp_addr _ prop _)
  obtain ⟨hg1, hoth1⟩ := getLink_modLink (fun l => l.setProp prop (lnk.getProp prop)) hgm hm1
  simp only [Network.revert, hm1, Option.some.injEq, Prod.mk.injEq] at h
  obtain ⟨_, rfl⟩ := h
  apply topology_of_getLink (skeleton_length (hsk1.trans hms))
  intro la'
  by_cases hne : la' = la
  · subst hne
    rw [hg1, hg]
    simp only [setProp_setProp, setProp_getProp]
  · rw [hoth1 la' hne, hoth la' hne]

theorem errLe_of_topology {net cur n : Network} {tuneData : List tuneSet} {B : ℚ}
    (hfit : ∀ smp ∈ tuneData, net.Fits smp) (hns : n.skeleton = net.skeleton)
    (htop : n.topology = cur.topology)
    (hcur : ∃ e, (cur.calculateError tuneData).map Prod.fst = some e ∧ e ≤ B) :
    ∃ e, (n.calculateError tuneData).map Prod.fst = some e ∧ e ≤ B := by
  obtain ⟨e, he, hle⟩ := hcur
  exact ⟨e, by rw [calculateError_fst_congr tuneData htop (head_fits_of_skeleton hfit hns), he],
    hle⟩

theorem tuneDown_err {net cur m n : Network} {tuneData : List tuneSet} (hl : net.Linked)
    (hfit : ∀ smp ∈ tuneData, net.Fits smp) (hcs : cur.skeleton = net.skeleton)
    {la : LinkAddr} {lnk : Connection} {prop : ConProperty} {learnMul B value : ℚ} {f : Int}
    (hg : cur.getLink la = some lnk)
    (hcur : ∃ e, (cur.calculateError tuneData).map Prod.fst = some e ∧ e ≤ B)
    (hms : m.skeleton = cur.skeleton)
    (hoth : ∀ la', la' ≠ la → m.getLink la' = cur.getLink la')
    (hat : ∃ v0, m.getLink la = some (lnk.setProp prop v0))
    (h : m.tuneDown la prop tuneData learnMul B (lnk.getProp prop) value = some (f, n)) :
    n.skeleton = net.skeleton ∧
      ∃ e, (n.calculateError tuneData).map Prod.fst = some e ∧ e ≤ B := by
  have hrev : ∀ {m2 : Network}, m2.skeleton = cur.skeleton →
      (∀ la', la' ≠ la → m2.getLink la' = cur.getLink la') →
      (∃ v0, m2.getLink la = some (lnk.setProp prop v0)) →
      m2.revert la prop (lnk.getProp prop) = some (f, n) →
      n.skeleton = net.skeleton ∧
        ∃ e, (n.calculateError tuneData).map Prod.fst = some e ∧ e ≤ B := by
    intro m2 h1 h2 h3 h4
    have htop := revert_rel hg h1 h2 h3 h4
    have hns : n.skeleton = net.skeleton := (skeleton_of_topology htop).trans hcs
    exact ⟨hns, errLe_of_topology hfit hns htop hcur⟩
  unfold Network.tuneDown at h
  by_cases hv : value > 0
  · rw [if_pos hv] at h
    dsimp only at h
    cases hp : m.probe la prop
        (if lnk.getProp prop - learnMul < 0 then 0 else lnk.getProp prop - learnMul)
        tuneData with
    | none =>
      rw [hp] at h
      simp at h
    | some res =>
      obtain ⟨err, n2⟩ := res
      simp only [hp] at h
      obtain ⟨h2s, h2o, h2a, h2e⟩ := probe_rel hl hfit hcs hms hoth hat hp
      by_cases h1 : err < B
      · simp only [h1, if_true, Option.some.injEq, Prod.mk.injEq] at h
        obtain ⟨_, rfl⟩ := h
        exact ⟨h2s.trans hcs, err, h2e, le_of_lt h1⟩
      · simp only [h1, if_false] at h
        by_cases h2 : err = B
        · simp only [h2, if_true, Option.some.injEq, Prod.mk.injEq] at h
          obtain ⟨_, rfl⟩ := h
          exact ⟨h2s.trans hcs, err, h2e, le_of_eq h2⟩
        · simp only [h2, if_false] at h
          exact hrev h2s h2o h2a h
  · rw [if_neg hv] at h
    exact hrev hms hoth hat h

theorem tuneLink_err {net cur n : Network} {tuneData : List tuneSet} (hl : net.Linked)
    (hfit : ∀ smp ∈ tuneData, net.Fits smp) (hcs : cur.skeleton = net.skeleton)
    {addr : NodeAddr} {j : Nat} {prop : ConProperty} {learnMul B : ℚ} {f : Int}
    (hcur : ∃ e, (cur.calculateError tuneData).map Prod.fst = some e ∧ e ≤ B)
    (h : cur.tuneLink addr j prop tuneData learnMul B = some (f, n)) :
    n.skeleton = net.skeleton ∧
      ∃ e, (n.calculateError tuneData).map Prod.fst = some e ∧ e ≤ B := by
  unfold Network.tuneLink at h
  cases hg : cur.getLink ⟨addr.layer, addr.node, j⟩ with
  | none => simp [hg] at h
  | some lnk =>
    simp only [hg] at h
    have hat0 : ∃ v0, cur.getLink ⟨addr.layer, addr.node, j⟩ = some (lnk.setProp prop v0) :=
      ⟨lnk.getProp prop, by rw [hg, setProp_getProp]⟩
    by_cases hp1 : lnk.getProp prop < 1
    · rw [if_pos hp1] at h
      cases hp : cur.probe ⟨addr.layer, addr.node, j⟩ prop
          (if lnk.getProp prop + learnMul > 1 then 1 else lnk.getProp prop + learnMul)
          tuneData with
      | none =>
      rw [hp] at h
      simp at h
      | some res =>
        obtain ⟨err, n1⟩ := res
        simp only [hp] at h
        obtain ⟨h1s, h1o, h1a, h1e⟩ :=
          probe_rel hl hfit hcs rfl (fun _ _ => rfl) hat0 hp
        by_cases h1 : err < B
        · simp only [h1, if_true, Option.some.injEq, Prod.mk.injEq] at h
          obtain ⟨_, rfl⟩ := h
          exact ⟨h1s.trans hcs, err, h1e, le_of_lt h1⟩
        · simp only [h1, if_false] at h
          by_cases h2 : err = B
          · simp only [h2, if_true, Option.some.injEq, Prod.mk.injEq] at h
            obtain ⟨_, rfl⟩ := h
            exact ⟨h1s.trans hcs, err, h1e, le_of_eq h2⟩
          · simp only [h2, if_false] at h
            exact tuneDown_err hl hfit hcs hg hcur h1s h1o h1a h
    · rw [if_neg hp1] at h
      exact tuneDown_err hl hfit hcs hg hcur rfl (fun _ _ => rfl) hat0 h

theorem tuneShallow_err {net : Network} (tuneData : List tuneSet) (hl : net.Linked)
    (hfit : ∀ smp ∈ tuneData, net.Fits smp) (addr : NodeAddr) {nd : Node}
    (hnd : net.getNode addr = some nd) (prop : ConProperty) (learnMul : ℚ) :
    ∃ before n0 res net' after n1, net.calculateError tuneData = some (before, n0) ∧
      net.tuneShallow addr prop tuneData learnMul = some (res, net') ∧
      net'.calculateError tuneData = some (after, n1) ∧ after ≤ before := by
  obtain ⟨res, net', hts, _⟩ := tuneShallow_spec tuneData hl hfit addr hnd prop learnMul
  obtain ⟨before, n0, hce, _⟩ := calculateError_spec tuneData hl hfit
  obtain ⟨htop0, herr0⟩ := calculateError_again hl hfit rfl hce
  have hn0s : n0.skeleton = net.skeleton := skeleton_of_topology htop0
  have hfold := hts
  simp only [Network.tuneShallow, hce] at hfold
  cases hn0 : n0.getNode addr with
  | none => simp [hn0] at hfold
  | some node =>
    simp only [hn0] at hfold
    have hinv := foldlM_some_inv (Network.tuneStep addr prop tuneData learnMul before)
      (fun acc => acc.2.skeleton = net.skeleton ∧
        ∃ e, (acc.2.calculateError tuneData).map Prod.fst = some e ∧ e ≤ before)
      (List.range node.links.length) (⟨0, 0⟩, n0) (res, net')
      ⟨hn0s, before, herr0, le_refl _⟩
      (by
        intro acc j t _ hacc hstep
        unfold Network.tuneStep at hstep
        cases htl : acc.2.tuneLink addr j prop tuneData learnMul before with
        | none => simp [htl] at hstep
        | some r =>
          obtain ⟨f, n⟩ := r
          simp only [htl, Option.some.injEq] at hstep
          subst hstep
          exact tuneLink_err hl hfit hacc.1 hacc.2 htl) hfold
    obtain ⟨hs', after, hafter, hle⟩ := hinv
    simp only at hs' hafter
    cases hc' : net'.calculateError tuneData with
    | none => simp [hc'] at hafter
    | some r =>
      obtain ⟨a, n1⟩ := r
      simp only [hc', Option.map_some', Option.some.injEq] at hafter
      subst hafter
      exact ⟨before, n0, res, net', a, n1, hce, hts, hc', hle⟩

theorem buildByText_eq (inputWords netWordSize : Nat) :
    buildByText inputWords netWordSize = patternNet inputWords netWordSize [] := by
  simp only [buildByText, buildByConfig, buildLayers, patternNet, patternLinks, uniformLinks,
    List.range_zero, List.map_nil, List.replicate_zero, List.mapIdx_nil, List.flatten_nil]
  congr 1
  simp only [List.set_cons_succ, List.set_cons_zero, List.cons.injEq, and_true, true_and]
  apply List.ext_getElem?
  intro i
  simp only [List.getElem?_replicate, List.getElem?_map]
  by_cases hi : i < netWordSize * inputWords
  · simp [hi, List.getElem?_range hi]
  · have : (List.range (netWordSize * inputWords))[i]? = none :=
      List.getElem?_eq_none (by simp; omega)
    simp [hi, this]

theorem patternLinks_concat (patterns : List (List Nat × Nat)) (p : List Nat × Nat) (i : Nat) :
    patternLinks (patterns ++ [p]) i =
      patternLinks patterns i ++
        (p.1.filter (fun j => decide (j = i))).map
          (fun _ => (⟨1, 1, 0, ⟨1, patterns.length⟩⟩ : Connection)) := by
  simp only [patternLinks, List.mapIdx_concat, List.flatten_concat]

theorem addInputs_eq (M : Nat) (base : Nat → List Connection) (c : Connection)
    (l1 l2 l3 : List Node) (xs : List Nat) (hxs : ∀ x ∈ xs, x < M) :
    xs.foldlM
      (fun (cur : Network) i => cur.modNode ⟨0, i⟩
        (fun nd => { nd with links := nd.links ++ [c] }))
      ⟨[(List.range M).map (fun i => (⟨0, 0, base i⟩ : Node)), l1, l2, l3]⟩ =
    some ⟨[(List.range M).map (fun i => (⟨0, 0, base i ++
      (xs.filter (fun j => decide (j = i))).map (fun _ => c)⟩ : Node)), l1, l2, l3]⟩ := by
  obtain ⟨s', hs', hI⟩ := foldlM_list_inv
    (fun (cur : Network) i => cur.modNode ⟨0, i⟩
      (fun nd => { nd with links := nd.links ++ [c] }))
    (fun pre cur => cur = ⟨[(List.range M).map (fun i => (⟨0, 0, base i ++
      (pre.filter (fun j => decide (j = i))).map (fun _ => c)⟩ : Node)), l1, l2, l3]⟩)
    xs ⟨[(List.range M).map (fun i => (⟨0, 0, base i⟩ : Node)), l1, l2, l3]⟩
    (by simp)
    (by
      intro pre x suf s hsplit hs
      have hx : x < M := hxs x (by rw [hsplit]; simp)
      subst hs
      refine ⟨_, ?_, rfl⟩
      simp only [Network.modNode, List.getElem?_cons_zero, List.getElem?_map,
        List.getElem?_range hx, Option.map_some', List.set_cons_zero]
      congr 2
      simp only [List.cons.injEq, and_true]
      apply List.ext_getElem?
      intro i
      simp only [List.getElem?_set, List.getElem?_map, List.length_map, List.length_range]
      by_cases hxi : x = i
      · subst hxi
        simp [hx, List.getElem?_range hx, List.filter_append]
        exact (List.replicate_succ' _ _).symm
      · simp only [hxi, if_false]
        by_cases hi : i < M
        · simp [List.getElem?_range hi, List.filter_append, hxi]
        · have : (List.range M)[i]? = none := List.getElem?_eq_none (by simp; omega)
          simp [this])
  rw [hs', hI]

theorem addLogicPattern_patternNet (inputWords netWordSize : Nat)
    (patterns : List (List Nat × Nat)) (p : List Nat × Nat)
    (hp : ∀ i ∈ p.1, i < netWordSize * inputWords) :
    (patternNet inputWords netWordSize patterns).addLogicPattern p.1 p.2 =
      some (patternNet inputWords netWordSize (patterns ++ [p])) := by
  simp only [Network.addLogicPattern, patternNet, List.getElem?_cons_succ,
    List.getElem?_cons_zero, List.set_cons_succ, List.set_cons_zero, List.length_map]
  rw [addInputs_eq _ _ _ _ _ _ _ hp]
  simp only [patternLinks_concat, List.map_append, List.map_cons, List.map_nil]

theorem addLogicPatterns_eq (inputWords netWordSize : Nat) (patterns : List (List Nat × Nat))
    (hv : ValidPatterns inputWords netWordSize patterns) :
    (buildByText inputWords netWordSize).addLogicPatterns patterns =
      some (patternNet inputWords netWordSize patterns) := by
  induction patterns using List.reverseRecOn with
  | nil =>
    rw [buildByText_eq]
    rfl
  | append_singleton ps p ih =>
    have hv' : ValidPatterns inputWords netWordSize ps :=
      fun q hq => hv q (List.mem_append_left _ hq)
    have hp := (hv p (by simp)).1
    simp only [Network.addLogicPatterns, List.foldlM_append, List.foldlM_cons,
      List.foldlM_nil] at ih ⊢
    rw [ih hv']
    simp only [Option.bind_eq_bind, Option.some_bind, addLogicPattern_patternNet _ _ _ _ hp]
    rfl

theorem mem_patternLinks {patterns : List (List Nat × Nat)} {i : Nat} {lnk : Connection}
    (h : lnk ∈ patternLinks patterns i) :
    ∃ a, a < patterns.length ∧ lnk = ⟨1, 1, 0, ⟨1, a⟩⟩ := by
  induction patterns using List.reverseRecOn with
  | nil => simp [patternLinks] at h
  | append_singleton ps p ih =>
    rw [patternLinks_concat, List.mem_append] at h
    rcases h with h | h
    · obtain ⟨a, ha, hl⟩ := ih h
      exact ⟨a, by simp only [List.length_append, List.length_singleton]; omega, hl⟩
    · simp only [List.mem_map] at h
      obtain ⟨_, _, rfl⟩ := h
      exact ⟨ps.length, by simp, rfl⟩

theorem patternNet_getNode (inputWords netWordSize : Nat) (patterns : List (List Nat × Nat))
    {a : NodeAddr} {n : Node}
    (h : (patternNet inputWords netWordSize patterns).getNode a = some n) :
    (a.layer = 0 ∧ a.node < netWordSize * inputWords ∧
        n = ⟨0, 0, patternLinks patterns a.node⟩) ∨
      (a.layer = 1 ∧ ∃ p, patterns[a.node]? = some p ∧ n = ⟨0, 0, [⟨0, 1, 0, ⟨2, p.2⟩⟩]⟩) ∨
      (a.layer = 2 ∧ a.node < netWordSize ∧ n = ⟨0, 0, [⟨0, 1, 0, ⟨3, a.node⟩⟩]⟩) ∨
      (a.layer = 3 ∧ a.node < netWordSize ∧ n = Node.blank) := by
  obtain ⟨l, j⟩ := a
  simp only [Network.getNode, patternNet] at h
  match l, h with
  | 0, h =>
    simp only [List.getElem?_cons_zero, List.getElem?_map] at h
    have hj : j < netWordSize * inputWords := by
      by_contra hc
      rw [List.getElem?_eq_none (by simp; omega)] at h
      simp at h
    rw [List.getElem?_range hj] at h
    simp only [Option.map_some', Option.some.injEq] at h
    exact Or.inl ⟨rfl, hj, h.symm⟩
  | 1, h =>
    simp only [List.getElem?_cons_succ, List.getElem?_cons_zero, List.getElem?_map] at h
    cases hp : patterns[j]? with
    | none => simp [hp] at h
    | some p =>
      simp only [hp, Option.map_some', Option.some.injEq] at h
      exact Or.inr (Or.inl ⟨rfl, p, rfl, h.symm⟩)
  | 2, h =>
    simp only [List.getElem?_cons_succ, List.getElem?_cons_zero, List.getElem?_map] at h
    have hj : j < netWordSize := by
      by_contra hc
      rw [List.getElem?_eq_none (by simp; omega)] at h
      simp at h
    rw [List.getElem?_range hj] at h
    simp only [Option.map_some', Option.some.injEq] at h
    exact Or.inr (Or.inr (Or.inl ⟨rfl, hj, h.symm⟩))
  | 3, h =>
    simp only [List.getElem?_cons_succ, List.getElem?_cons_zero,
      List.getElem?_replicate] at h
    by_cases hj : j < netWordSize
    · simp only [hj, if_true, Option.some.injEq] at h
      exact Or.inr (Or.inr (Or.inr ⟨rfl, hj, h.symm⟩))
    · simp [hj] at h
  | l + 4, h => simp at h

theorem patternNet_layered {inputWords netWordSize : Nat} {patterns : List (List Nat × Nat)}
    (hv : ValidPatterns inputWords netWordSize patterns) :
    (patternNet inputWords netWordSize patterns).Layered := by
  intro a n hn lnk hl
  rcases patternNet_getNode _ _ _ hn with ⟨h0, _, rfl⟩ | ⟨h1, p, hp, rfl⟩ | ⟨h2, hj, rfl⟩ |
    ⟨h3, _, rfl⟩
  · obtain ⟨b, hb, rfl⟩ := mem_patternLinks hl
    refine ⟨by simp [h0], ?_⟩
    simp [Network.getNode, patternNet, List.getElem?_eq_getElem hb]
  · simp only [List.mem_singleton] at hl
    subst hl
    have hlt := (hv p (List.mem_iff_getElem?.mpr ⟨_, hp⟩)).2
    refine ⟨by simp [h1], ?_⟩
    simp [Network.getNode, patternNet, List.getElem?_range hlt]
  · simp only [List.mem_singleton] at hl
    subst hl
    refine ⟨by simp [h2], ?_⟩
    simp [Network.getNode, patternNet, hj]
  · simp [Node.blank] at hl

theorem patternNet_noCond (inputWords netWordSize : Nat) (patterns : List (List Nat × Nat)) :
    (patternNet inputWords netWordSize patterns).NoCond := by
  unfold Network.NoCond
  rw [forall_mem_iff_getNode _ (fun n => ∀ lnk ∈ n.links, lnk.c = 0)]
  intro a n hn lnk hl
  rcases patternNet_getNode _ _ _ hn with ⟨_, _, rfl⟩ | ⟨_, p, _, rfl⟩ | ⟨_, _, rfl⟩ |
    ⟨_, _, rfl⟩
  · obtain ⟨b, _, rfl⟩ := mem_patternLinks hl
    rfl
  · simp only [List.mem_singleton] at hl
    subst hl
    rfl
  · simp only [List.mem_singleton] at hl
    subst hl
    rfl
  · simp [Node.blank] at hl

/-! ## The demo network: products -/

theorem linkProd_append (g : Connection → ℚ) (l1 l2 : List Connection) (t : NodeAddr) :
    linkProd g (l1 ++ l2) t = linkProd g l1 t * linkProd g l2 t := by
  simp [linkProd, List.filter_append]

theorem linkProd_const (g : Connection → ℚ) (c : Connection) (xs : List Nat) (t : NodeAddr) :
    linkProd g (xs.map (fun _ => c)) t = if c.addr = t then g c ^ xs.length else 1 := by
  induction xs with
  | nil => simp [linkProd]
  | cons x rest ih =>
    have : (x :: rest).map (fun _ => c) = [c] ++ rest.map (fun _ => c) := rfl
    rw [this, linkProd_append, ih]
    by_cases h : c.addr = t
    · simp [linkProd, h, pow_succ, mul_comm]
    · simp [linkProd, h]

theorem linkProd_patternLinks (g : Connection → ℚ) (patterns : List (List Nat × Nat))
    (i a : Nat) :
    linkProd g (patternLinks patterns i) ⟨1, a⟩ =
      g ⟨1, 1, 0, ⟨1, a⟩⟩ ^
        ((patterns.getD a ([], 0)).1.filter (fun j => decide (j = i))).length := by
  induction patterns using List.reverseRecOn with
  | nil => simp [patternLinks, linkProd]
  | append_singleton ps p ih =>
    rw [patternLinks_concat, linkProd_append, ih, linkProd_const]
    simp only [List.getD_eq_getElem?_getD, List.getElem?_append]
    by_cases h1 : a < ps.length
    · have hne : ¬ ps.length = a := by omega
      simp [h1, hne]
    · by_cases h2 : a = ps.length
      · subst h2
        simp
      · have hne : ¬ ps.length = a := fun e => h2 e.symm
        have h3 : ps[a]? = none := List.getElem?_eq_none (by omega)
        have h4 : [p][a - ps.length]? = none :=
          List.getElem?_eq_none (by simp only [List.length_singleton]; omega)
        simp [h1, hne, h3, h4]

theorem prod_range_pow_count (f : Nat → ℚ) (M : Nat) (xs : List Nat)
    (hxs : ∀ x ∈ xs, x < M) :
    ((List.range M).map
      (fun i => f i ^ (xs.filter (fun j => decide (j = i))).length)).prod =
      (xs.map f).prod := by
  induction xs with
  | nil => simp
  | cons x rest ih =>
    have hx : x < M := hxs x (List.mem_cons_self _ _)
    have hsplit : (fun i => f i ^ ((x :: rest).filter (fun j => decide (j = i))).length) =
        (fun i => (if x = i then f i else 1) *
          f i ^ (rest.filter (fun j => decide (j = i))).length) := by
      funext i
      by_cases hxi : x = i
      · simp [List.filter_cons, hxi, pow_succ, mul_comm]
      · simp [List.filter_cons, hxi]
    rw [hsplit, List.prod_map_mul, ih (fun y hy => hxs y (List.mem_cons_of_mem _ hy)),
      List.map_cons, List.prod_cons]
    congr 1
    rw [prod_map_unique (List.range M) (fun i => if x = i then f i else 1) x x
      (List.getElem?_range hx)]
    · simp
    · intro i' y hne hy
      have hi' : i' < M := by
        have := lt_length_of_getElem? hy
        simpa using this
      rw [List.getElem?_range hi'] at hy
      cases hy
      have : ¬ x = i' := fun e => hne e.symm
      simp [this]

theorem prod_filter_map {α : Type} (l : List α) (q : α → Bool) (h : α → ℚ) :
    ((l.filter q).map h).prod = (l.map (fun x => if q x = true then h x else 1)).prod := by
  induction l with
  | nil => simp
  | cons x rest ih =>
    by_cases hq : q x = true
    · simp [List.filter_cons, hq, ih]
    · simp [List.filter_cons, hq, ih]

theorem andFactor_eq (s : Nat → ℚ) (M : Nat) (patterns : List (List Nat × Nat))
    (a : Nat) (p : List Nat × Nat) (hp : patterns[a]? = some p) (hin : ∀ i ∈ p.1, i < M) :
    signalFactor ((List.range M).map
      (fun i => (⟨s i, 1, patternLinks patterns i⟩ : Node))) ⟨1, a⟩ = (p.1.map s).prod := by
  rw [signalFactor_eq, List.map_map]
  have hfun : ((fun (n : Node) =>
      linkProd (fun lnk => 1 - lnk.w * attenuation n lnk) n.links ⟨1, a⟩) ∘
      (fun i => (⟨s i, 1, patternLinks patterns i⟩ : Node))) =
      (fun i => s i ^ (p.1.filter (fun j => decide (j = i))).length) := by
    funext i
    simp only [Function.comp_apply, linkProd_patternLinks, List.getD_eq_getElem?_getD, hp,
      Option.getD_some, attenuation]
    congr 1
    ring
  rw [hfun, prod_range_pow_count s M p.1 hin]

theorem orFactor_eq (A : List Nat → ℚ) (patterns : List (List Nat × Nat)) (o : Nat) :
    signalFactor (patterns.map
      (fun p => (⟨A p.1, 1, [⟨0, 1, 0, ⟨2, p.2⟩⟩]⟩ : Node))) ⟨2, o⟩ =
      ((patterns.filter (fun p => decide (p.2 = o))).map (fun p => 1 - A p.1)).prod := by
  rw [signalFactor_eq, List.map_map, prod_filter_map]
  congr 1
  apply List.map_congr_left
  intro p _
  by_cases h : p.2 = o
  · simp [linkProd, attenuation, h]
  · simp [linkProd, attenuation, h]

theorem outFactor_eq (v : Nat → ℚ) (N o : Nat) (ho : o < N) :
    signalFactor ((List.range N).map
      (fun i => (⟨v i, 1, [⟨0, 1, 0, ⟨3, i⟩⟩]⟩ : Node))) ⟨3, o⟩ = 1 - v o := by
  rw [signalFactor_eq, List.map_map,
    prod_map_unique (List.range N) _ o o (List.getElem?_range ho)]
  · simp [linkProd, attenuation]
  · intro i' y hne hy
    have hi' : i' < N := by
      have := lt_length_of_getElem? hy
      simpa using this
    rw [List.getElem?_range hi'] at hy
    cases hy
    simp [linkProd, hne]

/-! ## The demo network: layer values of a run -/

theorem patternNet_head (inputWords netWordSize : Nat) (patterns : List (List Nat × Nat))
    (input : List ℚ) (hlen : input.length = netWordSize * inputWords) :
    (patternNet inputWords netWordSize patterns).mat.head?.map List.length =
      some input.length := by
  simp [patternNet, hlen]

theorem layerVal_pattern_zero (inputWords netWordSize : Nat)
    (patterns : List (List Nat × Nat)) (input : List ℚ)
    (hlen : input.length = netWordSize * inputWords) :
    layerVal (patternNet inputWords netWordSize patterns) input 0 =
      (List.range (netWordSize * inputWords)).map
        (fun i => (⟨input.getD i 0, 1, patternLinks patterns i⟩ : Node)) := by
  simp only [layerVal, patternNet, List.getD_cons_zero]
  apply List.ext_getElem?
  intro i
  simp only [List.getElem?_zipWith, List.getElem?_map]
  by_cases hi : i < netWordSize * inputWords
  · have hi' : i < input.length := by omega
    simp [List.getElem?_range hi, List.getElem?_eq_getElem hi', List.getD_eq_getElem?_getD]
  · have e1 : (List.range (netWordSize * inputWords))[i]? = none :=
      List.getElem?_eq_none (by simp; omega)
    have e2 : input[i]? = none := List.getElem?_eq_none (by omega)
    simp [e1, e2]

theorem layerVal_pattern_one {inputWords netWordSize : Nat}
    {patterns : List (List Nat × Nat)} (input : List ℚ)
    (hv : ValidPatterns inputWords netWordSize patterns)
    (hlen : input.length = netWordSize * inputWords) :
    layerVal (patternNet inputWords netWordSize patterns) input 1 =
      patterns.map (fun p => (⟨andValue input p.1, 1, [⟨0, 1, 0, ⟨2, p.2⟩⟩]⟩ : Node)) := by
  have hin := patternNet_head inputWords netWordSize patterns input hlen
  have hnc := patternNet_noCond inputWords netWordSize patterns
  rw [layerVal]
  apply List.ext_getElem?
  intro a
  rw [List.getElem?_mapIdx, List.getElem?_map]
  have hg : (patternNet inputWords netWordSize patterns).mat.getD (0 + 1) [] =
      patterns.map (fun p => (⟨0, 0, [⟨0, 1, 0, ⟨2, p.2⟩⟩]⟩ : Node)) := rfl
  rw [hg, List.getElem?_map]
  cases hp : patterns[a]? with
  | none => rfl
  | some p =>
    simp only [Option.map_some', Option.some.injEq]
    rw [condFactor_noCond _ _ (layerVal_noCond hnc hin 0),
      layerVal_pattern_zero inputWords netWordSize patterns input hlen,
      andFactor_eq (fun i => input.getD i 0) _ patterns a p hp
        (hv p (List.mem_iff_getElem?.mpr ⟨a, hp⟩)).1]
    rfl

theorem layerVal_pattern_two {inputWords netWordSize : Nat}
    {patterns : List (List Nat × Nat)} (input : List ℚ)
    (hv : ValidPatterns inputWords netWordSize patterns)
    (hlen : input.length = netWordSize * inputWords) :
    layerVal (patternNet inputWords netWordSize patterns) input 2 =
      (List.range netWordSize).map (fun o =>
        (⟨1 - orValue input patterns o, 1, [⟨0, 1, 0, ⟨3, o⟩⟩]⟩ : Node)) := by
  have hin := patternNet_head inputWords netWordSize patterns input hlen
  have hnc := patternNet_noCond inputWords netWordSize patterns
  rw [layerVal]
  apply List.ext_getElem?
  intro o
  rw [List.getElem?_mapIdx, List.getElem?_map]
  have hg : (patternNet inputWords netWordSize patterns).mat.getD (1 + 1) [] =
      (List.range netWordSize).map (fun i => (⟨0, 0, [⟨0, 1, 0, ⟨3, i⟩⟩]⟩ : Node)) := rfl
  rw [hg, List.getElem?_map]
  by_cases ho : o < netWordSize
  · rw [List.getElem?_range ho]
    simp only [Option.map_some', Option.some.injEq]
    rw [condFactor_noCond _ _ (layerVal_noCond hnc hin 1),
      layerVal_pattern_one input hv hlen, orFactor_eq (andValue input) patterns o]
    simp [orValue]
  · rw [List.getElem?_eq_none (by simp; omega)]
    rfl

theorem layerVal_pattern_three {inputWords netWordSize : Nat}
    {patterns : List (List Nat × Nat)} (input : List ℚ)
    (hv : ValidPatterns inputWords netWordSize patterns)
    (hlen : input.length = netWordSize * inputWords) :
    layerVal (patternNet inputWords netWordSize patterns) input 3 =
      (List.range netWordSize).map (fun o =>
        (⟨orValue input patterns o, 1, []⟩ : Node)) := by
  have hin := patternNet_head inputWords netWordSize patterns input hlen
  have hnc := patternNet_noCond inputWords netWordSize patterns
  rw [layerVal]
  apply List.ext_getElem?
  intro o
  rw [List.getElem?_mapIdx, List.getElem?_map]
  have hg : (patternNet inputWords netWordSize patterns).mat.getD (2 + 1) [] =
      List.replicate netWordSize Node.blank := rfl
  rw [hg, List.getElem?_replicate]
  by_cases ho : o < netWordSize
  · rw [List.getElem?_range ho]
    simp only [ho, if_true, Option.map_some', Option.some.injEq]
    rw [condFactor_noCond _ _ (layerVal_noCond hnc hin 2),
      layerVal_pattern_two input hv hlen,
      outFactor_eq (fun o => 1 - orValue input patterns o) netWordSize o ho]
    simp [Node.blank]
  · rw [List.getElem?_eq_none (by simp; omega)]
    simp [ho]

theorem patternNet_run {inputWords netWordSize : Nat} {patterns : List (List Nat × Nat)}
    (input : List ℚ) (hv : ValidPatterns inputWords netWordSize patterns)
    (hlen : input.length = netWordSize * inputWords) :
    ∃ st, (patternNet inputWords netWordSize patterns).loadRun input = some st ∧
      st.output = some ((List.range netWordSize).map (orValue input patterns)) := by
  have hin := patternNet_head inputWords netWordSize patterns input hlen
  refine ⟨_, loadRun_layered (patternNet_layered hv) hin, ?_⟩
  have h4 : (patternNet inputWords netWordSize patterns).mat.length = 4 := rfl
  rw [output_stateUpTo (by omega), h4, layerVal_pattern_three input hv hlen]
  simp [List.map_map, Function.comp_def]

theorem getD_binary {input : List ℚ} (h01 : ∀ x ∈ input, x = 0 ∨ x = 1) (i : Nat) :
    input.getD i 0 = 0 ∨ input.getD i 0 = 1 := by
  rw [List.getD_eq_getElem?_getD]
  cases hi : input[i]? with
  | none => exact Or.inl rfl
  | some x => exact h01 x (List.mem_iff_getElem?.mpr ⟨i, hi⟩)

theorem andValue_binary {input : List ℚ} (h01 : ∀ x ∈ input, x = 0 ∨ x = 1)
    (xs : List Nat) :
    ((∀ i ∈ xs, input.getD i 0 = 1) → andValue input xs = 1) ∧
      (¬ (∀ i ∈ xs, input.getD i 0 = 1) → andValue input xs = 0) := by
  induction xs with
  | nil => simp [andValue]
  | cons x rest ih =>
    have hcons : andValue input (x :: rest) = input.getD x 0 * andValue input rest := by
      simp [andValue]
    rw [hcons]
    constructor
    · intro h
      rw [h x (List.mem_cons_self _ _), ih.1 (fun i hi => h i (List.mem_cons_of_mem _ hi))]
      norm_num
    · intro h
      rcases getD_binary h01 x with h0 | h1
      · rw [h0, zero_mul]
      · have hrest : ¬ (∀ i ∈ rest, input.getD i 0 = 1) := by
          intro hall
          apply h
          intro i hi
          rcases List.mem_cons.mp hi with rfl | hi'
          · exact h1
          · exact hall i hi'
        rw [ih.2 hrest, mul_zero]

theorem orValue_binary {input : List ℚ} (h01 : ∀ x ∈ input, x = 0 ∨ x = 1)
    (patterns : List (List Nat × Nat)) (o : Nat) :
    ((∃ p ∈ patterns, p.2 = o ∧ ∀ i ∈ p.1, input.getD i 0 = 1) →
        orValue input patterns o = 1) ∧
      (¬ (∃ p ∈ patterns, p.2 = o ∧ ∀ i ∈ p.1, input.getD i 0 = 1) →
        orValue input patterns o = 0) := by
  unfold orValue
  constructor
  · rintro ⟨p, hp, ho, hall⟩
    have hz : ((patterns.filter (fun p => decide (p.2 = o))).map
        (fun p => 1 - andValue input p.1)).prod = 0 := by
      apply List.prod_eq_zero
      rw [List.mem_map]
      refine ⟨p, ?_, ?_⟩
      · rw [List.mem_filter]
        exact ⟨hp, by simpa using ho⟩
      · rw [(andValue_binary h01 p.1).1 hall]
        norm_num
    rw [hz]
    norm_num
  · intro hnone
    have hone : ((patterns.filter (fun p => decide (p.2 = o))).map
        (fun p => 1 - andValue input p.1)).prod = 1 := by
      apply prod_map_eq_one
      intro p hp
      rw [List.mem_filter] at hp
      have ho : p.2 = o := by simpa using hp.2
      have : ¬ (∀ i ∈ p.1, input.getD i 0 = 1) := fun hall => hnone ⟨p, hp.1, ho, hall⟩
      rw [(andValue_binary h01 p.1).2 this]
      norm_num
    rw [hone]
    norm_num

end kpsm2sk
